import Mathlib

/-! Gamma tracking efficiency module: clustering and sequence comparison.

A shallow embedding of `snemo_gamma_tracking_efficiency_module.cc`.

* `geomtools::geom_id` is a type `G` with decidable equality (clustering) or a
  linear order (where it is the key of a `std::set`).
* `std::vector` is `List`, `push_back` appends at the end.
* `std::set<geom_id>` (`calo_list_type`) is a strictly increasing list,
  `std::map<K, V>` a list of pairs with strictly increasing keys.
* Hit times (`double`) are exact rationals: comparisons and the subtraction
  `t1 - t0` are taken without rounding, and there is no NaN.
* The three locators of the geometry plugin are not part of the module; what
  they leave in `the_neighbours` is the parameter `neighbours`.
* The recursion of `get_new_neighbours` is bounded by a fuel argument that
  counts nested activations; running out of fuel gives `none`.
* The data record is a structure of optional banks; a C++ exception is the
  `error` case of `Except logic_error`; `size_t` counters are `Nat`.
* Histogram filling and logging are left out.
-/

namespace analysis

/-- Calibrated calorimeter hit, as far as the module reads it:
`get_geom_id()` and `get_time()`. -/
structure calibrated_calorimeter_hit (G : Type) where
  geom_id : G
  time : ℚ
deriving DecidableEq

section clustering

variable {G : Type} [DecidableEq G]

/-- The test `std::find_if(cch.begin(), cch.end(), [ineighbour] ...) != cch.end()`:
some hit of the collection sits on block `gid`. -/
def has_hit (cch : List (calibrated_calorimeter_hit G)) (gid : G) : Bool :=
  cch.any (fun icalo => decide (gid = icalo.geom_id))

/-- First loop of `get_new_neighbours` (lines 268-275): every neighbour that has
a hit and is not yet in `ccl` is pushed to `the_calib_neighbours`, `ccl` and
`a_cluster`. The state is `(the_calib_neighbours, ccl, a_cluster)`. -/
def neighbour_loop (cch : List (calibrated_calorimeter_hit G)) :
    List G → List G × List G × List G → List G × List G × List G
  | [], st => st
  | ineighbour :: rest, (the_calib_neighbours, ccl, a_cluster) =>
    if has_hit cch ineighbour = true ∧ ineighbour ∉ ccl then
      neighbour_loop cch rest
        (the_calib_neighbours ++ [ineighbour], ccl ++ [ineighbour], a_cluster ++ [ineighbour])
    else
      neighbour_loop cch rest (the_calib_neighbours, ccl, a_cluster)

/-- Second loop of `get_new_neighbours` (lines 277-278): the calls on the
calibrated neighbours, one after the other, on the shared `(ccl, a_cluster)`. -/
def recursion_loop (call : G → List G × List G → Option (List G × List G)) :
    List G → List G × List G → Option (List G × List G)
  | [], st => some st
  | i_calib_neighbour :: rest, st =>
    match call i_calib_neighbour st with
    | none => none
    | some st1 => recursion_loop call rest st1

/-- `get_new_neighbours(gid, cch, ccl, a_cluster)` (lines 239-279). The two
vectors passed by reference are the state `(ccl, a_cluster)`. -/
def get_new_neighbours (neighbours : G → List G) (cch : List (calibrated_calorimeter_hit G)) :
    Nat → G → List G × List G → Option (List G × List G)
  | 0, _, _ => none
  | fuel + 1, gid, (ccl, a_cluster) =>
    if gid ∈ ccl then some (ccl, a_cluster)
    else
      let st := neighbour_loop cch (neighbours gid) ([], ccl ++ [gid], a_cluster)
      recursion_loop (get_new_neighbours neighbours cch fuel) st.1 st.2

/-- Seed loop of `_pre_process_clustering` (lines 324-339) over the hits still
to visit; the state is `(ccl, the_reconstructed_clusters)`. -/
def seed_loop (neighbours : G → List G) (cch : List (calibrated_calorimeter_hit G))
    (fuel : Nat) :
    List (calibrated_calorimeter_hit G) → List G × List (List G) →
      Option (List G × List (List G))
  | [], st => some st
  | icalo :: rest, (ccl, the_reconstructed_clusters) =>
    if icalo.geom_id ∈ ccl then
      seed_loop neighbours cch fuel rest (ccl, the_reconstructed_clusters)
    else
      match get_new_neighbours neighbours cch fuel icalo.geom_id (ccl, [icalo.geom_id]) with
      | none => none
      | some (ccl1, a_cluster) =>
        seed_loop neighbours cch fuel rest (ccl1, the_reconstructed_clusters ++ [a_cluster])

/-- The geometric clusters of an event: lines 318-339 with `ccl` and
`the_reconstructed_clusters` starting empty. -/
def geometric_clusters (neighbours : G → List G) (cch : List (calibrated_calorimeter_hit G))
    (fuel : Nat) : Option (List (List G)) :=
  (seed_loop neighbours cch fuel cch ([], [])).map Prod.snd

/-- Number of distinct blocks that carry a hit of the event. -/
def distinct_hit_blocks (cch : List (calibrated_calorimeter_hit G)) : Nat :=
  ((cch.map (fun icalo => icalo.geom_id)).dedup).length

end clustering

section containers

variable {G : Type} [LinearOrder G]

/-- `std::set<geom_id>::insert` on `calo_list_type`: the set is kept in
increasing order of `geom_id`, and inserting a present element does nothing. -/
def set_insert : List G → G → List G
  | [], g => [g]
  | x :: rest, g =>
    if g < x then g :: x :: rest
    else if x < g then x :: set_insert rest g
    else x :: rest

/-- `std::map<double, geom_id>::insert(std::pair(time, gid))`: keys are kept in
increasing order; a pair whose key is already present is not inserted. -/
def map_insert : List (ℚ × G) → ℚ × G → List (ℚ × G)
  | [], p => [p]
  | q :: rest, p =>
    if p.1 < q.1 then p :: q :: rest
    else if q.1 < p.1 then q :: map_insert rest p
    else q :: rest

/-- `gamma_dict_type`, a `std::map<int, calo_list_type>`. -/
abbrev gamma_dict_type (G : Type) := List (Int × List G)

/-- The statement `gammas_[track_id].insert(gid)`: `operator[]` creates an empty
set under a new label, then the block is inserted in the set of that label. -/
def dict_insert : gamma_dict_type G → Int → G → gamma_dict_type G
  | [], track_id, gid => [(track_id, set_insert [] gid)]
  | (k, s) :: rest, track_id, gid =>
    if track_id < k then (track_id, set_insert [] gid) :: (k, s) :: rest
    else if k < track_id then (k, s) :: dict_insert rest track_id gid
    else (k, set_insert s gid) :: rest

/-- Lines 345-350: the time-keyed map of one geometric cluster. For every block
of the cluster, every hit of the event on that block is inserted under its time. -/
def order_cluster (cch : List (calibrated_calorimeter_hit G)) (icluster : List G) :
    List (ℚ × G) :=
  icluster.foldl
    (fun a_cluster igid =>
      cch.foldl
        (fun a ihit => if igid = ihit.geom_id then map_insert a (ihit.time, igid) else a)
        a_cluster)
    []

/-- `operator<` of `std::pair<double, geom_id>`. -/
def pair_lt (a b : ℚ × G) : Bool :=
  decide (a.1 < b.1) || (!decide (b.1 < a.1) && decide (a.2 < b.2))

/-- `operator<` of `std::map<double, geom_id>`: `std::lexicographical_compare`
of the two sequences of pairs. -/
def lexicographical_compare : List (ℚ × G) → List (ℚ × G) → Bool
  | _, [] => false
  | [], _ :: _ => true
  | a :: l1, b :: l2 =>
    if pair_lt a b then true
    else if pair_lt b a then false
    else lexicographical_compare l1 l2

/-- Line 355: `std::sort` of the vector of time-keyed maps. -/
def sort_clusters (l : List (List (ℚ × G))) : List (List (ℚ × G)) :=
  l.insertionSort (fun a b => lexicographical_compare b a = false)

/-- Local variables of the split loop that outlive one cluster. -/
structure split_state (G : Type) where
  number_of_clusters : Nat
  track_id : Int
  clustered_gammas : gamma_dict_type G

/-- Lines 373-387: the walk over the pairs of one time-keyed map. `t1` is the
time of the pair handled last (0 before the first pair). -/
def split_walk : List (ℚ × G) → ℚ → split_state G → split_state G
  | [], _, st => st
  | ipair :: rest, t1_prev, st =>
    let t0 := t1_prev
    let t1 := ipair.1
    let st1 : split_state G :=
      if t0 ≠ 0 ∧ t1 ≠ 0 ∧ t1 - t0 > 5 / 2 then
        { st with number_of_clusters := st.number_of_clusters + 1, track_id := st.track_id + 1 }
      else st
    split_walk rest t1
      { st1 with clustered_gammas := dict_insert st1.clustered_gammas st1.track_id ipair.2 }

/-- Lines 361-387: body of the split loop for one time-keyed map. -/
def split_cluster (st : split_state G) (icluster : List (ℚ × G)) : split_state G :=
  let st1 : split_state G := { st with track_id := st.track_id + 1 }
  if icluster.length < 2 then
    { st1 with
      clustered_gammas :=
        icluster.foldl (fun d ipair => dict_insert d st1.track_id ipair.2) st1.clustered_gammas }
  else
    split_walk icluster 0 st1

/-- Reconstructed particle, as far as the module reads it. -/
structure particle_track (G : Type) where
  track_id : Int
  neutral : Bool
  associated_calorimeter_hits : List (calibrated_calorimeter_hit G)

/-- `ptd.fetch_particles(gammas, particle_track::NEUTRAL)`. -/
def fetch_particles (ptd : List (particle_track G)) : List (particle_track G) :=
  ptd.filter (fun p => p.neutral)

/-- `_pre_process_clustering` (lines 282-473) on a record that has the particle
track bank `ptd`. The result is the dictionary `clustered_gammas_` and the
value of `number_of_clusters` that is histogrammed. -/
def _pre_process_clustering (neighbours : G → List G) (fuel : Nat)
    (ptd : List (particle_track G)) (clustered_gammas_ : gamma_dict_type G) :
    Option (gamma_dict_type G × Nat) :=
  let cch := ((fetch_particles ptd).map (fun a_gamma => a_gamma.associated_calorimeter_hits)).flatten
  match seed_loop neighbours cch fuel cch ([], []) with
  | none => none
  | some (_, the_reconstructed_clusters) =>
    let the_ordered_reconstructed_clusters :=
      sort_clusters (the_reconstructed_clusters.map (order_cluster cch))
    let st := the_ordered_reconstructed_clusters.foldl split_cluster
      { number_of_clusters := the_reconstructed_clusters.length,
        track_id := 0,
        clustered_gammas := clustered_gammas_ }
    some (st.clustered_gammas, st.number_of_clusters)

end containers

section comparison

variable {G : Type} [DecidableEq G]

/-- Fields of `efficiency_type` (header, lines 139-150). -/
structure efficiency_type where
  nevent : Nat
  ntotal : Nat
  ngamma : Nat
  ngood : Nat
  nmiss : Nat
  ngood_event : Nat
  nevent_gammas : Nat
  no_gt_ngood_event : Nat
  no_gt_nevent_gammas : Nat
deriving DecidableEq

/-- The two counter sets of the module. -/
structure module_state where
  _efficiency_ : efficiency_type
  _no_gt_efficiency_ : efficiency_type
deriving DecidableEq

/-- `std::equal(a.begin(), a.end(), b.begin())`; the caller has checked that
both ranges have the same size. -/
def std_equal : List G → List G → Bool
  | [], _ => true
  | _ :: _, [] => false
  | x :: l1, y :: l2 => decide (x = y) && std_equal l1 l2

/-- Inner loop (lines 1052-1064): scan of the simulated gammas for one
reconstructed list; `true` when the `break` is reached. -/
def scan_simulated (a_rec_list : List G) : List (Int × List G) → Bool
  | [] => false
  | isim :: rest =>
    if a_rec_list.length ≠ isim.2.length then scan_simulated a_rec_list rest
    else if std_equal a_rec_list isim.2 then true
    else scan_simulated a_rec_list rest

/-- Outer loop (lines 1049-1065) as a count: `tmp_ngood_gammas` after the loop. -/
def count_good (simulated_gammas_ : List (Int × List G)) : List (Int × List G) → Nat
  | [] => 0
  | irec :: rest =>
    (if scan_simulated irec.2 simulated_gammas_ then 1 else 0)
      + count_good simulated_gammas_ rest

/-- `_compare_sequences` (lines 1000-1081): returned value and new counters. -/
def _compare_sequences (simulated_gammas_ reconstructed_gammas_ : List (Int × List G))
    (m : module_state) : Bool × module_state :=
  let e0 := { m._efficiency_ with nevent := m._efficiency_.nevent + 1 }
  if reconstructed_gammas_.isEmpty ∧ simulated_gammas_.isEmpty then
    (false, { m with _efficiency_ := { e0 with nmiss := e0.nmiss + 1 } })
  else
    let e1 := { e0 with ntotal := e0.ntotal + simulated_gammas_.length }
    let e2 := if simulated_gammas_.length > 0 then
      { e1 with nevent_gammas := e1.nevent_gammas + 1 } else e1
    let tmp_ngood_gammas := count_good simulated_gammas_ reconstructed_gammas_
    let e3 := { e2 with ngood := e2.ngood + tmp_ngood_gammas }
    if tmp_ngood_gammas = simulated_gammas_.length ∧ simulated_gammas_.length > 0 then
      (true, { m with _efficiency_ := { e3 with ngood_event := e3.ngood_event + 1 } })
    else
      (false, { m with _efficiency_ := e3 })

/-- `_compare_sequences_cluster` (lines 1082-1156). -/
def _compare_sequences_cluster (simulated_gammas_ clustered_gammas_ : List (Int × List G))
    (m : module_state) : Bool × module_state :=
  if clustered_gammas_.isEmpty ∧ simulated_gammas_.isEmpty then
    (false, m)
  else
    let n0 := m._no_gt_efficiency_
    let n1 := if simulated_gammas_.length > 0 then
      { n0 with no_gt_nevent_gammas := n0.no_gt_nevent_gammas + 1 } else n0
    let tmp_ngood_gammas := count_good simulated_gammas_ clustered_gammas_
    if tmp_ngood_gammas = simulated_gammas_.length ∧ simulated_gammas_.length > 0 then
      (true, { m with _no_gt_efficiency_ :=
        { n1 with no_gt_ngood_event := n1.no_gt_ngood_event + 1 } })
    else
      (false, { m with _no_gt_efficiency_ := n1 })

/-- The counters after successive calls of `_compare_sequences`, one call per
pair (simulated dictionary, reconstructed dictionary) of the list, starting
from the counters `m`. -/
def compare_calls (calls : List (List (Int × List G) × List (Int × List G)))
    (m : module_state) : module_state :=
  calls.foldl (fun m1 c => (_compare_sequences c.1 c.2 m1).2) m

end comparison

section split_semantics

variable {G : Type} [LinearOrder G]

/-- The labels of a dictionary, in stored order. -/
def dict_keys (d : gamma_dict_type G) : List Int := d.map Prod.fst

/-- The set stored under a label, empty when the label is absent. -/
def dict_at : gamma_dict_type G → Int → List G
  | [], _ => []
  | (k1, s) :: rest, k => if k = k1 then s else dict_at rest k

/-- Block `gid` is in the set stored under label `k`. -/
def stored_under (d : gamma_dict_type G) (k : Int) (gid : G) : Prop :=
  ∃ e ∈ d, e.1 = k ∧ gid ∈ e.2

/-- The test of line 380 on the previous time `t0` and the current time `t1`. -/
def split_test (t0 t1 : ℚ) : Prop := t0 ≠ 0 ∧ t1 ≠ 0 ∧ t1 - t0 > 5 / 2

instance (t0 t1 : ℚ) : Decidable (split_test t0 t1) := by
  unfold split_test
  infer_instance

/-- Number of times the test of line 380 succeeds along the walk that starts
with previous time `t`. -/
def split_count : List (ℚ × G) → ℚ → Nat
  | [], _ => 0
  | ipair :: rest, t => (if split_test t ipair.1 then 1 else 0) + split_count rest ipair.1

/-- The label under which the walk stores each pair, starting with previous
time `t` and current label `k`. -/
def walk_labels : List (ℚ × G) → ℚ → Int → List (Int × (ℚ × G))
  | [], _, _ => []
  | ipair :: rest, t, k =>
    let k1 := if split_test t ipair.1 then k + 1 else k
    (k1, ipair) :: walk_labels rest ipair.1 k1

/-- Invariant of the dictionary during the split loop: labels are strictly
increasing, none is above the current `track_id`, and every stored set is
strictly increasing. -/
def split_inv (st : split_state G) : Prop :=
  (dict_keys st.clustered_gammas).Sorted (· < ·) ∧
    (∀ k ∈ dict_keys st.clustered_gammas, k ≤ st.track_id) ∧
    (∀ e ∈ st.clustered_gammas, e.2.Sorted (· < ·))

/-- The pairs that lines 347-350 pass to `insert`, in the order of the calls. -/
def cluster_pairs (cch : List (calibrated_calorimeter_hit G)) (icluster : List G) :
    List (ℚ × G) :=
  icluster.flatMap
    (fun igid => (cch.filter (fun ihit => decide (igid = ihit.geom_id))).map
      (fun ihit => (ihit.time, igid)))

end split_semantics

section extraction

variable {G : Type} [LinearOrder G]

/-- Values of `dpp::base_module::process_status` that the module returns. -/
inductive process_status where
  | PROCESS_OK
  | PROCESS_ERROR
  | PROCESS_STOP
deriving DecidableEq

/-- The status returned at the end of `process`. `dpp::base_module` is not part
of the sources; its `PROCESS_SUCCESS` is taken to be the normal status
`PROCESS_OK` under another name. -/
abbrev process_status.PROCESS_SUCCESS : process_status := process_status.PROCESS_OK

/-- The `std::logic_error` exceptions: the one of line 588, and the one of
`datatools::things::get` on a record that has no bank of the given label. -/
inductive logic_error where
  | missing_primary_track_id
  | no_stored_object
deriving DecidableEq

/-- Simulated step hit (`mctools::base_step_hit`), as far as the module reads
it: the block, and the auxiliary integers under `TRACK_ID_KEY` and
`PARENT_TRACK_ID_KEY` (`none` when the key is absent). -/
structure base_step_hit (G : Type) where
  geom_id : G
  track_id : Option Int
  parent_track_id : Option Int

/-- Primary particle of the simulated event: only `is_gamma()` is read. -/
structure primary_particle where
  is_gamma : Bool

/-- The bank `simulated_data`: the primary particles and the step hits under
the label `__visu.tracks.calo` (`none` when `has_step_hits` is false). -/
structure simulated_data (G : Type) where
  primary_particles : List primary_particle
  step_hits : Option (List (base_step_hit G))

/-- The bank `calibrated_data`: the answer of `has_calibrated_calorimeter_hits()`
and the collection `calibrated_calorimeter_hits()`. -/
structure calibrated_data (G : Type) where
  has_calibrated_calorimeter_hits : Bool
  calibrated_calorimeter_hits : List (calibrated_calorimeter_hit G)

/-- The data record (`datatools::things`): each bank is `none` when
`data_record_.has(label)` is false; `eh` tells whether the event header is there. -/
structure things (G : Type) where
  sd : Option (simulated_data G)
  cd : Option (calibrated_data G)
  ptd : Option (List (particle_track G))
  eh : Bool

/-- Lines 581-587: `track_id` starts at -1, is set from `TRACK_ID_KEY` when the
key is there, then set from `PARENT_TRACK_ID_KEY` when that key is there. -/
def resolve_track_id (a_hit : base_step_hit G) : Int :=
  let track_id : Int := -1
  let track_id : Int :=
    match a_hit.track_id with
    | some v => v
    | none => track_id
  match a_hit.parent_track_id with
  | some v => v
  | none => track_id

/-- Lines 577-650: the loop over the step hits. The state is
`(already_gids, simulated_gammas_)`; the result is the exception of line 588,
or `PROCESS_STOP` from line 618, or `PROCESS_OK` when the loop ends. The cast
`(int)_efficiency_.ngamma` is taken without wrap-around. -/
def step_hit_loop (cch : List (calibrated_calorimeter_hit G)) (ngamma : Nat) :
    List (base_step_hit G) → List G × gamma_dict_type G →
      Except logic_error (process_status × (List G × gamma_dict_type G))
  | [], st => Except.ok (process_status.PROCESS_OK, st)
  | ihit :: rest, (already_gids, simulated_gammas_) =>
    let track_id := resolve_track_id ihit
    if track_id = -1 then Except.error logic_error.missing_primary_track_id
    else if track_id = 0 then step_hit_loop cch ngamma rest (already_gids, simulated_gammas_)
    else if has_hit cch ihit.geom_id = false then
      step_hit_loop cch ngamma rest (already_gids, simulated_gammas_)
    else if ihit.geom_id ∈ already_gids then
      step_hit_loop cch ngamma rest (already_gids, simulated_gammas_)
    else if track_id > (ngamma : Int) + 1 then
      Except.ok (process_status.PROCESS_STOP, (already_gids, simulated_gammas_))
    else
      step_hit_loop cch ngamma rest
        (set_insert already_gids ihit.geom_id,
          dict_insert simulated_gammas_ track_id ihit.geom_id)

/-- `_process_simulated_gammas` (lines 523-653): the status, the dictionary
`simulated_gammas_` and the counters (`_efficiency_.ngamma` is written at lines
539-542), or the exception of line 588. -/
def _process_simulated_gammas (data_record_ : things G)
    (simulated_gammas_ : gamma_dict_type G) (m : module_state) :
    Except logic_error (process_status × gamma_dict_type G × module_state) :=
  match data_record_.sd with
  | none => Except.ok (process_status.PROCESS_ERROR, simulated_gammas_, m)
  | some sd =>
    let m1 : module_state :=
      { m with _efficiency_ :=
        { m._efficiency_ with
          ngamma := (sd.primary_particles.filter (fun i => i.is_gamma)).length } }
    match data_record_.cd with
    | none => Except.ok (process_status.PROCESS_ERROR, simulated_gammas_, m1)
    | some cd =>
      if cd.has_calibrated_calorimeter_hits = false then
        Except.ok (process_status.PROCESS_STOP, simulated_gammas_, m1)
      else
        match sd.step_hits with
        | none => Except.ok (process_status.PROCESS_STOP, simulated_gammas_, m1)
        | some hit_collection =>
          if hit_collection.isEmpty then
            Except.ok (process_status.PROCESS_STOP, simulated_gammas_, m1)
          else
            match step_hit_loop cd.calibrated_calorimeter_hits m1._efficiency_.ngamma
                hit_collection ([], simulated_gammas_) with
            | Except.error e => Except.error e
            | Except.ok (status, (_, d)) => Except.ok (status, d, m1)

/-- `_process_reconstructed_gammas` (lines 796-998): the status and the
dictionary `reconstructed_gammas_`; the histograms are left out. -/
def _process_reconstructed_gammas (data_record_ : things G)
    (reconstructed_gammas_ : gamma_dict_type G) : process_status × gamma_dict_type G :=
  match data_record_.ptd with
  | none => (process_status.PROCESS_ERROR, reconstructed_gammas_)
  | some ptd =>
    let gammas := fetch_particles ptd
    if gammas.length = 0 then (process_status.PROCESS_STOP, reconstructed_gammas_)
    else
      (process_status.PROCESS_OK,
        gammas.foldl
          (fun d igamma =>
            igamma.associated_calorimeter_hits.foldl
              (fun d1 icalo => dict_insert d1 igamma.track_id icalo.geom_id) d)
          reconstructed_gammas_)

/-- `process` (lines 476-521) on an initialized module. `_pre_process_clustering`
reads the particle track bank and the event header with `data_record_.get`,
which is taken to throw `std::logic_error` when the bank is absent. The result
is `none` when the fuel of the clustering runs out. -/
def process (neighbours : G → List G) (fuel : Nat) (data_record_ : things G)
    (m : module_state) : Option (Except logic_error (process_status × module_state)) :=
  match data_record_.ptd with
  | none => some (Except.error logic_error.no_stored_object)
  | some ptd =>
    match _pre_process_clustering neighbours fuel ptd [] with
    | none => none
    | some (clustered_gammas, _) =>
      if data_record_.eh = false then some (Except.error logic_error.no_stored_object)
      else
        match _process_simulated_gammas data_record_ [] m with
        | Except.error e => some (Except.error e)
        | Except.ok (status, simulated_gammas, m1) =>
          if status ≠ process_status.PROCESS_OK then some (Except.ok (status, m1))
          else
            if (_process_reconstructed_gammas data_record_ []).1 ≠ process_status.PROCESS_OK then
              some (Except.ok ((_process_reconstructed_gammas data_record_ []).1, m1))
            else
              let reconstructed_gammas := (_process_reconstructed_gammas data_record_ []).2
              let m2 := (_compare_sequences simulated_gammas reconstructed_gammas m1).2
              let m3 := (_compare_sequences_cluster simulated_gammas clustered_gammas m2).2
              some (Except.ok (process_status.PROCESS_SUCCESS, m3))

/-- Modelled from the spec: the event loop of the host pipeline is not part of
the sources. Events are processed one after another on the same counters,
whatever status each returns; an exception ends the run. -/
def run (neighbours : G → List G) (fuel : Nat) :
    List (things G) → module_state → Option (Except logic_error module_state)
  | [], m => some (Except.ok m)
  | data_record_ :: rest, m =>
    match process neighbours fuel data_record_ m with
    | none => none
    | some (Except.error e) => some (Except.error e)
    | some (Except.ok (_, m1)) => run neighbours fuel rest m1

/-- The index under which block `b` is first claimed along a list of step hits:
the resolved index of the earliest hit on `b` whose resolved index is not 0. -/
def first_owner : List (base_step_hit G) → G → Option Int
  | [], _ => none
  | ihit :: rest, b =>
    if ihit.geom_id = b ∧ resolve_track_id ihit ≠ 0 then some (resolve_track_id ihit)
    else first_owner rest b

/-- The value of `_efficiency_.ngamma` after `_process_simulated_gammas` has
seen the record, when it was `n` before: the number of primary gammas when the
record has simulated data, `n` otherwise. -/
def event_ngamma (data_record_ : things G) (n : Nat) : Nat :=
  match data_record_.sd with
  | none => n
  | some sd => (sd.primary_particles.filter (fun i => i.is_gamma)).length

/-- Field by field sum of two counter sets. -/
def add_efficiency (a d : efficiency_type) : efficiency_type :=
  { nevent := a.nevent + d.nevent,
    ntotal := a.ntotal + d.ntotal,
    ngamma := a.ngamma + d.ngamma,
    ngood := a.ngood + d.ngood,
    nmiss := a.nmiss + d.nmiss,
    ngood_event := a.ngood_event + d.ngood_event,
    nevent_gammas := a.nevent_gammas + d.nevent_gammas,
    no_gt_ngood_event := a.no_gt_ngood_event + d.no_gt_ngood_event,
    no_gt_nevent_gammas := a.no_gt_nevent_gammas + d.no_gt_nevent_gammas }

/-- The counters `m` after an event that adds the increments `d` and writes
`ngamma` of the tracking set as `event_ngamma` does. -/
def bump (data_record_ : things G) (d m : module_state) : module_state :=
  { _efficiency_ :=
      { add_efficiency m._efficiency_ d._efficiency_ with
        ngamma := event_ngamma data_record_ m._efficiency_.ngamma },
    _no_gt_efficiency_ := add_efficiency m._no_gt_efficiency_ d._no_gt_efficiency_ }

/-- The counters with `ngamma` of the tracking set blanked. -/
def forget_ngamma (m : module_state) : module_state :=
  { m with _efficiency_ := { m._efficiency_ with ngamma := 0 } }

end extraction

section examples

/-- Chain adjacency on three blocks: 1 - 2 - 3, symmetric. -/
def chain_neighbours : Nat → List Nat
  | 1 => [2]
  | 2 => [1, 3]
  | 3 => [2]
  | _ => []

/-- Counters after `_set_defaults`. -/
def zero_counters : module_state :=
  ⟨⟨0, 0, 0, 0, 0, 0, 0, 0, 0⟩, ⟨0, 0, 0, 0, 0, 0, 0, 0, 0⟩⟩

/-- An event with `n` primary gammas whose only step hit is on block 5, with
`track_id` 2 and `parent_track_id` 1; block 5 has a calibrated hit and belongs to
the reconstructed gamma of track id 1. -/
def one_block_event (n : Nat) : things Nat :=
  { sd := some
      { primary_particles := List.replicate n { is_gamma := true },
        step_hits := some [{ geom_id := 5, track_id := some 2, parent_track_id := some 1 }] },
    cd := some
      { has_calibrated_calorimeter_hits := true,
        calibrated_calorimeter_hits := [{ geom_id := 5, time := 1 }] },
    ptd := some
      [{ track_id := 1, neutral := true,
         associated_calorimeter_hits := [{ geom_id := 5, time := 1 }] }],
    eh := true }

/-- An event with one primary gamma whose calibrated data bank holds no
calorimeter hit; the other banks are present. -/
def no_calo_event : things Nat :=
  { sd := some { primary_particles := [{ is_gamma := true }], step_hits := none },
    cd := some { has_calibrated_calorimeter_hits := false, calibrated_calorimeter_hits := [] },
    ptd := some [],
    eh := true }

end examples

end analysis

/-! ## Lemmas -/

namespace analysis

set_option linter.unusedSectionVars false

section clustering_lemmas

variable {G : Type} [DecidableEq G]

theorem has_hit_iff (cch : List (calibrated_calorimeter_hit G)) (gid : G) :
    has_hit cch gid = true ↔ ∃ icalo ∈ cch, icalo.geom_id = gid := by
  unfold has_hit
  simp only [List.any_eq_true, decide_eq_true_eq]
  constructor
  · rintro ⟨x, hx, rfl⟩
    exact ⟨x, hx, rfl⟩
  · rintro ⟨x, hx, rfl⟩
    exact ⟨x, hx, rfl⟩

/-- What the first loop of `get_new_neighbours` appends: one list `new` of
pairwise distinct blocks that have a hit, were not visited, and are neighbours. -/
theorem neighbour_loop_spec (cch : List (calibrated_calorimeter_hit G)) (ns : List G) :
    ∀ cn ccl cl : List G, ∃ new : List G,
      neighbour_loop cch ns (cn, ccl, cl) = (cn ++ new, ccl ++ new, cl ++ new) ∧
      new.Nodup ∧ ∀ x ∈ new, x ∉ ccl ∧ has_hit cch x = true ∧ x ∈ ns := by
  induction ns with
  | nil =>
    intro cn ccl cl
    exact ⟨[], by simp [neighbour_loop], List.nodup_nil, by simp⟩
  | cons n ns ih =>
    intro cn ccl cl
    by_cases hc : has_hit cch n = true ∧ n ∉ ccl
    · obtain ⟨new, heq, hnd, hall⟩ := ih (cn ++ [n]) (ccl ++ [n]) (cl ++ [n])
      refine ⟨n :: new, ?_, ?_, ?_⟩
      · simp only [neighbour_loop, if_pos hc, heq, List.append_assoc, List.singleton_append]
      · refine List.nodup_cons.mpr ⟨fun hmem => ?_, hnd⟩
        exact (hall n hmem).1 (by simp)
      · intro x hx
        rcases List.mem_cons.mp hx with rfl | hx
        · exact ⟨hc.2, hc.1, by simp⟩
        · obtain ⟨h1, h2, h3⟩ := hall x hx
          exact ⟨fun h => h1 (List.mem_append_left _ h), h2, List.mem_cons_of_mem _ h3⟩
    · obtain ⟨new, heq, hnd, hall⟩ := ih cn ccl cl
      refine ⟨new, ?_, hnd, ?_⟩
      · simp only [neighbour_loop, if_neg hc, heq]
      · intro x hx
        obtain ⟨h1, h2, h3⟩ := hall x hx
        exact ⟨h1, h2, List.mem_cons_of_mem _ h3⟩

theorem get_new_neighbours_succ (neighbours : G → List G)
    (cch : List (calibrated_calorimeter_hit G)) (fuel : Nat) (gid : G) (ccl cl : List G) :
    get_new_neighbours neighbours cch (fuel + 1) gid (ccl, cl) =
      if gid ∈ ccl then some (ccl, cl)
      else
        recursion_loop (get_new_neighbours neighbours cch fuel)
          (neighbour_loop cch (neighbours gid) ([], ccl ++ [gid], cl)).1
          (neighbour_loop cch (neighbours gid) ([], ccl ++ [gid], cl)).2 := rfl

/-- Every call of the second loop is on a block that is already in `ccl`, so it
returns at once and changes nothing. -/
theorem recursion_loop_visited (neighbours : G → List G)
    (cch : List (calibrated_calorimeter_hit G)) (fuel : Nat) (cn : List G) :
    ∀ ccl cl : List G, (∀ x ∈ cn, x ∈ ccl) →
      recursion_loop (get_new_neighbours neighbours cch (fuel + 1)) cn (ccl, cl)
        = some (ccl, cl) := by
  induction cn with
  | nil => intro ccl cl _; rfl
  | cons n cn ih =>
    intro ccl cl h
    have hn : n ∈ ccl := h n (by simp)
    simp only [recursion_loop, get_new_neighbours_succ, if_pos hn]
    exact ih ccl cl (fun x hx => h x (List.mem_cons_of_mem _ hx))

/-- One top-level call of `get_new_neighbours` on a block that is not visited. -/
theorem get_new_neighbours_spec (neighbours : G → List G)
    (cch : List (calibrated_calorimeter_hit G)) (fuel : Nat) (gid : G) (ccl cl : List G)
    (hgid : gid ∉ ccl) :
    ∃ new : List G,
      get_new_neighbours neighbours cch (fuel + 2) gid (ccl, cl)
        = some (ccl ++ gid :: new, cl ++ new) ∧
      (gid :: new).Nodup ∧
      ∀ x ∈ new, x ∉ ccl ∧ has_hit cch x = true ∧ x ∈ neighbours gid := by
  obtain ⟨new, heq, hnd, hall⟩ := neighbour_loop_spec cch (neighbours gid) [] (ccl ++ [gid]) cl
  refine ⟨new, ?_, ?_, ?_⟩
  · rw [get_new_neighbours_succ, if_neg hgid, heq]
    simp only [List.nil_append]
    rw [recursion_loop_visited neighbours cch fuel new (ccl ++ [gid] ++ new) (cl ++ new)
      (fun x hx => List.mem_append_right _ hx)]
    simp
  · refine List.nodup_cons.mpr ⟨fun hmem => ?_, hnd⟩
    exact (hall gid hmem).1 (by simp)
  · intro x hx
    obtain ⟨h1, h2, h3⟩ := hall x hx
    exact ⟨fun h => h1 (List.mem_append_left _ h), h2, h3⟩

/-- Invariant of the seed loop: `ccl` is the concatenation of the clusters built
so far, holds no block twice, and holds only blocks that have a hit. -/
theorem seed_loop_spec (neighbours : G → List G)
    (cch : List (calibrated_calorimeter_hit G)) (fuel : Nat)
    (rest : List (calibrated_calorimeter_hit G)) :
    ∀ (ccl : List G) (cls : List (List G)),
      (∀ icalo ∈ rest, icalo ∈ cch) →
      ccl = cls.flatten → ccl.Nodup → (∀ x ∈ ccl, has_hit cch x = true) →
      ∃ ccl1 cls1, seed_loop neighbours cch (fuel + 2) rest (ccl, cls) = some (ccl1, cls1) ∧
        ccl1 = cls1.flatten ∧ ccl1.Nodup ∧ (∀ x ∈ ccl1, has_hit cch x = true) ∧
        (∀ x ∈ ccl, x ∈ ccl1) ∧ (∀ icalo ∈ rest, icalo.geom_id ∈ ccl1) := by
  induction rest with
  | nil =>
    intro ccl cls _ h1 h2 h3
    exact ⟨ccl, cls, rfl, h1, h2, h3, fun x hx => hx, by simp⟩
  | cons icalo rest ih =>
    intro ccl cls hsub h1 h2 h3
    have hsub1 : ∀ i ∈ rest, i ∈ cch := fun i hi => hsub i (List.mem_cons_of_mem _ hi)
    by_cases hv : icalo.geom_id ∈ ccl
    · obtain ⟨ccl1, cls1, heq, k1, k2, k3, k4, k5⟩ := ih ccl cls hsub1 h1 h2 h3
      refine ⟨ccl1, cls1, ?_, k1, k2, k3, k4, ?_⟩
      · simp only [seed_loop, if_pos hv, heq]
      · intro i hi
        rcases List.mem_cons.mp hi with rfl | hi
        · exact k4 _ hv
        · exact k5 i hi
    · obtain ⟨new, heq, hnd, hall⟩ :=
        get_new_neighbours_spec neighbours cch fuel icalo.geom_id ccl [icalo.geom_id] hv
      have hseed : has_hit cch icalo.geom_id = true :=
        (has_hit_iff cch _).mpr ⟨icalo, hsub icalo (by simp), rfl⟩
      obtain ⟨ccl1, cls1, heq1, k1, k2, k3, k4, k5⟩ :=
        ih (ccl ++ icalo.geom_id :: new) (cls ++ [[icalo.geom_id] ++ new]) hsub1
          (by simp [h1])
          (by
            refine List.Nodup.append h2 hnd ?_
            intro x hx hx1
            rcases List.mem_cons.mp hx1 with rfl | hx1
            · exact hv hx
            · exact (hall x hx1).1 hx)
          (by
            intro x hx
            rcases List.mem_append.mp hx with hx | hx
            · exact h3 x hx
            · rcases List.mem_cons.mp hx with rfl | hx
              · exact hseed
              · exact (hall x hx).2.1)
      refine ⟨ccl1, cls1, ?_, k1, k2, k3, ?_, ?_⟩
      · simp only [seed_loop, if_neg hv, heq, heq1]
      · intro x hx
        exact k4 x (List.mem_append_left _ hx)
      · intro i hi
        rcases List.mem_cons.mp hi with rfl | hi
        · exact k4 _ (by simp)
        · exact k5 i hi

end clustering_lemmas

section comparison_lemmas

variable {G : Type} [DecidableEq G]

theorem std_equal_iff (l1 l2 : List G) (h : l1.length = l2.length) :
    std_equal l1 l2 = true ↔ l1 = l2 := by
  induction l1 generalizing l2 with
  | nil =>
    cases l2 with
    | nil => simp [std_equal]
    | cons y l2 => simp at h
  | cons x l1 ih =>
    cases l2 with
    | nil => simp at h
    | cons y l2 =>
      have h1 : l1.length = l2.length := by simpa using h
      simp [std_equal, ih l2 h1]

theorem scan_simulated_iff (a_rec_list : List G) (sim : List (Int × List G)) :
    scan_simulated a_rec_list sim = true ↔ ∃ isim ∈ sim, a_rec_list = isim.2 := by
  induction sim with
  | nil => simp [scan_simulated]
  | cons isim rest ih =>
    by_cases hlen : a_rec_list.length = isim.2.length
    · by_cases heq : a_rec_list = isim.2
      · have hstd : std_equal a_rec_list isim.2 = true := (std_equal_iff _ _ hlen).mpr heq
        have hl : scan_simulated a_rec_list (isim :: rest) = true := by
          simp only [scan_simulated, hlen, ne_eq, not_true_eq_false, if_false, hstd, if_true]
        exact iff_of_true hl ⟨isim, by simp, heq⟩
      · have : ¬ std_equal a_rec_list isim.2 = true :=
          fun h => heq ((std_equal_iff _ _ hlen).mp h)
        simp [scan_simulated, hlen, this, heq, ih]
    · have heq : a_rec_list ≠ isim.2 := fun h => hlen (by rw [h])
      simp [scan_simulated, hlen, heq, ih]

theorem count_good_eq_filter (sim rec : List (Int × List G)) :
    count_good sim rec =
      (rec.filter (fun irec => sim.any (fun isim => decide (irec.2 = isim.2)))).length := by
  induction rec with
  | nil => rfl
  | cons irec rest ih =>
    have hscan := scan_simulated_iff irec.2 sim
    by_cases h : scan_simulated irec.2 sim = true
    · have h1 : sim.any (fun isim => decide (irec.2 = isim.2)) = true := by
        simpa [List.any_eq_true] using hscan.mp h
      simp [count_good, h, List.filter_cons, h1, ih]
      omega
    · have h1 : ¬ sim.any (fun isim => decide (irec.2 = isim.2)) = true := by
        intro hc
        apply h
        apply hscan.mpr
        simpa [List.any_eq_true] using hc
      simp [count_good, h, List.filter_cons, h1, ih]

end comparison_lemmas

section set_lemmas

variable {G : Type} [LinearOrder G]

theorem mem_set_insert (s : List G) (g x : G) :
    x ∈ set_insert s g ↔ x = g ∨ x ∈ s := by
  induction s with
  | nil => simp [set_insert]
  | cons y rest ih =>
    unfold set_insert
    split_ifs with h1 h2
    · simp
    · simp only [List.mem_cons, ih]
      tauto
    · have : g = y := le_antisymm (not_lt.mp h2) (not_lt.mp h1)
      subst this
      simp

theorem set_insert_sorted (s : List G) (g : G) (hs : s.Sorted (· < ·)) :
    (set_insert s g).Sorted (· < ·) := by
  induction s with
  | nil => simp [set_insert]
  | cons y rest ih =>
    have hy := List.sorted_cons.mp hs
    unfold set_insert
    split_ifs with h1 h2
    · refine List.sorted_cons.mpr ⟨?_, hs⟩
      intro b hb
      rcases List.mem_cons.mp hb with rfl | hb
      · exact h1
      · exact lt_trans h1 (hy.1 b hb)
    · refine List.sorted_cons.mpr ⟨?_, ih hy.2⟩
      intro b hb
      rcases (mem_set_insert rest g b).mp hb with rfl | hb
      · exact h2
      · exact hy.1 b hb
    · exact hs

/-- The set stored after inserting the blocks of `l` one after the other. -/
theorem foldl_set_insert_spec (l : List G) :
    ∀ s : List G, s.Sorted (· < ·) →
      (l.foldl set_insert s).Sorted (· < ·) ∧
        ∀ x, x ∈ l.foldl set_insert s ↔ x ∈ s ∨ x ∈ l := by
  induction l with
  | nil => intro s hs; simp [hs]
  | cons g l ih =>
    intro s hs
    obtain ⟨h1, h2⟩ := ih (set_insert s g) (set_insert_sorted s g hs)
    refine ⟨h1, ?_⟩
    intro x
    simp only [List.foldl_cons, h2, mem_set_insert, List.mem_cons]
    tauto

/-- Two strictly increasing lists with the same elements are the same list. -/
theorem sorted_ext (s1 s2 : List G) (h1 : s1.Sorted (· < ·)) (h2 : s2.Sorted (· < ·))
    (h : ∀ x, x ∈ s1 ↔ x ∈ s2) : s1 = s2 :=
  List.eq_of_perm_of_sorted ((List.perm_ext_iff_of_nodup h1.nodup h2.nodup).mpr h) h1 h2

/-- Inserting all blocks of a non-empty list under one label of an empty
dictionary gives one entry, the set of the blocks. -/
theorem foldl_dict_insert_single (l : List G) (k : Int) (g : G) :
    (g :: l).foldl (fun d x => dict_insert d k x) ([] : gamma_dict_type G)
      = [(k, (g :: l).foldl set_insert [])] := by
  have key : ∀ (l : List G) (s : List G),
      l.foldl (fun d x => dict_insert d k x) ([(k, s)] : gamma_dict_type G)
        = [(k, l.foldl set_insert s)] := by
    intro l
    induction l with
    | nil => intro s; rfl
    | cons x l ih =>
      intro s
      simp only [List.foldl_cons, dict_insert, lt_self_iff_false, if_false]
      exact ih _
  simp only [List.foldl_cons, dict_insert]
  exact key l _

end set_lemmas

section dict_lemmas

variable {G : Type} [LinearOrder G]

theorem mem_dict_keys_insert (d : gamma_dict_type G) (k : Int) (g : G) (k1 : Int) :
    k1 ∈ dict_keys (dict_insert d k g) ↔ k1 = k ∨ k1 ∈ dict_keys d := by
  induction d with
  | nil => simp [dict_insert, dict_keys]
  | cons e rest ih =>
    obtain ⟨k2, s⟩ := e
    unfold dict_insert
    split_ifs with h1 h2
    · simp [dict_keys]
    · simp only [dict_keys, List.map_cons, List.mem_cons] at ih ⊢
      rw [ih]
      tauto
    · have : k = k2 := le_antisymm (not_lt.mp h2) (not_lt.mp h1)
      subst this
      simp [dict_keys]

theorem dict_keys_insert_sorted (d : gamma_dict_type G) (k : Int) (g : G)
    (hd : (dict_keys d).Sorted (· < ·)) : (dict_keys (dict_insert d k g)).Sorted (· < ·) := by
  induction d with
  | nil => simp [dict_insert, dict_keys]
  | cons e rest ih =>
    obtain ⟨k2, s⟩ := e
    have hd1 : (k2 :: dict_keys rest).Sorted (· < ·) := hd
    have hy := List.sorted_cons.mp hd1
    unfold dict_insert
    split_ifs with h1 h2
    · show (k :: k2 :: dict_keys rest).Sorted (· < ·)
      refine List.sorted_cons.mpr ⟨?_, hd1⟩
      intro b hb
      rcases List.mem_cons.mp hb with rfl | hb
      · exact h1
      · exact lt_trans h1 (hy.1 b hb)
    · show (k2 :: dict_keys (dict_insert rest k g)).Sorted (· < ·)
      refine List.sorted_cons.mpr ⟨?_, ih hy.2⟩
      intro b hb
      rcases (mem_dict_keys_insert rest k g b).mp hb with rfl | hb
      · exact h2
      · exact hy.1 b hb
    · exact hd

theorem dict_at_of_not_mem (d : gamma_dict_type G) (k : Int) (h : k ∉ dict_keys d) :
    dict_at d k = [] := by
  induction d with
  | nil => rfl
  | cons e rest ih =>
    obtain ⟨k2, s⟩ := e
    simp only [dict_keys, List.map_cons, List.mem_cons, not_or] at h
    simp only [dict_at, if_neg h.1]
    exact ih h.2

theorem dict_at_insert (d : gamma_dict_type G) (k : Int) (g : G) (k1 : Int)
    (hd : (dict_keys d).Sorted (· < ·)) :
    dict_at (dict_insert d k g) k1 =
      if k1 = k then set_insert (dict_at d k) g else dict_at d k1 := by
  induction d with
  | nil =>
    by_cases h : k1 = k
    · simp [dict_insert, dict_at, h]
    · simp [dict_insert, dict_at, h]
  | cons e rest ih =>
    obtain ⟨k2, s⟩ := e
    have hd1 : (k2 :: dict_keys rest).Sorted (· < ·) := hd
    have hy := List.sorted_cons.mp hd1
    unfold dict_insert
    by_cases h1 : k < k2
    · rw [if_pos h1]
      by_cases h3 : k1 = k
      · subst h3
        have hnot : k1 ∉ dict_keys rest := fun hm => lt_asymm h1 (hy.1 k1 hm)
        simp [dict_at, ne_of_lt h1, dict_at_of_not_mem rest k1 hnot]
      · simp [dict_at, h3]
    · rw [if_neg h1]
      by_cases h2 : k2 < k
      · rw [if_pos h2]
        by_cases h4 : k1 = k
        · subst h4
          simp only [dict_at, if_neg (ne_of_gt h2), if_true]
          rw [ih hy.2]
          simp
        · by_cases h6 : k1 = k2
          · subst h6
            simp [dict_at, ne_of_lt h2]
          · simp only [dict_at, if_neg h6, if_neg h4]
            rw [ih hy.2, if_neg h4]
      · rw [if_neg h2]
        have : k = k2 := le_antisymm (not_lt.mp h2) (not_lt.mp h1)
        subst this
        by_cases h5 : k1 = k
        · subst h5
          simp [dict_at]
        · simp [dict_at, h5]

theorem mem_dict_iff (d : gamma_dict_type G) (hd : (dict_keys d).Sorted (· < ·))
    (k : Int) (s : List G) :
    (k, s) ∈ d ↔ k ∈ dict_keys d ∧ dict_at d k = s := by
  induction d with
  | nil => simp [dict_keys]
  | cons e rest ih =>
    obtain ⟨k2, s2⟩ := e
    have hd1 : (k2 :: dict_keys rest).Sorted (· < ·) := hd
    have hy := List.sorted_cons.mp hd1
    by_cases h : k = k2
    · subst h
      have hnot : k ∉ dict_keys rest := fun hm => lt_irrefl _ (hy.1 k hm)
      have hnot2 : (k, s) ∉ rest := fun hm => hnot (List.mem_map_of_mem Prod.fst hm)
      simp only [List.mem_cons, Prod.mk.injEq, true_and, dict_keys, List.map_cons, true_or,
        dict_at, if_true]
      constructor
      · rintro (h | h)
        · exact h.symm
        · exact absurd h hnot2
      · intro h
        exact Or.inl h.symm
    · simp only [List.mem_cons, Prod.mk.injEq, h, false_and, false_or, dict_keys, List.map_cons,
        dict_at, if_false]
      exact ih hy.2

theorem dict_insert_entries_sorted (d : gamma_dict_type G) (k : Int) (g : G)
    (hd : ∀ e ∈ d, e.2.Sorted (· < ·)) :
    ∀ e ∈ dict_insert d k g, e.2.Sorted (· < ·) := by
  induction d with
  | nil =>
    intro e he
    simp only [dict_insert, List.mem_singleton] at he
    subst he
    simp [set_insert]
  | cons e0 rest ih =>
    obtain ⟨k2, s⟩ := e0
    have hrest : ∀ e ∈ rest, e.2.Sorted (· < ·) := fun e he => hd e (List.mem_cons_of_mem _ he)
    have hs : s.Sorted (· < ·) := hd (k2, s) (by simp)
    intro e he
    unfold dict_insert at he
    split_ifs at he with h1 h2
    · rcases List.mem_cons.mp he with rfl | he
      · simp [set_insert]
      · exact hd e he
    · rcases List.mem_cons.mp he with rfl | he
      · exact hs
      · exact ih hrest e he
    · rcases List.mem_cons.mp he with rfl | he
      · exact set_insert_sorted s g hs
      · exact hrest e he

theorem dict_insert_length (d : gamma_dict_type G) (k : Int) (g : G)
    (hd : (dict_keys d).Sorted (· < ·)) :
    (dict_insert d k g).length = if k ∈ dict_keys d then d.length else d.length + 1 := by
  induction d with
  | nil => simp [dict_insert, dict_keys]
  | cons e rest ih =>
    obtain ⟨k2, s⟩ := e
    have hk : dict_keys ((k2, s) :: rest) = k2 :: dict_keys rest := rfl
    have hy := List.sorted_cons.mp (hk ▸ hd)
    unfold dict_insert
    rw [hk]
    by_cases h0 : k = k2
    · subst h0
      simp
    · by_cases h1 : k < k2
      · rw [if_pos h1]
        have h3 : k ∉ dict_keys rest := fun hm => lt_asymm h1 (hy.1 k hm)
        simp [h0, h3]
      · have h2 : k2 < k := lt_of_le_of_ne (not_lt.mp h1) (Ne.symm h0)
        rw [if_neg h1, if_pos h2]
        simp only [List.length_cons, ih hy.2, List.mem_cons, h0, false_or]
        split_ifs <;> rfl

end dict_lemmas

section walk_lemmas

variable {G : Type} [LinearOrder G]

theorem split_walk_cons (p : ℚ × G) (rest : List (ℚ × G)) (t : ℚ) (st : split_state G) :
    split_walk (p :: rest) t st =
      split_walk rest p.1
        (if split_test t p.1 then
          { number_of_clusters := st.number_of_clusters + 1,
            track_id := st.track_id + 1,
            clustered_gammas := dict_insert st.clustered_gammas (st.track_id + 1) p.2 }
        else
          { number_of_clusters := st.number_of_clusters,
            track_id := st.track_id,
            clustered_gammas := dict_insert st.clustered_gammas st.track_id p.2 }) := by
  by_cases h : split_test t p.1
  · have h1 : t ≠ 0 ∧ p.1 ≠ 0 ∧ p.1 - t > 5 / 2 := h
    rw [split_walk, if_pos h, if_pos h1]
  · have h1 : ¬ (t ≠ 0 ∧ p.1 ≠ 0 ∧ p.1 - t > 5 / 2) := h
    rw [split_walk, if_neg h, if_neg h1]

/-- The walk stores every pair under the label given by `walk_labels`, and
advances `track_id` and `number_of_clusters` by the number of splits. -/
theorem split_walk_spec (l : List (ℚ × G)) :
    ∀ (t : ℚ) (st : split_state G),
      split_walk l t st =
        { number_of_clusters := st.number_of_clusters + split_count l t,
          track_id := st.track_id + (split_count l t : Nat),
          clustered_gammas :=
            (walk_labels l t st.track_id).foldl (fun d e => dict_insert d e.1 e.2.2)
              st.clustered_gammas } := by
  induction l with
  | nil =>
    intro t st
    simp [split_walk, split_count, walk_labels]
  | cons p rest ih =>
    intro t st
    rw [split_walk_cons, ih]
    by_cases h : split_test t p.1
    · simp only [if_pos h, split_count, walk_labels, List.foldl_cons, Nat.cast_add, Nat.cast_one]
      congr 1
      · omega
      · omega
    · simp only [if_neg h, split_count, walk_labels, List.foldl_cons, Nat.cast_add, Nat.cast_zero]
      congr 1
      · omega
      · omega

theorem split_cluster_eq_walk (st : split_state G) (icluster : List (ℚ × G)) :
    split_cluster st icluster =
      split_walk icluster 0
        { number_of_clusters := st.number_of_clusters,
          track_id := st.track_id + 1,
          clustered_gammas := st.clustered_gammas } := by
  unfold split_cluster
  by_cases h : icluster.length < 2
  · rw [if_pos h]
    match icluster, h with
    | [], _ => simp [split_walk]
    | [a], _ =>
      have hno : ¬ split_test 0 a.1 := fun hc => hc.1 rfl
      rw [split_walk_cons, if_neg hno]
      simp [split_walk]
    | _ :: _ :: _, h =>
      simp only [List.length_cons] at h
      omega
  · rw [if_neg h]

theorem split_count_zero_start (l : List (ℚ × G)) (a : ℚ × G) :
    split_count (a :: l) 0 = split_count l a.1 := by
  have hno : ¬ split_test 0 a.1 := fun hc => hc.1 rfl
  simp [split_count, hno]

theorem walk_labels_map_snd (l : List (ℚ × G)) :
    ∀ (t : ℚ) (k : Int), (walk_labels l t k).map Prod.snd = l := by
  induction l with
  | nil => intro t k; rfl
  | cons p rest ih =>
    intro t k
    simp [walk_labels, ih]

theorem walk_labels_bounds (l : List (ℚ × G)) :
    ∀ (t : ℚ) (k : Int), ∀ e ∈ walk_labels l t k,
      k ≤ e.1 ∧ e.1 ≤ k + (split_count l t : Nat) := by
  induction l with
  | nil => intro t k e he; simp [walk_labels] at he
  | cons p rest ih =>
    intro t k e he
    simp only [walk_labels, List.mem_cons] at he
    by_cases h : split_test t p.1
    · simp only [if_pos h] at he
      simp only [split_count, if_pos h, Nat.cast_add, Nat.cast_one]
      rcases he with rfl | he
      · constructor <;> simp
      · have := ih p.1 (k + 1) e he
        omega
    · simp only [if_neg h] at he
      simp only [split_count, if_neg h, Nat.cast_add, Nat.cast_zero]
      rcases he with rfl | he
      · constructor <;> simp
      · have := ih p.1 k e he
        omega

theorem walk_labels_cons (p : ℚ × G) (rest : List (ℚ × G)) (t : ℚ) (k : Int) :
    walk_labels (p :: rest) t k =
      ((if split_test t p.1 then k + 1 else k), p) ::
        walk_labels rest p.1 (if split_test t p.1 then k + 1 else k) := rfl

theorem split_count_cons (p : ℚ × G) (rest : List (ℚ × G)) (t : ℚ) :
    split_count (p :: rest) t =
      (if split_test t p.1 then 1 else 0) + split_count rest p.1 := rfl

/-- Decomposition of the labels around one pair of the walk. -/
theorem walk_labels_append_cons (pre : List (ℚ × G)) (a : ℚ × G) (rest : List (ℚ × G)) :
    ∀ (t : ℚ) (k : Int),
      walk_labels (pre ++ a :: rest) t k =
        walk_labels pre t k ++
          (k + (split_count (pre ++ [a]) t : Nat), a) ::
            walk_labels rest a.1 (k + (split_count (pre ++ [a]) t : Nat)) := by
  induction pre with
  | nil =>
    intro t k
    by_cases h : split_test t a.1
    · simp [walk_labels, split_count, h]
    · simp [walk_labels, split_count, h]
  | cons p pre ih =>
    intro t k
    have e1 : (p :: pre) ++ a :: rest = p :: (pre ++ a :: rest) := rfl
    have e2 : (p :: pre) ++ [a] = p :: (pre ++ [a]) := rfl
    rw [e1, e2, walk_labels_cons, walk_labels_cons, split_count_cons, ih]
    by_cases h : split_test t p.1
    · have e : k + 1 + ((split_count (pre ++ [a]) p.1 : Nat) : Int)
          = k + ((1 + split_count (pre ++ [a]) p.1 : Nat) : Int) := by
        push_cast
        omega
      rw [if_pos h, if_pos h, e]
      rfl
    · have e : k + ((split_count (pre ++ [a]) p.1 : Nat) : Int)
          = k + ((0 + split_count (pre ++ [a]) p.1 : Nat) : Int) := by
        push_cast
        omega
      rw [if_neg h, if_neg h, e]
      rfl

/-- With non-zero times the number of splits after `a` is zero exactly when
every consecutive gap is at most 2.5. -/
theorem split_count_eq_zero_iff (l : List (ℚ × G)) :
    ∀ a : ℚ × G, a.1 ≠ 0 → (∀ p ∈ l, p.1 ≠ 0) →
      (split_count l a.1 = 0 ↔ List.Chain (fun p q : ℚ × G => q.1 - p.1 ≤ 5 / 2) a l) := by
  induction l with
  | nil => intro a _ _; simp [split_count]
  | cons b rest ih =>
    intro a ha hl
    have hb : b.1 ≠ 0 := hl b (by simp)
    have hrest : ∀ p ∈ rest, p.1 ≠ 0 := fun p hp => hl p (List.mem_cons_of_mem _ hp)
    have hiff : split_test a.1 b.1 ↔ ¬ (b.1 - a.1 ≤ 5 / 2) := by
      unfold split_test
      constructor
      · rintro ⟨_, _, h⟩
        exact not_le.mpr h
      · intro h
        exact ⟨ha, hb, not_le.mp h⟩
    rw [List.chain_cons, ← ih b hb hrest]
    by_cases h : split_test a.1 b.1
    · have h2 := hiff.mp h
      simp [split_count, h, h2]
    · have h2 : b.1 - a.1 ≤ 5 / 2 := not_not.mp (fun hc => h (hiff.mpr hc))
      simp [split_count, h, h2]

/-- With non-zero times the number of splits is the number of consecutive gaps
greater than 2.5. -/
theorem split_count_eq_countP (l : List (ℚ × G)) :
    ∀ a : ℚ × G, a.1 ≠ 0 → (∀ p ∈ l, p.1 ≠ 0) →
      split_count l a.1 =
        ((a :: l).zip l).countP (fun pq => decide (pq.2.1 - pq.1.1 > 5 / 2)) := by
  induction l with
  | nil => intro a _ _; simp [split_count]
  | cons b rest ih =>
    intro a ha hl
    have hb : b.1 ≠ 0 := hl b (by simp)
    have hrest : ∀ p ∈ rest, p.1 ≠ 0 := fun p hp => hl p (List.mem_cons_of_mem _ hp)
    have hiff : split_test a.1 b.1 ↔ b.1 - a.1 > 5 / 2 := by
      unfold split_test
      constructor
      · rintro ⟨_, _, h⟩
        exact h
      · intro h
        exact ⟨ha, hb, h⟩
    rw [List.zip_cons_cons, List.countP_cons, ← ih b hb hrest]
    by_cases h : split_test a.1 b.1
    · have h2 := hiff.mp h
      simp [split_count, h, h2]
      omega
    · have h2 : ¬ b.1 - a.1 > 5 / 2 := fun hc => h (hiff.mpr hc)
      simp only [split_count, if_neg h, zero_add]
      simp [h2]

/-- What the dictionary holds after a list of labelled pairs has been stored. -/
theorem foldl_dict_insert_spec (L : List (Int × (ℚ × G))) :
    ∀ d : gamma_dict_type G, (dict_keys d).Sorted (· < ·) →
      (dict_keys (L.foldl (fun d e => dict_insert d e.1 e.2.2) d)).Sorted (· < ·) ∧
      (∀ k, k ∈ dict_keys (L.foldl (fun d e => dict_insert d e.1 e.2.2) d) ↔
        k ∈ dict_keys d ∨ ∃ e ∈ L, e.1 = k) ∧
      (∀ k g, g ∈ dict_at (L.foldl (fun d e => dict_insert d e.1 e.2.2) d) k ↔
        g ∈ dict_at d k ∨ ∃ e ∈ L, e.1 = k ∧ e.2.2 = g) ∧
      ((∀ e ∈ d, e.2.Sorted (· < ·)) →
        ∀ e ∈ L.foldl (fun d e => dict_insert d e.1 e.2.2) d, e.2.Sorted (· < ·)) := by
  induction L with
  | nil => intro d hd; simp [hd]
  | cons e0 L ih =>
    intro d hd
    obtain ⟨h1, h2, h3, h4⟩ := ih (dict_insert d e0.1 e0.2.2)
      (dict_keys_insert_sorted d e0.1 e0.2.2 hd)
    refine ⟨h1, ?_, ?_, ?_⟩
    · intro k
      simp only [List.foldl_cons, h2, mem_dict_keys_insert, List.mem_cons, exists_eq_or_imp]
      constructor
      · rintro ((h | h) | h)
        · exact Or.inr (Or.inl h.symm)
        · exact Or.inl h
        · exact Or.inr (Or.inr h)
      · rintro (h | h | h)
        · exact Or.inl (Or.inr h)
        · exact Or.inl (Or.inl h.symm)
        · exact Or.inr h
    · intro k g
      simp only [List.foldl_cons, h3, dict_at_insert d e0.1 e0.2.2 k hd, List.mem_cons,
        exists_eq_or_imp]
      by_cases hk : k = e0.1
      · subst hk
        simp only [if_true, mem_set_insert, true_and]
        constructor
        · rintro ((h | h) | h)
          · exact Or.inr (Or.inl h.symm)
          · exact Or.inl h
          · exact Or.inr (Or.inr h)
        · rintro (h | h | h)
          · exact Or.inl (Or.inr h)
          · exact Or.inl (Or.inl h.symm)
          · exact Or.inr h
      · have hk2 : ¬ e0.1 = k := fun h => hk h.symm
        simp only [if_neg hk, hk2, false_and, false_or]
    · intro hs
      exact h4 (dict_insert_entries_sorted d e0.1 e0.2.2 hs)

end walk_lemmas

section order_cluster_lemmas

variable {G : Type} [LinearOrder G]

theorem mem_map_insert (m : List (ℚ × G)) (q p : ℚ × G) (h : p ∈ map_insert m q) :
    p = q ∨ p ∈ m := by
  induction m with
  | nil =>
    simp only [map_insert, List.mem_singleton] at h
    exact Or.inl h
  | cons x rest ih =>
    unfold map_insert at h
    split_ifs at h with h1 h2
    · rcases List.mem_cons.mp h with h | h
      · exact Or.inl h
      · exact Or.inr h
    · rcases List.mem_cons.mp h with h | h
      · exact Or.inr (by simp [h])
      · rcases ih h with h | h
        · exact Or.inl h
        · exact Or.inr (List.mem_cons_of_mem _ h)
    · exact Or.inr h

theorem mem_map_insert_of_mem (m : List (ℚ × G)) (q p : ℚ × G) (h : p ∈ m) :
    p ∈ map_insert m q := by
  induction m with
  | nil => simp at h
  | cons x rest ih =>
    unfold map_insert
    split_ifs with h1 h2
    · exact List.mem_cons_of_mem _ h
    · rcases List.mem_cons.mp h with h | h
      · simp [h]
      · exact List.mem_cons_of_mem _ (ih h)
    · exact h

theorem mem_map_insert_self (m : List (ℚ × G)) (q : ℚ × G)
    (h : ∀ p ∈ m, p.1 ≠ q.1) : q ∈ map_insert m q := by
  induction m with
  | nil => simp [map_insert]
  | cons x rest ih =>
    have hx : x.1 ≠ q.1 := h x (by simp)
    unfold map_insert
    split_ifs with h1 h2
    · simp
    · exact List.mem_cons_of_mem _ (ih (fun p hp => h p (List.mem_cons_of_mem _ hp)))
    · exact absurd (le_antisymm (not_lt.mp h1) (not_lt.mp h2)) hx

theorem map_insert_keys_sorted (m : List (ℚ × G)) (q : ℚ × G)
    (hm : (m.map Prod.fst).Sorted (· < ·)) :
    ((map_insert m q).map Prod.fst).Sorted (· < ·) := by
  induction m with
  | nil => simp [map_insert]
  | cons x rest ih =>
    have hm1 : (x.1 :: rest.map Prod.fst).Sorted (· < ·) := hm
    have hy := List.sorted_cons.mp hm1
    unfold map_insert
    split_ifs with h1 h2
    · show (q.1 :: x.1 :: rest.map Prod.fst).Sorted (· < ·)
      refine List.sorted_cons.mpr ⟨?_, hm1⟩
      intro b hb
      rcases List.mem_cons.mp hb with rfl | hb
      · exact h1
      · exact lt_trans h1 (hy.1 b hb)
    · show (x.1 :: (map_insert rest q).map Prod.fst).Sorted (· < ·)
      refine List.sorted_cons.mpr ⟨?_, ih hy.2⟩
      intro b hb
      obtain ⟨p, hp, rfl⟩ := List.mem_map.mp hb
      rcases mem_map_insert rest q p hp with rfl | hp
      · exact h2
      · exact hy.1 p.1 (List.mem_map_of_mem Prod.fst hp)
    · exact hm

theorem inner_fold_eq (cch : List (calibrated_calorimeter_hit G)) (igid : G) :
    ∀ m : List (ℚ × G),
      cch.foldl
          (fun a ihit => if igid = ihit.geom_id then map_insert a (ihit.time, igid) else a) m
        = ((cch.filter (fun ihit => decide (igid = ihit.geom_id))).map
            (fun ihit => (ihit.time, igid))).foldl map_insert m := by
  induction cch with
  | nil => intro m; rfl
  | cons h rest ih =>
    intro m
    by_cases hg : igid = h.geom_id
    · simp only [List.foldl_cons, if_pos hg, List.filter_cons, hg, decide_True, if_true,
        List.map_cons]
      rw [← hg]
      exact ih _
    · simp only [List.foldl_cons, if_neg hg, List.filter_cons, hg, decide_False]
      exact ih _

/-- The time-keyed map is the result of inserting the pairs of `cluster_pairs`
one after the other in an empty map. -/
theorem order_cluster_eq_foldl (cch : List (calibrated_calorimeter_hit G)) (icluster : List G) :
    order_cluster cch icluster = (cluster_pairs cch icluster).foldl map_insert [] := by
  have key : ∀ (l : List G) (m : List (ℚ × G)),
      l.foldl
          (fun a_cluster igid =>
            cch.foldl
              (fun a ihit => if igid = ihit.geom_id then map_insert a (ihit.time, igid) else a)
              a_cluster) m
        = (cluster_pairs cch l).foldl map_insert m := by
    intro l
    induction l with
    | nil => intro m; rfl
    | cons g l ih =>
      intro m
      simp only [List.foldl_cons, cluster_pairs, List.flatMap_cons, List.foldl_append]
      rw [inner_fold_eq]
      exact ih _
  exact key icluster []

theorem mem_cluster_pairs (cch : List (calibrated_calorimeter_hit G)) (icluster : List G)
    (p : ℚ × G) :
    p ∈ cluster_pairs cch icluster ↔
      ∃ ihit ∈ cch, ihit.geom_id ∈ icluster ∧ p = (ihit.time, ihit.geom_id) := by
  simp only [cluster_pairs, List.mem_flatMap, List.mem_map, List.mem_filter, decide_eq_true_eq]
  constructor
  · rintro ⟨g, hg, h, ⟨hh, rfl⟩, rfl⟩
    exact ⟨h, hh, hg, rfl⟩
  · rintro ⟨h, hh, hg, rfl⟩
    exact ⟨h.geom_id, hg, h, ⟨hh, rfl⟩, rfl⟩

theorem foldl_map_insert_spec (ps : List (ℚ × G)) :
    ∀ m : List (ℚ × G), (m.map Prod.fst).Sorted (· < ·) →
      ((ps.foldl map_insert m).map Prod.fst).Sorted (· < ·) ∧
      (∀ p ∈ ps.foldl map_insert m, p ∈ m ∨ p ∈ ps) ∧
      (∀ p ∈ m, p ∈ ps.foldl map_insert m) ∧
      ((∀ p ∈ ps, ∀ q ∈ m ++ ps, p.1 = q.1 → p = q) → ∀ p ∈ ps, p ∈ ps.foldl map_insert m) := by
  induction ps with
  | nil => intro m hm; simp [hm]
  | cons q ps ih =>
    intro m hm
    obtain ⟨h1, h2, h3, h4⟩ := ih (map_insert m q) (map_insert_keys_sorted m q hm)
    refine ⟨h1, ?_, ?_, ?_⟩
    · intro p hp
      rcases h2 p hp with h | h
      · rcases mem_map_insert m q p h with h | h
        · exact Or.inr (by simp [h])
        · exact Or.inl h
      · exact Or.inr (List.mem_cons_of_mem _ h)
    · intro p hp
      exact h3 p (mem_map_insert_of_mem m q p hp)
    · intro hinj p hp
      have hq : q ∈ map_insert m q := by
        by_cases hk : ∀ x ∈ m, x.1 ≠ q.1
        · exact mem_map_insert_self m q hk
        · push_neg at hk
          obtain ⟨x, hx, hxe⟩ := hk
          have : q = x := hinj q (by simp) x (by simp [hx]) hxe.symm
          rw [this]
          exact mem_map_insert_of_mem m x x hx
      rcases List.mem_cons.mp hp with rfl | hp
      · exact h3 p hq
      · apply h4 _ p hp
        intro a ha b hb hab
        apply hinj a (List.mem_cons_of_mem _ ha) b _ hab
        rcases List.mem_append.mp hb with hb | hb
        · rcases mem_map_insert m q b hb with hb | hb
          · simp [hb]
          · simp [hb]
        · simp [hb]

/-- The time-keyed map of a cluster: keys strictly increasing, every entry is a
hit of the event on a block of the cluster; if the hits of the event sit on
pairwise distinct blocks, so do the entries; and if no two hits of the cluster
have the same time, every hit of the cluster is an entry. -/
theorem order_cluster_spec (cch : List (calibrated_calorimeter_hit G)) (icluster : List G) :
    ((order_cluster cch icluster).map Prod.fst).Sorted (· < ·) ∧
    (∀ p ∈ order_cluster cch icluster,
      ∃ ihit ∈ cch, ihit.geom_id ∈ icluster ∧ p = (ihit.time, ihit.geom_id)) ∧
    ((cch.map (fun ihit => ihit.geom_id)).Nodup →
      ((order_cluster cch icluster).map Prod.snd).Nodup) ∧
    ((∀ h1 ∈ cch, ∀ h2 ∈ cch, h1.geom_id ∈ icluster → h2.geom_id ∈ icluster →
        h1.time = h2.time → h1.geom_id = h2.geom_id) →
      ∀ ihit ∈ cch, ihit.geom_id ∈ icluster →
        (ihit.time, ihit.geom_id) ∈ order_cluster cch icluster) := by
  rw [order_cluster_eq_foldl]
  obtain ⟨h1, h2, _, h4⟩ :=
    foldl_map_insert_spec (cluster_pairs cch icluster) [] List.sorted_nil
  have hmem : ∀ p ∈ (cluster_pairs cch icluster).foldl map_insert [],
      ∃ ihit ∈ cch, ihit.geom_id ∈ icluster ∧ p = (ihit.time, ihit.geom_id) := by
    intro p hp
    rcases h2 p hp with h | h
    · simp at h
    · exact (mem_cluster_pairs cch icluster p).mp h
  refine ⟨h1, hmem, ?_, ?_⟩
  · intro hnd
    apply List.Nodup.map_on _ (List.Nodup.of_map Prod.fst h1.nodup)
    intro x hx y hy hxy
    obtain ⟨hx1, hx2, _, rfl⟩ := hmem x hx
    obtain ⟨hy1, hy2, _, rfl⟩ := hmem y hy
    have : hx1 = hy1 :=
      List.inj_on_of_nodup_map hnd hx2 hy2 hxy
    rw [this]
  · intro hinj ihit hi hg
    apply h4 _ _ ((mem_cluster_pairs cch icluster _).mpr ⟨ihit, hi, hg, rfl⟩)
    intro p hp q hq hpq
    simp only [List.nil_append] at hq
    obtain ⟨a, ha1, ha2, rfl⟩ := (mem_cluster_pairs cch icluster p).mp hp
    obtain ⟨b, hb1, hb2, rfl⟩ := (mem_cluster_pairs cch icluster q).mp hq
    have ht : a.time = b.time := hpq
    have := hinj a ha1 b hb1 ha2 hb2 ht
    simp [ht, this]

end order_cluster_lemmas

section split_core

variable {G : Type} [LinearOrder G]

theorem stored_under_iff (d : gamma_dict_type G) (hd : (dict_keys d).Sorted (· < ·))
    (k : Int) (g : G) : stored_under d k g ↔ g ∈ dict_at d k := by
  unfold stored_under
  constructor
  · rintro ⟨⟨k1, s⟩, he, rfl, hg⟩
    rw [((mem_dict_iff d hd k1 s).mp he).2]
    exact hg
  · intro hg
    have hk : k ∈ dict_keys d := by
      by_contra hk
      rw [dict_at_of_not_mem d k hk] at hg
      simp at hg
    exact ⟨(k, dict_at d k), (mem_dict_iff d hd k _).mpr ⟨hk, rfl⟩, rfl, hg⟩

theorem split_count_append (l1 : List (ℚ × G)) (a : ℚ × G) (l2 : List (ℚ × G)) :
    ∀ t : ℚ, split_count (l1 ++ a :: l2) t = split_count (l1 ++ [a]) t + split_count l2 a.1 := by
  induction l1 with
  | nil =>
    intro t
    simp [split_count]
  | cons p l1 ih =>
    intro t
    have e1 : (p :: l1) ++ a :: l2 = p :: (l1 ++ a :: l2) := rfl
    have e2 : (p :: l1) ++ [a] = p :: (l1 ++ [a]) := rfl
    rw [e1, e2, split_count_cons, split_count_cons, ih]
    omega

/-- State of the dictionary after the split loop has handled one time-keyed
map `m`, in terms of the labels of the walk. -/
theorem split_cluster_spec (st : split_state G) (m : List (ℚ × G)) (hinv : split_inv st) :
    (split_cluster st m).track_id = st.track_id + 1 + (split_count m 0 : Nat) ∧
    (split_cluster st m).number_of_clusters = st.number_of_clusters + split_count m 0 ∧
    (dict_keys (split_cluster st m).clustered_gammas).Sorted (· < ·) ∧
    (∀ e ∈ (split_cluster st m).clustered_gammas, e.2.Sorted (· < ·)) ∧
    (∀ k ∈ dict_keys (split_cluster st m).clustered_gammas,
      k ≤ (split_cluster st m).track_id) ∧
    (∀ k g, st.track_id < k →
      (stored_under (split_cluster st m).clustered_gammas k g ↔
        ∃ e ∈ walk_labels m 0 (st.track_id + 1), e.1 = k ∧ e.2.2 = g)) := by
  obtain ⟨hk, hle, hs⟩ := hinv
  rw [split_cluster_eq_walk, split_walk_spec]
  obtain ⟨f1, f2, f3, f4⟩ :=
    foldl_dict_insert_spec (walk_labels m 0 (st.track_id + 1)) st.clustered_gammas hk
  refine ⟨rfl, rfl, f1, f4 hs, ?_, ?_⟩
  · intro k hkm
    rcases (f2 k).mp hkm with h | ⟨e, he, rfl⟩
    · have := hle k h
      show k ≤ st.track_id + 1 + (split_count m 0 : Nat)
      omega
    · exact (walk_labels_bounds m 0 (st.track_id + 1) e he).2
  · intro k g hlt
    show stored_under (List.foldl (fun d e => dict_insert d e.1 e.2.2) st.clustered_gammas
      (walk_labels m 0 (st.track_id + 1))) k g ↔ _
    rw [stored_under_iff _ f1, f3]
    have hnot : k ∉ dict_keys st.clustered_gammas := fun h => by
      have := hle k h
      omega
    rw [dict_at_of_not_mem _ k hnot]
    simp

/-- The invariant of the split loop is kept by the body of the loop. -/
theorem split_cluster_inv (st : split_state G) (m : List (ℚ × G)) (hinv : split_inv st) :
    split_inv (split_cluster st m) := by
  obtain ⟨_, _, h3, h4, h5, _⟩ := split_cluster_spec st m hinv
  exact ⟨h3, h5, h4⟩

/-- In a map with pairwise distinct blocks, the block of the pair `a` is stored,
among the labels of this cluster, under exactly one label: the label of the
cluster plus the number of splits up to `a`. -/
theorem split_cluster_label (st : split_state G) (pre : List (ℚ × G)) (a : ℚ × G)
    (rest : List (ℚ × G)) (hinv : split_inv st)
    (hnd : ((pre ++ a :: rest).map Prod.snd).Nodup) (k : Int) (hk : st.track_id < k) :
    stored_under (split_cluster st (pre ++ a :: rest)).clustered_gammas k a.2 ↔
      k = st.track_id + 1 + (split_count (pre ++ [a]) 0 : Nat) := by
  rw [(split_cluster_spec st (pre ++ a :: rest) hinv).2.2.2.2.2 k a.2 hk]
  have hdec := walk_labels_append_cons pre a rest 0 (st.track_id + 1)
  have hin : (st.track_id + 1 + (split_count (pre ++ [a]) 0 : Nat), a) ∈
      walk_labels (pre ++ a :: rest) 0 (st.track_id + 1) := by
    rw [hdec]
    simp
  have hmap : (walk_labels (pre ++ a :: rest) 0 (st.track_id + 1)).map (fun e => e.2.2)
      = (pre ++ a :: rest).map Prod.snd := by
    have h := congrArg (List.map Prod.snd)
      (walk_labels_map_snd (pre ++ a :: rest) 0 (st.track_id + 1))
    rw [List.map_map] at h
    exact h
  constructor
  · rintro ⟨e, he, rfl, hg⟩
    have hnd2 : ((walk_labels (pre ++ a :: rest) 0 (st.track_id + 1)).map
        (fun e => e.2.2)).Nodup := by
      rw [hmap]
      exact hnd
    have := List.inj_on_of_nodup_map hnd2 he hin hg
    rw [this]
  · intro h
    exact ⟨_, hin, h.symm, rfl⟩

/-- Labels never decrease along the walk and times strictly increase. -/
theorem walk_labels_pairwise (m : List (ℚ × G)) :
    ∀ (t : ℚ) (k : Int), (m.map Prod.fst).Sorted (· < ·) →
      (walk_labels m t k).Pairwise (fun x y => x.1 ≤ y.1 ∧ x.2.1 < y.2.1) := by
  induction m with
  | nil => intro t k _; simp [walk_labels]
  | cons p rest ih =>
    intro t k hm
    have hm1 : (p.1 :: rest.map Prod.fst).Sorted (· < ·) := hm
    have hy := List.sorted_cons.mp hm1
    rw [walk_labels_cons]
    refine List.pairwise_cons.mpr ⟨?_, ih _ _ hy.2⟩
    intro e he
    refine ⟨(walk_labels_bounds rest p.1 _ e he).1, ?_⟩
    have : e.2 ∈ rest := by
      have h := List.mem_map_of_mem Prod.snd he
      rw [walk_labels_map_snd] at h
      exact h
    exact hy.1 e.2.1 (List.mem_map_of_mem Prod.fst this)

/-- Number of dictionary entries after a walk that starts with the current
label already present. -/
theorem split_walk_length (l : List (ℚ × G)) :
    ∀ (t : ℚ) (st : split_state G), split_inv st →
      st.track_id ∈ dict_keys st.clustered_gammas →
      (split_walk l t st).clustered_gammas.length
        = st.clustered_gammas.length + split_count l t := by
  induction l with
  | nil => intro t st _ _; simp [split_walk, split_count]
  | cons p rest ih =>
    intro t st hinv hmem
    obtain ⟨hk, hle, hs⟩ := hinv
    rw [split_walk_cons, split_count_cons]
    by_cases h : split_test t p.1
    · rw [if_pos h, if_pos h, ih]
      · have hnot : st.track_id + 1 ∉ dict_keys st.clustered_gammas := fun hm => by
          have := hle _ hm
          omega
        simp only [dict_insert_length _ _ _ hk, if_neg hnot]
        omega
      · refine ⟨dict_keys_insert_sorted _ _ _ hk, ?_, dict_insert_entries_sorted _ _ _ hs⟩
        intro k hkm
        rcases (mem_dict_keys_insert _ _ _ k).mp hkm with rfl | hkm
        · exact le_refl _
        · have := hle k hkm
          show k ≤ st.track_id + 1
          omega
      · exact (mem_dict_keys_insert _ _ _ _).mpr (Or.inl rfl)
    · rw [if_neg h, if_neg h, ih]
      · simp only [dict_insert_length _ _ _ hk, if_pos hmem]
        omega
      · refine ⟨dict_keys_insert_sorted _ _ _ hk, ?_, dict_insert_entries_sorted _ _ _ hs⟩
        intro k hkm
        rcases (mem_dict_keys_insert _ _ _ k).mp hkm with rfl | hkm
        · exact le_refl _
        · exact hle k hkm
      · exact (mem_dict_keys_insert _ _ _ _).mpr (Or.inl rfl)

/-- Number of dictionary entries added by one non-empty time-keyed map. -/
theorem split_cluster_length (st : split_state G) (a : ℚ × G) (rest : List (ℚ × G))
    (hinv : split_inv st) :
    (split_cluster st (a :: rest)).clustered_gammas.length
      = st.clustered_gammas.length + 1 + split_count (a :: rest) 0 := by
  obtain ⟨hk, hle, hs⟩ := hinv
  have hno : ¬ split_test 0 a.1 := fun hc => hc.1 rfl
  rw [split_cluster_eq_walk, split_walk_cons, if_neg hno, split_walk_length,
    split_count_zero_start]
  · have hnot : st.track_id + 1 ∉ dict_keys st.clustered_gammas := fun hm => by
      have := hle _ hm
      omega
    simp only [dict_insert_length _ _ _ hk, if_neg hnot]
  · refine ⟨dict_keys_insert_sorted _ _ _ hk, ?_, dict_insert_entries_sorted _ _ _ hs⟩
    intro k hkm
    rcases (mem_dict_keys_insert _ _ _ k).mp hkm with rfl | hkm
    · exact le_refl _
    · have := hle k hkm
      show k ≤ st.track_id + 1
      omega
  · exact (mem_dict_keys_insert _ _ _ _).mpr (Or.inl rfl)

/-- The invariant holds when the split loop starts on an empty dictionary. -/
theorem split_inv_init (n : Nat) :
    split_inv ({ number_of_clusters := n, track_id := 0, clustered_gammas := [] } :
      split_state G) :=
  ⟨List.sorted_nil, by simp [dict_keys], by simp⟩

/-- The invariant holds after any number of rounds of the split loop. -/
theorem foldl_split_cluster_inv (ms : List (List (ℚ × G))) :
    ∀ st : split_state G, split_inv st → split_inv (ms.foldl split_cluster st) := by
  induction ms with
  | nil => intro st h; exact h
  | cons m ms ih =>
    intro st h
    exact ih _ (split_cluster_inv st m h)

end split_core

section counter_lemmas

variable {G : Type} [DecidableEq G]

/-- All counters written by `_compare_sequences`, in one equation. -/
theorem compare_sequences_state (sim rec : List (Int × List G)) (m : module_state) :
    (_compare_sequences sim rec m).2 =
      { m with _efficiency_ :=
        { m._efficiency_ with
          nevent := m._efficiency_.nevent + 1,
          nmiss := m._efficiency_.nmiss + (if rec = [] ∧ sim = [] then 1 else 0),
          ntotal := m._efficiency_.ntotal + sim.length,
          nevent_gammas := m._efficiency_.nevent_gammas + (if 0 < sim.length then 1 else 0),
          ngood := m._efficiency_.ngood + count_good sim rec,
          ngood_event := m._efficiency_.ngood_event +
            (if count_good sim rec = sim.length ∧ 0 < sim.length then 1 else 0) } } := by
  unfold _compare_sequences
  by_cases h : rec.isEmpty = true ∧ sim.isEmpty = true
  · have hr : rec = [] := List.isEmpty_iff.mp h.1
    have hs : sim = [] := List.isEmpty_iff.mp h.2
    subst hr
    subst hs
    simp [count_good]
  · have h2 : ¬ (rec = [] ∧ sim = []) := fun hc =>
      h ⟨List.isEmpty_iff.mpr hc.1, List.isEmpty_iff.mpr hc.2⟩
    rw [if_neg h, if_neg h2]
    by_cases hv : count_good sim rec = sim.length ∧ sim.length > 0
    · rw [if_pos hv, if_pos hv, if_pos hv.2]
      have hp : 0 < sim.length := hv.2
      simp [hp]
    · rw [if_neg hv, if_neg hv]
      by_cases hp : sim.length > 0
      · rw [if_pos hp]
        simp [hp]
      · rw [if_neg hp]
        simp [hp]

/-- All counters written by `_compare_sequences_cluster`, in one equation. -/
theorem compare_sequences_cluster_state (sim cl : List (Int × List G)) (m : module_state) :
    (_compare_sequences_cluster sim cl m).2 =
      { m with _no_gt_efficiency_ :=
        { m._no_gt_efficiency_ with
          no_gt_nevent_gammas := m._no_gt_efficiency_.no_gt_nevent_gammas +
            (if 0 < sim.length then 1 else 0),
          no_gt_ngood_event := m._no_gt_efficiency_.no_gt_ngood_event +
            (if count_good sim cl = sim.length ∧ 0 < sim.length then 1 else 0) } } := by
  unfold _compare_sequences_cluster
  by_cases h : cl.isEmpty = true ∧ sim.isEmpty = true
  · have hs : sim = [] := List.isEmpty_iff.mp h.2
    subst hs
    simp [h]
  · rw [if_neg h]
    by_cases hv : count_good sim cl = sim.length ∧ sim.length > 0
    · rw [if_pos hv, if_pos hv, if_pos hv.2]
      have hp : 0 < sim.length := hv.2
      simp [hp]
    · rw [if_neg hv, if_neg hv]
      by_cases hp : sim.length > 0
      · rw [if_pos hp]
        simp [hp]
      · rw [if_neg hp]
        simp [hp]

/-- The value returned by `_compare_sequences`. -/
theorem compare_sequences_verdict (sim rec : List (Int × List G)) (m : module_state) :
    (_compare_sequences sim rec m).1 = true ↔
      count_good sim rec = sim.length ∧ 0 < sim.length := by
  unfold _compare_sequences
  by_cases h : rec.isEmpty = true ∧ sim.isEmpty = true
  · have hs : sim = [] := List.isEmpty_iff.mp h.2
    simp [h, hs]
  · rw [if_neg h]
    by_cases h1 : count_good sim rec = sim.length ∧ sim.length > 0
    · rw [if_pos h1]
      exact iff_of_true rfl h1
    · rw [if_neg h1]
      exact iff_of_false (by simp) h1

/-- The value returned by `_compare_sequences_cluster`. -/
theorem compare_sequences_cluster_verdict (sim cl : List (Int × List G)) (m : module_state) :
    (_compare_sequences_cluster sim cl m).1 = true ↔
      count_good sim cl = sim.length ∧ 0 < sim.length := by
  unfold _compare_sequences_cluster
  by_cases h : cl.isEmpty = true ∧ sim.isEmpty = true
  · have hs : sim = [] := List.isEmpty_iff.mp h.2
    simp [h, hs]
  · rw [if_neg h]
    by_cases h1 : count_good sim cl = sim.length ∧ sim.length > 0
    · rw [if_pos h1]
      exact iff_of_true rfl h1
    · rw [if_neg h1]
      exact iff_of_false (by simp) h1

end counter_lemmas

section extraction_lemmas

variable {G : Type} [LinearOrder G]

/-- The index of a step hit: the parent id when the key is there, else the
track id when that key is there, else -1. -/
theorem resolve_track_id_eq (a_hit : base_step_hit G) :
    resolve_track_id a_hit =
      match a_hit.parent_track_id, a_hit.track_id with
      | some p, _ => p
      | none, some t => t
      | none, none => -1 := by
  unfold resolve_track_id
  cases a_hit.parent_track_id <;> cases a_hit.track_id <;> rfl

theorem step_hit_loop_cons (cch : List (calibrated_calorimeter_hit G)) (ngamma : Nat)
    (ihit : base_step_hit G) (rest : List (base_step_hit G)) (already_gids : List G)
    (d : gamma_dict_type G) :
    step_hit_loop cch ngamma (ihit :: rest) (already_gids, d) =
      if resolve_track_id ihit = -1 then Except.error logic_error.missing_primary_track_id
      else if resolve_track_id ihit = 0 then step_hit_loop cch ngamma rest (already_gids, d)
      else if has_hit cch ihit.geom_id = false then
        step_hit_loop cch ngamma rest (already_gids, d)
      else if ihit.geom_id ∈ already_gids then step_hit_loop cch ngamma rest (already_gids, d)
      else if resolve_track_id ihit > (ngamma : Int) + 1 then
        Except.ok (process_status.PROCESS_STOP, (already_gids, d))
      else
        step_hit_loop cch ngamma rest
          (set_insert already_gids ihit.geom_id,
            dict_insert d (resolve_track_id ihit) ihit.geom_id) := rfl

/-- A hit that passes every test of the loop body is attributed. -/
theorem step_hit_loop_attributed (cch : List (calibrated_calorimeter_hit G)) (ngamma : Nat)
    (ihit : base_step_hit G) (rest : List (base_step_hit G)) (already_gids : List G)
    (d : gamma_dict_type G)
    (h1 : resolve_track_id ihit ≠ -1) (h2 : resolve_track_id ihit ≠ 0)
    (h3 : has_hit cch ihit.geom_id = true) (h4 : ihit.geom_id ∉ already_gids)
    (h5 : resolve_track_id ihit ≤ (ngamma : Int) + 1) :
    step_hit_loop cch ngamma (ihit :: rest) (already_gids, d) =
      step_hit_loop cch ngamma rest
        (set_insert already_gids ihit.geom_id,
          dict_insert d (resolve_track_id ihit) ihit.geom_id) := by
  have h3f : ¬ has_hit cch ihit.geom_id = false := by simp [h3]
  rw [step_hit_loop_cons, if_neg h1, if_neg h2, if_neg h3f, if_neg h4, if_neg (not_lt.mpr h5)]

/-- A hit that passes the three discards with an index above `ngamma + 1` stops
the loop. -/
theorem step_hit_loop_stop (cch : List (calibrated_calorimeter_hit G)) (ngamma : Nat)
    (ihit : base_step_hit G) (rest : List (base_step_hit G)) (already_gids : List G)
    (d : gamma_dict_type G)
    (h1 : resolve_track_id ihit ≠ -1) (h2 : resolve_track_id ihit ≠ 0)
    (h3 : has_hit cch ihit.geom_id = true) (h4 : ihit.geom_id ∉ already_gids)
    (h5 : (ngamma : Int) + 1 < resolve_track_id ihit) :
    step_hit_loop cch ngamma (ihit :: rest) (already_gids, d) =
      Except.ok (process_status.PROCESS_STOP, (already_gids, d)) := by
  have h3f : ¬ has_hit cch ihit.geom_id = false := by simp [h3]
  rw [step_hit_loop_cons, if_neg h1, if_neg h2, if_neg h3f, if_neg h4, if_pos h5]

/-- The loop over a list that starts with hits on which the loop ran to its
end goes on from the state reached there. -/
theorem step_hit_loop_append (cch : List (calibrated_calorimeter_hit G)) (ngamma : Nat)
    (pre : List (base_step_hit G)) :
    ∀ (post : List (base_step_hit G)) (st st1 : List G × gamma_dict_type G),
      step_hit_loop cch ngamma pre st = Except.ok (process_status.PROCESS_OK, st1) →
      step_hit_loop cch ngamma (pre ++ post) st = step_hit_loop cch ngamma post st1 := by
  induction pre with
  | nil =>
    intro post st st1 h
    simp only [step_hit_loop, Except.ok.injEq, Prod.mk.injEq, true_and] at h
    rw [List.nil_append, h]
  | cons ihit pre ih =>
    intro post st st1 h
    obtain ⟨already_gids, d⟩ := st
    rw [List.cons_append, step_hit_loop_cons]
    rw [step_hit_loop_cons] at h
    by_cases c1 : resolve_track_id ihit = -1
    · rw [if_pos c1] at h
      exact absurd h (by simp)
    rw [if_neg c1] at h ⊢
    by_cases c2 : resolve_track_id ihit = 0
    · rw [if_pos c2] at h ⊢
      exact ih post _ st1 h
    rw [if_neg c2] at h ⊢
    by_cases c3 : has_hit cch ihit.geom_id = false
    · rw [if_pos c3] at h ⊢
      exact ih post _ st1 h
    rw [if_neg c3] at h ⊢
    by_cases c4 : ihit.geom_id ∈ already_gids
    · rw [if_pos c4] at h ⊢
      exact ih post _ st1 h
    rw [if_neg c4] at h ⊢
    by_cases c5 : resolve_track_id ihit > (ngamma : Int) + 1
    · rw [if_pos c5] at h
      simp at h
    rw [if_neg c5] at h ⊢
    exact ih post _ st1 h

theorem set_insert_ne_nil (s : List G) (g : G) : set_insert s g ≠ [] := by
  cases s with
  | nil => simp [set_insert]
  | cons x rest =>
    unfold set_insert
    split_ifs <;> simp

theorem dict_insert_entries_ne_nil (d : gamma_dict_type G) (k : Int) (g : G)
    (hd : ∀ e ∈ d, e.2 ≠ []) : ∀ e ∈ dict_insert d k g, e.2 ≠ [] := by
  induction d with
  | nil =>
    intro e he
    simp only [dict_insert, List.mem_singleton] at he
    subst he
    exact set_insert_ne_nil [] g
  | cons e0 rest ih =>
    obtain ⟨k2, s⟩ := e0
    have hrest : ∀ e ∈ rest, e.2 ≠ [] := fun e he => hd e (List.mem_cons_of_mem _ he)
    intro e he
    unfold dict_insert at he
    split_ifs at he with h1 h2
    · rcases List.mem_cons.mp he with rfl | he
      · exact set_insert_ne_nil [] g
      · exact hd e he
    · rcases List.mem_cons.mp he with rfl | he
      · exact hd (k2, s) (by simp)
      · exact ih hrest e he
    · rcases List.mem_cons.mp he with rfl | he
      · exact set_insert_ne_nil s g
      · exact hrest e he

/-- What a run of the loop to its end leaves in the dictionary. -/
theorem step_hit_loop_spec (cch : List (calibrated_calorimeter_hit G)) (ngamma : Nat)
    (l : List (base_step_hit G)) :
    ∀ (already_gids : List G) (d : gamma_dict_type G) (st1 : List G × gamma_dict_type G),
      (dict_keys d).Sorted (· < ·) →
      step_hit_loop cch ngamma l (already_gids, d) = Except.ok (process_status.PROCESS_OK, st1) →
      (dict_keys st1.2).Sorted (· < ·) ∧
      (∀ i b, b ∈ dict_at st1.2 i ↔
        b ∈ dict_at d i ∨
          (b ∉ already_gids ∧ has_hit cch b = true ∧ first_owner l b = some i)) ∧
      (∀ k ∈ dict_keys st1.2, k ∈ dict_keys d ∨ k ≤ (ngamma : Int) + 1) ∧
      ((∀ e ∈ d, e.2 ≠ []) → ∀ e ∈ st1.2, e.2 ≠ []) := by
  induction l with
  | nil =>
    intro already_gids d st1 hd h
    simp only [step_hit_loop, Except.ok.injEq, Prod.mk.injEq, true_and] at h
    subst h
    refine ⟨hd, ?_, fun k hk => Or.inl hk, fun h => h⟩
    intro i b
    simp [first_owner]
  | cons ihit rest ih =>
    intro already_gids d st1 hd h
    rw [step_hit_loop_cons] at h
    by_cases c1 : resolve_track_id ihit = -1
    · rw [if_pos c1] at h
      exact absurd h (by simp)
    rw [if_neg c1] at h
    by_cases c2 : resolve_track_id ihit = 0
    · rw [if_pos c2] at h
      obtain ⟨k1, k2, k3, k4⟩ := ih already_gids d st1 hd h
      refine ⟨k1, ?_, k3, k4⟩
      intro i b
      rw [k2 i b]
      simp [first_owner, c2]
    rw [if_neg c2] at h
    by_cases c3 : has_hit cch ihit.geom_id = false
    · rw [if_pos c3] at h
      obtain ⟨k1, k2, k3, k4⟩ := ih already_gids d st1 hd h
      refine ⟨k1, ?_, k3, k4⟩
      intro i b
      rw [k2 i b]
      by_cases hb : ihit.geom_id = b
      · subst hb
        simp [c3]
      · simp [first_owner, hb]
    rw [if_neg c3] at h
    by_cases c4 : ihit.geom_id ∈ already_gids
    · rw [if_pos c4] at h
      obtain ⟨k1, k2, k3, k4⟩ := ih already_gids d st1 hd h
      refine ⟨k1, ?_, k3, k4⟩
      intro i b
      rw [k2 i b]
      by_cases hb : ihit.geom_id = b
      · subst hb
        simp [c4]
      · simp [first_owner, hb]
    rw [if_neg c4] at h
    by_cases c5 : resolve_track_id ihit > (ngamma : Int) + 1
    · rw [if_pos c5] at h
      simp at h
    rw [if_neg c5] at h
    obtain ⟨k1, k2, k3, k4⟩ := ih _ _ st1
      (dict_keys_insert_sorted d (resolve_track_id ihit) ihit.geom_id hd) h
    have c3t : has_hit cch ihit.geom_id = true := by simpa using c3
    refine ⟨k1, ?_, ?_, ?_⟩
    · intro i b
      rw [k2 i b, dict_at_insert d _ _ i hd, mem_set_insert]
      by_cases hb : ihit.geom_id = b
      · subst hb
        by_cases hi : i = resolve_track_id ihit
        · subst hi
          simp [first_owner, c2, c4, c3t, mem_set_insert]
        · have hi2 : ¬ resolve_track_id ihit = i := fun hc => hi hc.symm
          simp [first_owner, c2, hi, hi2, mem_set_insert]
      · have hb2 : ¬ b = ihit.geom_id := fun hc => hb hc.symm
        by_cases hi : i = resolve_track_id ihit
        · subst hi
          simp [first_owner, hb, hb2, mem_set_insert]
        · simp [first_owner, hb, hb2, hi, mem_set_insert]
    · intro k hk
      rcases k3 k hk with hk | hk
      · rcases (mem_dict_keys_insert d _ _ k).mp hk with rfl | hk
        · exact Or.inr (not_lt.mp c5)
        · exact Or.inl hk
      · exact Or.inr hk
    · intro hne
      exact k4 (dict_insert_entries_ne_nil d _ _ hne)

/-- The first owner of a block, in terms of the position of the hit. -/
theorem first_owner_eq_some_iff (l : List (base_step_hit G)) (b : G) (i : Int) :
    first_owner l b = some i ↔
      ∃ (pre : List (base_step_hit G)) (ihit : base_step_hit G) (post : List (base_step_hit G)),
        l = pre ++ ihit :: post ∧ ihit.geom_id = b ∧ resolve_track_id ihit = i ∧ i ≠ 0 ∧
          ∀ h1 ∈ pre, h1.geom_id = b → resolve_track_id h1 = 0 := by
  induction l with
  | nil => simp [first_owner]
  | cons x rest ih =>
    by_cases hx : x.geom_id = b ∧ resolve_track_id x ≠ 0
    · simp only [first_owner, if_pos hx, Option.some.injEq]
      constructor
      · intro hi
        exact ⟨[], x, rest, rfl, hx.1, hi, hi ▸ hx.2, by simp⟩
      · rintro ⟨pre, ihit, post, hl, hg, hr, _, hpre⟩
        cases pre with
        | nil =>
          simp only [List.nil_append, List.cons.injEq] at hl
          rw [hl.1]
          exact hr
        | cons y pre =>
          simp only [List.cons_append, List.cons.injEq] at hl
          have := hpre y (by simp) (hl.1 ▸ hx.1)
          rw [← hl.1] at this
          exact absurd this hx.2
    · simp only [first_owner, if_neg hx]
      rw [ih]
      constructor
      · rintro ⟨pre, ihit, post, hl, hg, hr, hi, hpre⟩
        refine ⟨x :: pre, ihit, post, by simp [hl], hg, hr, hi, ?_⟩
        intro h1 hh1 hg1
        rcases List.mem_cons.mp hh1 with rfl | hh1
        · by_contra hc
          exact hx ⟨hg1, hc⟩
        · exact hpre h1 hh1 hg1
      · rintro ⟨pre, ihit, post, hl, hg, hr, hi, hpre⟩
        cases pre with
        | nil =>
          simp only [List.nil_append, List.cons.injEq] at hl
          exfalso
          apply hx
          rw [hl.1]
          exact ⟨hg, hr ▸ hi⟩
        | cons y pre =>
          simp only [List.cons_append, List.cons.injEq] at hl
          exact ⟨pre, ihit, post, hl.2, hg, hr, hi,
            fun h1 hh1 => hpre h1 (List.mem_cons_of_mem _ hh1)⟩

/-- When `_process_simulated_gammas` returns `PROCESS_OK`, the record has the
two banks and step hits, the loop ran to its end on them, and only `ngamma` of
the tracking set was written. -/
theorem process_simulated_gammas_ok (data_record_ : things G) (d0 d : gamma_dict_type G)
    (m m1 : module_state)
    (h : _process_simulated_gammas data_record_ d0 m
      = Except.ok (process_status.PROCESS_OK, d, m1)) :
    ∃ (sd : simulated_data G) (cd : calibrated_data G) (hits : List (base_step_hit G))
        (already_gids : List G),
      data_record_.sd = some sd ∧ data_record_.cd = some cd ∧ sd.step_hits = some hits ∧
      step_hit_loop cd.calibrated_calorimeter_hits
          (sd.primary_particles.filter (fun i => i.is_gamma)).length hits ([], d0)
        = Except.ok (process_status.PROCESS_OK, (already_gids, d)) ∧
      m1 = { m with _efficiency_ :=
        { m._efficiency_ with
          ngamma := (sd.primary_particles.filter (fun i => i.is_gamma)).length } } := by
  unfold _process_simulated_gammas at h
  cases hsd : data_record_.sd with
  | none =>
    rw [hsd] at h
    simp at h
  | some sd =>
    rw [hsd] at h
    cases hcd : data_record_.cd with
    | none =>
      rw [hcd] at h
      simp at h
    | some cd =>
      rw [hcd] at h
      simp only at h
      by_cases hh : cd.has_calibrated_calorimeter_hits = false
      · rw [if_pos hh] at h
        simp at h
      · rw [if_neg hh] at h
        cases hst : sd.step_hits with
        | none =>
          rw [hst] at h
          simp at h
        | some hits =>
          rw [hst] at h
          simp only at h
          by_cases he : hits.isEmpty = true
          · rw [if_pos he] at h
            simp at h
          · rw [if_neg he] at h
            cases hl : step_hit_loop cd.calibrated_calorimeter_hits
                (sd.primary_particles.filter (fun i => i.is_gamma)).length hits ([], d0) with
            | error e =>
              rw [hl] at h
              simp at h
            | ok r =>
              obtain ⟨s, al, d1⟩ := r
              rw [hl] at h
              simp only [Except.ok.injEq, Prod.mk.injEq] at h
              obtain ⟨h1, h2, h3⟩ := h
              subst h1
              subst h2
              exact ⟨sd, cd, hits, al, rfl, rfl, hst, hl, h3.symm⟩

end extraction_lemmas

section extraction_function_lemmas

variable {G : Type} [LinearOrder G]

/-- `_process_simulated_gammas` on a record that reaches the loop. -/
theorem process_simulated_gammas_of_loop (data_record_ : things G) (sd : simulated_data G)
    (cd : calibrated_data G) (hits : List (base_step_hit G)) (d0 : gamma_dict_type G)
    (m : module_state)
    (hsd : data_record_.sd = some sd) (hcd : data_record_.cd = some cd)
    (hhas : cd.has_calibrated_calorimeter_hits = true) (hst : sd.step_hits = some hits)
    (hne : hits ≠ []) :
    _process_simulated_gammas data_record_ d0 m =
      match step_hit_loop cd.calibrated_calorimeter_hits
          (sd.primary_particles.filter (fun i => i.is_gamma)).length hits ([], d0) with
      | Except.error e => Except.error e
      | Except.ok (status, (_, d)) =>
        Except.ok (status, d,
          { m with _efficiency_ :=
            { m._efficiency_ with
              ngamma := (sd.primary_particles.filter (fun i => i.is_gamma)).length } }) := by
  have hemp : ¬ hits.isEmpty = true := fun h => hne (List.isEmpty_iff.mp h)
  have hhas2 : ¬ cd.has_calibrated_calorimeter_hits = false := by simp [hhas]
  unfold _process_simulated_gammas
  rw [hsd, hcd]
  simp only
  rw [if_neg hhas2, hst]
  simp only
  rw [if_neg hemp]

end extraction_function_lemmas

section process_lemmas

variable {G : Type} [LinearOrder G]

/-- With fuel for two nested activations the clustering returns a result. -/
theorem pre_process_clustering_total (neighbours : G → List G) (fuel : Nat) (hfuel : 2 ≤ fuel)
    (ptd : List (particle_track G)) (d : gamma_dict_type G) :
    ∃ r, _pre_process_clustering neighbours fuel ptd d = some r := by
  obtain ⟨k, rfl⟩ : ∃ k, fuel = k + 2 := ⟨fuel - 2, by omega⟩
  obtain ⟨ccl1, cls1, heq, _⟩ :=
    seed_loop_spec neighbours
      ((fetch_particles ptd).map (fun a_gamma => a_gamma.associated_calorimeter_hits)).flatten k
      ((fetch_particles ptd).map (fun a_gamma => a_gamma.associated_calorimeter_hits)).flatten
      [] [] (fun _ h => h) rfl List.nodup_nil (by simp)
  unfold _pre_process_clustering
  simp only [heq]
  exact ⟨_, rfl⟩

/-- `_process_simulated_gammas` throws or not, and returns its status and its
dictionary, whatever the counters are; of the counters it writes `ngamma`. -/
theorem process_simulated_gammas_shape (data_record_ : things G) (d0 : gamma_dict_type G) :
    (∃ x, ∀ m, _process_simulated_gammas data_record_ d0 m = Except.error x) ∨
    (∃ (s : process_status) (d : gamma_dict_type G), ∀ m,
      _process_simulated_gammas data_record_ d0 m =
        Except.ok (s, d,
          { m with _efficiency_ :=
            { m._efficiency_ with
              ngamma := event_ngamma data_record_ m._efficiency_.ngamma } })) := by
  unfold _process_simulated_gammas event_ngamma
  cases hsd : data_record_.sd with
  | none => exact Or.inr ⟨_, _, fun m => rfl⟩
  | some sd =>
    cases hcd : data_record_.cd with
    | none => exact Or.inr ⟨_, _, fun m => rfl⟩
    | some cd =>
      simp only
      by_cases hh : cd.has_calibrated_calorimeter_hits = false
      · simp only [if_pos hh]
        exact Or.inr ⟨_, _, fun m => rfl⟩
      · simp only [if_neg hh]
        cases hst : sd.step_hits with
        | none => exact Or.inr ⟨_, _, fun m => rfl⟩
        | some hits =>
          simp only
          by_cases he : hits.isEmpty = true
          · simp only [if_pos he]
            exact Or.inr ⟨_, _, fun m => rfl⟩
          · simp only [if_neg he]
            cases hl : step_hit_loop cd.calibrated_calorimeter_hits
                (sd.primary_particles.filter (fun i => i.is_gamma)).length hits ([], d0) with
            | error e => exact Or.inl ⟨e, fun m => rfl⟩
            | ok r =>
              obtain ⟨s, al, d1⟩ := r
              exact Or.inr ⟨s, d1, fun m => rfl⟩

theorem bump_zero (data_record_ : things G) (m : module_state) :
    bump data_record_ zero_counters m =
      { m with _efficiency_ :=
        { m._efficiency_ with
          ngamma := event_ngamma data_record_ m._efficiency_.ngamma } } := by
  simp [bump, add_efficiency, zero_counters]

/-- One event either runs out of fuel, or throws, or returns a status and adds
fixed increments to the counters, all three whatever the counters are; only
`ngamma` of the tracking set is overwritten. -/
theorem process_shape (neighbours : G → List G) (fuel : Nat) (data_record_ : things G) :
    (∀ m, process neighbours fuel data_record_ m = none) ∨
    (∃ x, ∀ m, process neighbours fuel data_record_ m = some (Except.error x)) ∨
    (∃ (s : process_status) (d : module_state), ∀ m,
      process neighbours fuel data_record_ m = some (Except.ok (s, bump data_record_ d m))) := by
  unfold process
  cases hptd : data_record_.ptd with
  | none => exact Or.inr (Or.inl ⟨_, fun m => rfl⟩)
  | some ptd =>
    simp only
    cases hcl : _pre_process_clustering neighbours fuel ptd [] with
    | none => exact Or.inl (fun m => rfl)
    | some r =>
      obtain ⟨clustered_gammas, n⟩ := r
      simp only
      by_cases heh : data_record_.eh = false
      · simp only [if_pos heh]
        exact Or.inr (Or.inl ⟨_, fun m => rfl⟩)
      · simp only [if_neg heh]
        rcases process_simulated_gammas_shape data_record_ [] with ⟨x, hx⟩ | ⟨s, T, hT⟩
        · refine Or.inr (Or.inl ⟨x, fun m => ?_⟩)
          rw [hx m]
        · by_cases hs : s ≠ process_status.PROCESS_OK
          · refine Or.inr (Or.inr ⟨s, zero_counters, fun m => ?_⟩)
            rw [hT m]
            simp only [if_pos hs]
            rw [bump_zero]
          · by_cases hr : (_process_reconstructed_gammas data_record_ []).1
                ≠ process_status.PROCESS_OK
            · refine Or.inr (Or.inr ⟨(_process_reconstructed_gammas data_record_ []).1,
                zero_counters, fun m => ?_⟩)
              rw [hT m]
              simp only [if_neg hs, if_pos hr]
              rw [bump_zero]
            · refine Or.inr (Or.inr ⟨process_status.PROCESS_SUCCESS,
                ⟨⟨1, T.length, 0,
                    count_good T (_process_reconstructed_gammas data_record_ []).2,
                    (if (_process_reconstructed_gammas data_record_ []).2 = [] ∧ T = []
                      then 1 else 0),
                    (if count_good T (_process_reconstructed_gammas data_record_ []).2
                        = T.length ∧ 0 < T.length then 1 else 0),
                    (if 0 < T.length then 1 else 0), 0, 0⟩,
                  ⟨0, 0, 0, 0, 0, 0, 0,
                    (if count_good T clustered_gammas = T.length ∧ 0 < T.length then 1 else 0),
                    (if 0 < T.length then 1 else 0)⟩⟩, fun m => ?_⟩)
              rw [hT m]
              simp only [if_neg hs, if_neg hr]
              rw [compare_sequences_cluster_state, compare_sequences_state]
              simp [bump, add_efficiency]

/-- With fuel for two nested activations one event returns a result. -/
theorem process_total (neighbours : G → List G) (fuel : Nat) (hfuel : 2 ≤ fuel)
    (data_record_ : things G) (m : module_state) :
    ∃ r, process neighbours fuel data_record_ m = some r := by
  unfold process
  cases hptd : data_record_.ptd with
  | none => exact ⟨_, rfl⟩
  | some ptd =>
    obtain ⟨r, hr⟩ := pre_process_clustering_total neighbours fuel hfuel ptd []
    simp only [hr]
    by_cases heh : data_record_.eh = false
    · simp only [if_pos heh]
      exact ⟨_, rfl⟩
    · simp only [if_neg heh]
      cases hpsg : _process_simulated_gammas data_record_ [] m with
      | error e => exact ⟨_, rfl⟩
      | ok r1 =>
        obtain ⟨s, T, m1⟩ := r1
        simp only
        by_cases hs : s ≠ process_status.PROCESS_OK
        · simp only [if_pos hs]
          exact ⟨_, rfl⟩
        · simp only [if_neg hs]
          by_cases hrec : (_process_reconstructed_gammas data_record_ []).1
              ≠ process_status.PROCESS_OK
          · simp only [if_pos hrec]
            exact ⟨_, rfl⟩
          · simp only [if_neg hrec]
            exact ⟨_, rfl⟩

theorem run_cons_ok (neighbours : G → List G) (fuel : Nat) (data_record_ : things G)
    (rest : List (things G)) (m r : module_state)
    (h : run neighbours fuel (data_record_ :: rest) m = some (Except.ok r)) :
    ∃ (s : process_status) (d : module_state),
      (∀ m1, process neighbours fuel data_record_ m1
        = some (Except.ok (s, bump data_record_ d m1))) ∧
      run neighbours fuel rest (bump data_record_ d m) = some (Except.ok r) := by
  rcases process_shape neighbours fuel data_record_ with h1 | ⟨x, h1⟩ | ⟨s, d, h1⟩
  · simp [run, h1 m] at h
  · simp [run, h1 m] at h
  · refine ⟨s, d, h1, ?_⟩
    simpa [run, h1 m] using h

theorem run_cons_of_shape (neighbours : G → List G) (fuel : Nat) (data_record_ : things G)
    (rest : List (things G)) (m : module_state) (s : process_status) (d : module_state)
    (h : ∀ m1, process neighbours fuel data_record_ m1
      = some (Except.ok (s, bump data_record_ d m1))) :
    run neighbours fuel (data_record_ :: rest) m =
      run neighbours fuel rest (bump data_record_ d m) := by
  simp [run, h m]

theorem forget_ngamma_bump (data_record_ : things G) (d m m1 : module_state)
    (h : forget_ngamma m = forget_ngamma m1) :
    forget_ngamma (bump data_record_ d m) = forget_ngamma (bump data_record_ d m1) := by
  simp only [forget_ngamma, module_state.mk.injEq, efficiency_type.mk.injEq] at h
  obtain ⟨⟨h1, h2, _, h4, h5, h6, h7, h8, h9⟩, h10⟩ := h
  simp [forget_ngamma, bump, add_efficiency, h1, h2, h4, h5, h6, h7, h8, h9, h10]

theorem forget_ngamma_bump_comm (x y : things G) (dx dy m : module_state) :
    forget_ngamma (bump x dx (bump y dy m)) = forget_ngamma (bump y dy (bump x dx m)) := by
  simp only [forget_ngamma, bump, add_efficiency, module_state.mk.injEq,
    efficiency_type.mk.injEq]
  refine ⟨⟨?_, ?_, ?_, ?_, ?_, ?_, ?_, ?_, ?_⟩, ⟨?_, ?_, ?_, ?_, ?_, ?_, ?_, ?_, ?_⟩⟩ <;>
    first
      | trivial
      | omega

/-- A run from counters that agree up to `ngamma` ends in counters that agree
up to `ngamma`. -/
theorem run_forget_ngamma (neighbours : G → List G) (fuel : Nat) (l : List (things G)) :
    ∀ m m1 r : module_state, forget_ngamma m = forget_ngamma m1 →
      run neighbours fuel l m = some (Except.ok r) →
      ∃ r1, run neighbours fuel l m1 = some (Except.ok r1) ∧
        forget_ngamma r1 = forget_ngamma r := by
  induction l with
  | nil =>
    intro m m1 r hm h
    simp only [run, Option.some.injEq, Except.ok.injEq] at h
    subst h
    exact ⟨m1, rfl, hm.symm⟩
  | cons e rest ih =>
    intro m m1 r hm h
    obtain ⟨s, d, hp, hrun⟩ := run_cons_ok neighbours fuel e rest m r h
    rw [run_cons_of_shape neighbours fuel e rest m1 s d hp]
    exact ih _ _ r (forget_ngamma_bump e d m m1 hm) hrun

/-- The final counters of a run, up to `ngamma`, do not depend on the order of
the events. -/
theorem run_perm (neighbours : G → List G) (fuel : Nat) (l1 l2 : List (things G))
    (hperm : l1.Perm l2) :
    ∀ m m1 r : module_state, forget_ngamma m = forget_ngamma m1 →
      run neighbours fuel l1 m = some (Except.ok r) →
      ∃ r1, run neighbours fuel l2 m1 = some (Except.ok r1) ∧
        forget_ngamma r1 = forget_ngamma r := by
  induction hperm with
  | nil =>
    intro m m1 r hm h
    exact run_forget_ngamma neighbours fuel [] m m1 r hm h
  | @cons e la lb _ ih =>
    intro m m1 r hm h
    obtain ⟨s, d, hp, hrun⟩ := run_cons_ok neighbours fuel e la m r h
    rw [run_cons_of_shape neighbours fuel e lb m1 s d hp]
    exact ih _ _ r (forget_ngamma_bump e d m m1 hm) hrun
  | swap x y l =>
    intro m m1 r hm h
    obtain ⟨sy, dy, hpy, hrun1⟩ := run_cons_ok neighbours fuel y (x :: l) m r h
    obtain ⟨sx, dx, hpx, hrun2⟩ := run_cons_ok neighbours fuel x l _ r hrun1
    rw [run_cons_of_shape neighbours fuel x (y :: l) m1 sx dx hpx,
      run_cons_of_shape neighbours fuel y l _ sy dy hpy]
    apply run_forget_ngamma neighbours fuel l _ _ r _ hrun2
    rw [forget_ngamma_bump_comm x y dx dy m]
    exact forget_ngamma_bump y dy _ _ (forget_ngamma_bump x dx m m1 hm)
  | trans _ _ ih1 ih2 =>
    intro m m1 r hm h
    obtain ⟨r1, hr1, hf1⟩ := ih1 m m r rfl h
    obtain ⟨r2, hr2, hf2⟩ := ih2 m m1 r1 hm hr1
    exact ⟨r2, hr2, hf2.trans hf1⟩

/-- With fuel for two nested activations a run returns a result. -/
theorem run_total (neighbours : G → List G) (fuel : Nat) (hfuel : 2 ≤ fuel)
    (l : List (things G)) :
    ∀ m : module_state, ∃ r, run neighbours fuel l m = some r := by
  induction l with
  | nil => intro m; exact ⟨_, rfl⟩
  | cons e rest ih =>
    intro m
    obtain ⟨r, hr⟩ := process_total neighbours fuel hfuel e m
    cases r with
    | error x => exact ⟨Except.error x, by simp [run, hr]⟩
    | ok p =>
      obtain ⟨s, m1⟩ := p
      obtain ⟨r2, hr2⟩ := ih m1
      exact ⟨r2, by simp [run, hr, hr2]⟩

end process_lemmas

section invariant_lemmas

variable {G : Type} [DecidableEq G]

theorem count_good_nil (rec : List (Int × List G)) : count_good [] rec = 0 := by
  induction rec with
  | nil => rfl
  | cons irec rest ih => simp [count_good, scan_simulated, ih]

/-- The relations between the counters of the tracking set that every call of
`_compare_sequences` keeps. -/
theorem compare_sequences_keeps (sim rec : List (Int × List G)) (m : module_state)
    (h1 : m._efficiency_.nmiss + m._efficiency_.nevent_gammas ≤ m._efficiency_.nevent)
    (h2 : m._efficiency_.ngood_event ≤ m._efficiency_.nevent_gammas)
    (h3 : m._efficiency_.nevent_gammas ≤ m._efficiency_.ntotal)
    (h4 : m._efficiency_.ngood_event ≤ m._efficiency_.ngood)
    (h5 : m._efficiency_.ntotal = 0 → m._efficiency_.ngood = 0) :
    ((_compare_sequences sim rec m).2._efficiency_.nmiss
        + (_compare_sequences sim rec m).2._efficiency_.nevent_gammas
      ≤ (_compare_sequences sim rec m).2._efficiency_.nevent) ∧
    ((_compare_sequences sim rec m).2._efficiency_.ngood_event
      ≤ (_compare_sequences sim rec m).2._efficiency_.nevent_gammas) ∧
    ((_compare_sequences sim rec m).2._efficiency_.nevent_gammas
      ≤ (_compare_sequences sim rec m).2._efficiency_.ntotal) ∧
    ((_compare_sequences sim rec m).2._efficiency_.ngood_event
      ≤ (_compare_sequences sim rec m).2._efficiency_.ngood) ∧
    ((_compare_sequences sim rec m).2._efficiency_.ntotal = 0 →
      (_compare_sequences sim rec m).2._efficiency_.ngood = 0) ∧
    (_compare_sequences sim rec m).2._no_gt_efficiency_ = m._no_gt_efficiency_ := by
  rw [compare_sequences_state]
  simp only
  have hnil : sim = [] → count_good sim rec = 0 := fun h => by rw [h]; exact count_good_nil rec
  have hlen : sim = [] ↔ sim.length = 0 := List.length_eq_zero.symm
  refine ⟨?_, ?_, ?_, ?_, ?_, trivial⟩
  · by_cases ha : rec = [] ∧ sim = []
    · have : ¬ 0 < sim.length := by rw [ha.2]; simp
      rw [if_pos ha, if_neg this]
      omega
    · rw [if_neg ha]
      split_ifs <;> omega
  · split_ifs with hb hc
    · omega
    · exact absurd hb.2 hc
    · omega
    · omega
  · split_ifs <;> omega
  · split_ifs with hb
    · omega
    · omega
  · intro h0
    have hs : sim.length = 0 := by omega
    have := hnil (hlen.mpr hs)
    have := h5 (by omega)
    omega

theorem compare_calls_nil (m : module_state) :
    compare_calls ([] : List (List (Int × List G) × List (Int × List G))) m = m := rfl

theorem compare_calls_append (calls : List (List (Int × List G) × List (Int × List G)))
    (c : List (Int × List G) × List (Int × List G)) (m : module_state) :
    compare_calls (calls ++ [c]) m
      = (_compare_sequences c.1 c.2 (compare_calls calls m)).2 := by
  simp [compare_calls, List.foldl_append]

/-- The relations hold in every state reached from the all-zero counters. -/
theorem compare_calls_keeps (calls : List (List (Int × List G) × List (Int × List G))) :
    ((compare_calls calls zero_counters)._efficiency_.nmiss
        + (compare_calls calls zero_counters)._efficiency_.nevent_gammas
      ≤ (compare_calls calls zero_counters)._efficiency_.nevent) ∧
    ((compare_calls calls zero_counters)._efficiency_.ngood_event
      ≤ (compare_calls calls zero_counters)._efficiency_.nevent_gammas) ∧
    ((compare_calls calls zero_counters)._efficiency_.nevent_gammas
      ≤ (compare_calls calls zero_counters)._efficiency_.ntotal) ∧
    ((compare_calls calls zero_counters)._efficiency_.ngood_event
      ≤ (compare_calls calls zero_counters)._efficiency_.ngood) ∧
    ((compare_calls calls zero_counters)._efficiency_.ntotal = 0 →
      (compare_calls calls zero_counters)._efficiency_.ngood = 0) ∧
    (compare_calls calls zero_counters)._no_gt_efficiency_
      = zero_counters._no_gt_efficiency_ := by
  induction calls using List.reverseRecOn with
  | nil =>
    rw [compare_calls_nil]
    simp [zero_counters]
  | append_singleton calls c ih =>
    obtain ⟨h1, h2, h3, h4, h5, h6⟩ := ih
    rw [compare_calls_append]
    obtain ⟨k1, k2, k3, k4, k5, k6⟩ :=
      compare_sequences_keeps c.1 c.2 (compare_calls calls zero_counters) h1 h2 h3 h4 h5
    exact ⟨k1, k2, k3, k4, k5, k6.trans h6⟩

end invariant_lemmas

section flood_fill_lemmas

variable {G : Type} [DecidableEq G]

/-- The list appended by the first loop of `get_new_neighbours`, exactly: the
neighbours that have a hit and were not in `ccl`, each once, in the order of
their first occurrence among the neighbours. -/
theorem neighbour_loop_exact (cch : List (calibrated_calorimeter_hit G)) (ns : List G) :
    ∀ cn ccl cl : List G, ∃ new : List G,
      neighbour_loop cch ns (cn, ccl, cl) = (cn ++ new, ccl ++ new, cl ++ new) ∧
      new.Nodup ∧
      (∀ x, x ∈ new ↔ x ∈ ns ∧ has_hit cch x = true ∧ x ∉ ccl) ∧
      new.Pairwise (fun x y => ns.indexOf x < ns.indexOf y) := by
  induction ns with
  | nil =>
    intro cn ccl cl
    exact ⟨[], by simp [neighbour_loop], List.nodup_nil, by simp, List.Pairwise.nil⟩
  | cons n ns ih =>
    intro cn ccl cl
    by_cases hc : has_hit cch n = true ∧ n ∉ ccl
    · obtain ⟨new, heq, hnd, hmem, hord⟩ := ih (cn ++ [n]) (ccl ++ [n]) (cl ++ [n])
      have hne : ∀ x ∈ new, x ≠ n := fun x hx hxn =>
        ((hmem x).mp hx).2.2 (by simp [hxn])
      refine ⟨n :: new, ?_, ?_, ?_, ?_⟩
      · simp only [neighbour_loop, if_pos hc, heq, List.append_assoc, List.singleton_append]
      · exact List.nodup_cons.mpr ⟨fun h => hne n h rfl, hnd⟩
      · intro x
        constructor
        · intro hx
          rcases List.mem_cons.mp hx with rfl | hx
          · exact ⟨List.mem_cons_self _ _, hc.1, hc.2⟩
          · obtain ⟨h1, h2, h3⟩ := (hmem x).mp hx
            exact ⟨List.mem_cons_of_mem _ h1, h2, fun h => h3 (List.mem_append_left _ h)⟩
        · rintro ⟨h1, h2, h3⟩
          by_cases hxn : x = n
          · rw [hxn]
            exact List.mem_cons_self _ _
          · refine List.mem_cons_of_mem _ ((hmem x).mpr ⟨?_, h2, ?_⟩)
            · exact (List.mem_cons.mp h1).resolve_left hxn
            · intro h
              rcases List.mem_append.mp h with h | h
              · exact h3 h
              · exact hxn (List.mem_singleton.mp h)
      · refine List.pairwise_cons.mpr ⟨?_, ?_⟩
        · intro x hx
          rw [List.indexOf_cons_self, List.indexOf_cons_ne _ (Ne.symm (hne x hx))]
          exact Nat.succ_pos _
        · refine hord.imp_of_mem ?_
          intro x y hx hy hxy
          rw [List.indexOf_cons_ne _ (Ne.symm (hne x hx)),
            List.indexOf_cons_ne _ (Ne.symm (hne y hy))]
          exact Nat.succ_lt_succ hxy
    · obtain ⟨new, heq, hnd, hmem, hord⟩ := ih cn ccl cl
      have hne : ∀ x ∈ new, x ≠ n := fun x hx hxn =>
        hc ⟨hxn ▸ ((hmem x).mp hx).2.1, hxn ▸ ((hmem x).mp hx).2.2⟩
      refine ⟨new, ?_, hnd, ?_, ?_⟩
      · simp only [neighbour_loop, if_neg hc, heq]
      · intro x
        simp only [hmem, List.mem_cons]
        constructor
        · rintro ⟨h1, h2, h3⟩
          exact ⟨Or.inr h1, h2, h3⟩
        · rintro ⟨h1 | h1, h2, h3⟩
          · exact absurd ⟨h1 ▸ h2, h1 ▸ h3⟩ hc
          · exact ⟨h1, h2, h3⟩
      · refine hord.imp_of_mem ?_
        intro x y hx hy hxy
        rw [List.indexOf_cons_ne _ (Ne.symm (hne x hx)),
          List.indexOf_cons_ne _ (Ne.symm (hne y hy))]
        exact Nat.succ_lt_succ hxy

theorem one_le_distinct_hit_blocks (cch : List (calibrated_calorimeter_hit G)) (x : G)
    (hx : has_hit cch x = true) : 1 ≤ distinct_hit_blocks cch := by
  obtain ⟨icalo, hi, rfl⟩ := (has_hit_iff cch x).mp hx
  unfold distinct_hit_blocks
  exact List.length_pos_of_mem (List.mem_dedup.mpr (List.mem_map.mpr ⟨icalo, hi, rfl⟩))

theorem two_le_distinct_hit_blocks (cch : List (calibrated_calorimeter_hit G)) (x y : G)
    (hx : has_hit cch x = true) (hy : has_hit cch y = true) (hxy : x ≠ y) :
    2 ≤ distinct_hit_blocks cch := by
  obtain ⟨ix, hix, rfl⟩ := (has_hit_iff cch x).mp hx
  obtain ⟨iy, hiy, rfl⟩ := (has_hit_iff cch y).mp hy
  unfold distinct_hit_blocks
  have hnd : [ix.geom_id, iy.geom_id].Nodup := by simp [hxy]
  have hsub : [ix.geom_id, iy.geom_id] ⊆ (cch.map (fun icalo => icalo.geom_id)).dedup := by
    intro z hz
    rcases List.mem_cons.mp hz with rfl | hz
    · exact List.mem_dedup.mpr (List.mem_map.mpr ⟨ix, hix, rfl⟩)
    · rw [List.mem_singleton.mp hz]
      exact List.mem_dedup.mpr (List.mem_map.mpr ⟨iy, hiy, rfl⟩)
  exact (List.subperm_of_subset hnd hsub).length_le

/-- A call that is given one activation only: it returns when the block is
visited or when the first loop finds no new neighbour. -/
theorem get_new_neighbours_one (neighbours : G → List G)
    (cch : List (calibrated_calorimeter_hit G)) (gid : G) (ccl cl : List G)
    (h : gid ∈ ccl ∨ ∀ x ∈ neighbours gid, ¬ (has_hit cch x = true ∧ x ∉ ccl ++ [gid])) :
    ∃ r, get_new_neighbours neighbours cch 1 gid (ccl, cl) = some r := by
  by_cases hv : gid ∈ ccl
  · exact ⟨_, by rw [get_new_neighbours_succ, if_pos hv]⟩
  · have hall := h.resolve_left hv
    obtain ⟨new, heq, _, hmem, _⟩ :=
      neighbour_loop_exact cch (neighbours gid) [] (ccl ++ [gid]) cl
    have hnil : new = [] := by
      cases new with
      | nil => rfl
      | cons x rest =>
        have hx := (hmem x).mp (by simp)
        exact absurd ⟨hx.2.1, hx.2.2⟩ (hall x hx.1)
    subst hnil
    refine ⟨(ccl ++ [gid], cl), ?_⟩
    rw [get_new_neighbours_succ, if_neg hv, heq]
    simp [recursion_loop]

/-- Any fuel of at least two activations is enough. -/
theorem get_new_neighbours_total (neighbours : G → List G)
    (cch : List (calibrated_calorimeter_hit G)) (fuel : Nat) (hfuel : 2 ≤ fuel)
    (gid : G) (ccl cl : List G) :
    ∃ r, get_new_neighbours neighbours cch fuel gid (ccl, cl) = some r := by
  obtain ⟨k, rfl⟩ : ∃ k, fuel = k + 2 := ⟨fuel - 2, by omega⟩
  by_cases hv : gid ∈ ccl
  · exact ⟨_, by rw [get_new_neighbours_succ, if_pos hv]⟩
  · obtain ⟨new, heq, _⟩ := get_new_neighbours_spec neighbours cch k gid ccl cl hv
    exact ⟨_, heq⟩

theorem recursion_loop_mono (call1 call2 : G → List G × List G → Option (List G × List G))
    (h : ∀ g st r, call1 g st = some r → call2 g st = some r) (cn : List G) :
    ∀ st r, recursion_loop call1 cn st = some r → recursion_loop call2 cn st = some r := by
  induction cn with
  | nil => intro st r hr; exact hr
  | cons n cn ih =>
    intro st r hr
    simp only [recursion_loop] at hr ⊢
    cases h1 : call1 n st with
    | none => rw [h1] at hr; cases hr
    | some st1 =>
      rw [h1] at hr
      rw [h n st st1 h1]
      exact ih st1 r hr

/-- More fuel does not change a result. -/
theorem get_new_neighbours_mono (neighbours : G → List G)
    (cch : List (calibrated_calorimeter_hit G)) (f1 : Nat) :
    ∀ (f2 : Nat) (gid : G) (st r : List G × List G), f1 ≤ f2 →
      get_new_neighbours neighbours cch f1 gid st = some r →
      get_new_neighbours neighbours cch f2 gid st = some r := by
  induction f1 with
  | zero =>
    intro f2 gid st r _ h
    cases st
    simp [get_new_neighbours] at h
  | succ f1 ih =>
    intro f2 gid st r hle h
    obtain ⟨ccl, cl⟩ := st
    obtain ⟨k, rfl⟩ : ∃ k, f2 = k + 1 := ⟨f2 - 1, by omega⟩
    rw [get_new_neighbours_succ] at h ⊢
    by_cases hv : gid ∈ ccl
    · rw [if_pos hv] at h ⊢
      exact h
    · rw [if_neg hv] at h ⊢
      exact recursion_loop_mono _ _
        (fun g st1 r1 hr => ih k g st1 r1 (by omega) hr) _ _ _ h

end flood_fill_lemmas

section dense_lemmas

variable {G : Type} [LinearOrder G]

/-- The labels of one walk leave no gap between the first label and the last. -/
theorem walk_labels_cover (rest : List (ℚ × G)) :
    ∀ (p : ℚ × G) (t : ℚ) (k kk : Int),
      (if split_test t p.1 then k + 1 else k) ≤ kk →
      kk ≤ k + (split_count (p :: rest) t : Nat) →
      ∃ e ∈ walk_labels (p :: rest) t k, e.1 = kk := by
  induction rest with
  | nil =>
    intro p t k kk h1 h2
    refine ⟨((if split_test t p.1 then k + 1 else k), p), by simp [walk_labels], ?_⟩
    rw [split_count_cons] at h2
    by_cases h : split_test t p.1
    · simp only [if_pos h, split_count] at h1 h2 ⊢
      push_cast at h2
      omega
    · simp only [if_neg h, split_count] at h1 h2 ⊢
      push_cast at h2
      omega
  | cons q rest ih =>
    intro p t k kk h1 h2
    rw [walk_labels_cons]
    by_cases hk : kk = (if split_test t p.1 then k + 1 else k)
    · exact ⟨_, List.mem_cons_self _ _, hk.symm⟩
    · have hlt : (if split_test t p.1 then k + 1 else k) < kk := lt_of_le_of_ne h1 (Ne.symm hk)
      obtain ⟨e, he, hek⟩ := ih q p.1 (if split_test t p.1 then k + 1 else k) kk
        (by
          by_cases hq : split_test p.1 q.1
          · rw [if_pos hq]
            omega
          · rw [if_neg hq]
            omega)
        (by
          rw [split_count_cons] at h2
          by_cases h : split_test t p.1
          · rw [if_pos h] at h2 ⊢
            push_cast at h2
            omega
          · rw [if_neg h] at h2 ⊢
            push_cast at h2
            omega)
      exact ⟨e, List.mem_cons_of_mem _ he, hek⟩

theorem foldl_dict_insert_ne_nil (L : List (Int × (ℚ × G))) :
    ∀ d : gamma_dict_type G, (∀ e ∈ d, e.2 ≠ []) →
      ∀ e ∈ L.foldl (fun d e => dict_insert d e.1 e.2.2) d, e.2 ≠ [] := by
  induction L with
  | nil => intro d hd; exact hd
  | cons e0 L ih =>
    intro d hd
    exact ih _ (dict_insert_entries_ne_nil d e0.1 e0.2.2 hd)

/-- One round of the split loop on a non-empty time-keyed map keeps the labels
dense and the entries non-empty. -/
theorem split_cluster_dense (st : split_state G) (a : ℚ × G) (rest : List (ℚ × G))
    (hinv : split_inv st) (h0 : 0 ≤ st.track_id)
    (hkeys : ∀ k, k ∈ dict_keys st.clustered_gammas ↔ 1 ≤ k ∧ k ≤ st.track_id)
    (hne : ∀ e ∈ st.clustered_gammas, e.2 ≠ []) :
    (∀ k, k ∈ dict_keys (split_cluster st (a :: rest)).clustered_gammas ↔
      1 ≤ k ∧ k ≤ st.track_id + 1 + (split_count (a :: rest) 0 : Nat)) ∧
    (∀ e ∈ (split_cluster st (a :: rest)).clustered_gammas, e.2 ≠ []) := by
  obtain ⟨hk, hle, hs⟩ := hinv
  rw [split_cluster_eq_walk, split_walk_spec]
  obtain ⟨_, f2, _, _⟩ :=
    foldl_dict_insert_spec (walk_labels (a :: rest) 0 (st.track_id + 1)) st.clustered_gammas hk
  have hno : ¬ split_test 0 a.1 := fun hc => hc.1 rfl
  refine ⟨?_, foldl_dict_insert_ne_nil _ _ hne⟩
  intro k
  show k ∈ dict_keys (List.foldl (fun d e => dict_insert d e.1 e.2.2) st.clustered_gammas
    (walk_labels (a :: rest) 0 (st.track_id + 1))) ↔ _
  rw [f2]
  constructor
  · rintro (h | ⟨e, he, rfl⟩)
    · have := (hkeys k).mp h
      omega
    · have hb := walk_labels_bounds (a :: rest) 0 (st.track_id + 1) e he
      omega
  · rintro ⟨h1, h2⟩
    by_cases hk1 : k ≤ st.track_id
    · exact Or.inl ((hkeys k).mpr ⟨h1, hk1⟩)
    · refine Or.inr (walk_labels_cover rest a 0 (st.track_id + 1) k ?_ h2)
      rw [if_neg hno]
      omega

/-- The split loop over non-empty time-keyed maps: labels stay dense, entries
stay non-empty, and both counters grow as the splits are met. -/
theorem foldl_split_cluster_dense (ms : List (List (ℚ × G))) :
    ∀ st : split_state G, (∀ m ∈ ms, m ≠ []) → split_inv st → 0 ≤ st.track_id →
      (∀ k, k ∈ dict_keys st.clustered_gammas ↔ 1 ≤ k ∧ k ≤ st.track_id) →
      (∀ e ∈ st.clustered_gammas, e.2 ≠ []) →
      (∀ k, k ∈ dict_keys (ms.foldl split_cluster st).clustered_gammas ↔
        1 ≤ k ∧ k ≤ (ms.foldl split_cluster st).track_id) ∧
      (∀ e ∈ (ms.foldl split_cluster st).clustered_gammas, e.2 ≠ []) ∧
      (ms.foldl split_cluster st).track_id
        = st.track_id + (ms.length : Nat) + ((ms.map (fun m => split_count m 0)).sum : Nat) ∧
      (ms.foldl split_cluster st).number_of_clusters
        = st.number_of_clusters + (ms.map (fun m => split_count m 0)).sum := by
  induction ms with
  | nil =>
    intro st _ _ _ hkeys hne
    exact ⟨hkeys, hne, by simp, by simp⟩
  | cons m ms ih =>
    intro st hms hinv h0 hkeys hne
    obtain ⟨a, rest, rfl⟩ : ∃ a rest, m = a :: rest := by
      cases m with
      | nil => exact absurd rfl (hms [] (by simp))
      | cons a rest => exact ⟨a, rest, rfl⟩
    obtain ⟨s1, s2, _, _, _, _⟩ := split_cluster_spec st (a :: rest) hinv
    obtain ⟨d1, d2⟩ := split_cluster_dense st a rest hinv h0 hkeys hne
    obtain ⟨r1, r2, r3, r4⟩ := ih (split_cluster st (a :: rest))
      (fun m hm => hms m (List.mem_cons_of_mem _ hm))
      (split_cluster_inv st (a :: rest) hinv)
      (by rw [s1]; omega)
      (by rw [s1]; exact d1)
      d2
    refine ⟨r1, r2, ?_, ?_⟩
    · rw [List.foldl_cons, r3, s1]
      simp only [List.length_cons, List.map_cons, List.sum_cons]
      push_cast
      omega
    · rw [List.foldl_cons, r4, s2]
      simp only [List.map_cons, List.sum_cons]
      omega

/-- The time-keyed map of a cluster that holds a hit block is not empty. -/
theorem order_cluster_ne_nil (cch : List (calibrated_calorimeter_hit G)) (icluster : List G)
    (h : ∃ g ∈ icluster, has_hit cch g = true) : order_cluster cch icluster ≠ [] := by
  obtain ⟨g, hg, hhit⟩ := h
  obtain ⟨icalo, hi, rfl⟩ := (has_hit_iff cch g).mp hhit
  have hp : (icalo.time, icalo.geom_id) ∈ cluster_pairs cch icluster :=
    (mem_cluster_pairs cch icluster _).mpr ⟨icalo, hi, hg, rfl⟩
  rw [order_cluster_eq_foldl]
  cases hps : cluster_pairs cch icluster with
  | nil => rw [hps] at hp; simp at hp
  | cons p ps =>
    rw [List.foldl_cons]
    have hsorted : ((map_insert [] p).map Prod.fst).Sorted (· < ·) := by
      simp [map_insert]
    obtain ⟨_, _, h3, _⟩ := foldl_map_insert_spec ps (map_insert [] p) hsorted
    have hmem : p ∈ ps.foldl map_insert (map_insert [] p) := h3 p (by simp [map_insert])
    exact List.ne_nil_of_mem hmem

/-- No cluster built by the seed loop is empty. -/
theorem seed_loop_ne_nil (neighbours : G → List G)
    (cch : List (calibrated_calorimeter_hit G)) (fuel : Nat)
    (rest : List (calibrated_calorimeter_hit G)) :
    ∀ (ccl : List G) (cls : List (List G)) (ccl1 : List G) (cls1 : List (List G)),
      (∀ c ∈ cls, c ≠ []) →
      seed_loop neighbours cch (fuel + 2) rest (ccl, cls) = some (ccl1, cls1) →
      ∀ c ∈ cls1, c ≠ [] := by
  induction rest with
  | nil =>
    intro ccl cls ccl1 cls1 hne h
    simp only [seed_loop, Option.some.injEq, Prod.mk.injEq] at h
    rw [← h.2]
    exact hne
  | cons icalo rest ih =>
    intro ccl cls ccl1 cls1 hne h
    by_cases hv : icalo.geom_id ∈ ccl
    · simp only [seed_loop, if_pos hv] at h
      exact ih ccl cls ccl1 cls1 hne h
    · obtain ⟨new, heq, _, _⟩ :=
        get_new_neighbours_spec neighbours cch fuel icalo.geom_id ccl [icalo.geom_id] hv
      simp only [seed_loop, if_neg hv, heq] at h
      refine ih _ _ ccl1 cls1 ?_ h
      intro c hc
      rcases List.mem_append.mp hc with hc | hc
      · exact hne c hc
      · rw [List.mem_singleton.mp hc]
        simp

/-- A strictly increasing list of integers that holds exactly 1, ..., n. -/
theorem keys_eq_range (l : List Int) (n : Nat) (hs : l.Sorted (· < ·))
    (hm : ∀ k, k ∈ l ↔ 1 ≤ k ∧ k ≤ (n : Int)) :
    l = (List.range n).map (fun i : Nat => (i : Int) + 1) := by
  apply sorted_ext l _ hs
  · exact (List.pairwise_lt_range n).map _ (fun a b h => by omega)
  · intro k
    rw [hm, List.mem_map]
    constructor
    · rintro ⟨h1, h2⟩
      exact ⟨(k - 1).toNat, List.mem_range.mpr (by omega), by omega⟩
    · rintro ⟨i, hi, rfl⟩
      have := List.mem_range.mp hi
      omega

end dense_lemmas

end analysis

/-! ## The claims -/

namespace analysis

/-- C1 (partition): with fuel for two nested activations, the seed loop returns
clusters whose union is exactly the set of block ids of the hits; no block id
is in two clusters and none occurs twice in a cluster. -/
theorem C1_partition {G : Type} [DecidableEq G] (neighbours : G → List G)
    (cch : List (calibrated_calorimeter_hit G)) (fuel : Nat) (hfuel : 2 ≤ fuel) :
    ∃ clusters : List (List G),
      geometric_clusters neighbours cch fuel = some clusters ∧
      (∀ g : G, (∃ c ∈ clusters, g ∈ c) ↔ (∃ icalo ∈ cch, icalo.geom_id = g)) ∧
      clusters.Pairwise List.Disjoint ∧
      (∀ c ∈ clusters, c.Nodup) := by
  obtain ⟨k, rfl⟩ : ∃ k, fuel = k + 2 := ⟨fuel - 2, by omega⟩
  obtain ⟨ccl1, cls1, heq, k1, k2, k3, _, k5⟩ :=
    seed_loop_spec neighbours cch k cch [] [] (fun _ h => h) rfl List.nodup_nil (by simp)
  refine ⟨cls1, by simp [geometric_clusters, heq], ?_, ?_, ?_⟩
  · intro g
    constructor
    · rintro ⟨c, hc, hg⟩
      have : g ∈ ccl1 := by rw [k1]; exact List.mem_flatten.mpr ⟨c, hc, hg⟩
      exact (has_hit_iff cch g).mp (k3 g this)
    · rintro ⟨icalo, hi, rfl⟩
      have := k5 icalo hi
      rw [k1] at this
      obtain ⟨c, hc, hg⟩ := List.mem_flatten.mp this
      exact ⟨c, hc, hg⟩
  · rw [k1] at k2
    exact (List.nodup_flatten.mp k2).2
  · rw [k1] at k2
    exact (List.nodup_flatten.mp k2).1

/-- Three hits on the chain 1 - 2 - 3, fuel 2. -/
theorem C1_partition_witness :
    2 ≤ 2 ∧ ∃ clusters : List (List Nat),
      geometric_clusters chain_neighbours [⟨1, 0⟩, ⟨2, 0⟩, ⟨3, 0⟩] 2 = some clusters ∧
      (∀ g : Nat, (∃ c ∈ clusters, g ∈ c) ↔
        (∃ icalo ∈ ([⟨1, 0⟩, ⟨2, 0⟩, ⟨3, 0⟩] : List (calibrated_calorimeter_hit Nat)),
          icalo.geom_id = g)) ∧
      clusters.Pairwise List.Disjoint ∧
      (∀ c ∈ clusters, c.Nodup) :=
  ⟨by decide, C1_partition chain_neighbours [⟨1, 0⟩, ⟨2, 0⟩, ⟨3, 0⟩] 2 (by decide)⟩

/-- C2 (connectivity) fails on a chain: hits on blocks 1, 2, 3 with 1 adjacent
to 2 and 2 adjacent to 3 give the clusters `[1, 2]` and `[3]`, although 2 and 3
are adjacent hit blocks; the same hits with block 2 first give one cluster. -/
theorem C2_chain_is_cut :
    (∀ k : Nat, geometric_clusters chain_neighbours
        [⟨1, 0⟩, ⟨2, 0⟩, ⟨3, 0⟩] (k + 2) = some [[1, 2], [3]]) ∧
      (∀ k : Nat, geometric_clusters chain_neighbours
        [⟨2, 0⟩, ⟨1, 0⟩, ⟨3, 0⟩] (k + 2) = some [[2, 1, 3]]) := by
  constructor <;> intro k <;> rfl

/-- C3 fails on a tie: two adjacent hits on blocks 1 and 2 with the same time
1.0 form one geometric cluster, but the time-keyed map keeps only the pair of
block 1, and the clustered dictionary ends with the single entry `{1}`: block 2
is in no sub-cluster. -/
theorem C3_tie_drops_hit :
    geometric_clusters chain_neighbours [⟨1, 1⟩, ⟨2, 1⟩] 2 = some [[1, 2]] ∧
      order_cluster ([⟨1, 1⟩, ⟨2, 1⟩] : List (calibrated_calorimeter_hit Nat)) [1, 2]
        = [(1, 1)] ∧
      _pre_process_clustering chain_neighbours 2 [⟨7, true, [⟨1, 1⟩, ⟨2, 1⟩]⟩] []
        = some ([(1, [1])], 1) := by
  refine ⟨by decide, by decide, by decide⟩

/-- C4 as stated fails: block 1 hit at time 2.0 and block 2 hit at time 1.0 are
walked in the time order 2, 1 but the sub-cluster is stored as `[1, 2]`. -/
theorem C4_stored_in_block_order :
    (order_cluster ([⟨1, 2⟩, ⟨2, 1⟩] : List (calibrated_calorimeter_hit Nat)) [1, 2]).map
        Prod.snd = [2, 1] ∧
      _pre_process_clustering chain_neighbours 2 [⟨7, true, [⟨1, 2⟩, ⟨2, 1⟩]⟩] []
        = some ([(1, [1, 2])], 1) ∧
      ([1, 2] : List Nat) ≠ [2, 1] := by
  refine ⟨by decide, ?_, by decide⟩
  norm_num [_pre_process_clustering, seed_loop, get_new_neighbours, neighbour_loop,
    recursion_loop, has_hit, chain_neighbours, order_cluster, map_insert, sort_clusters,
    split_cluster, split_walk, dict_insert, set_insert, fetch_particles]

/-- C4 as the code has it: after the split loop has handled the time-keyed map
of a cluster, every set of the dictionary lists its blocks in increasing block
id order, and of two hits stored under different labels of this cluster the
one under the smaller label has the strictly earlier time. -/
theorem C4_split_ordering {G : Type} [LinearOrder G]
    (cch : List (calibrated_calorimeter_hit G)) (icluster : List G) (st : split_state G)
    (hinv : split_inv st)
    (hblocks : (cch.map (fun ihit => ihit.geom_id)).Nodup) :
    (∀ e ∈ (split_cluster st (order_cluster cch icluster)).clustered_gammas,
        e.2.Sorted (· < ·)) ∧
      (∀ h1 ∈ cch, ∀ h2 ∈ cch, ∀ k1 k2 : Int, st.track_id < k1 → k1 < k2 →
        stored_under (split_cluster st (order_cluster cch icluster)).clustered_gammas k1
          h1.geom_id →
        stored_under (split_cluster st (order_cluster cch icluster)).clustered_gammas k2
          h2.geom_id →
        h1.time < h2.time) := by
  obtain ⟨hs, hmem, _, _⟩ := order_cluster_spec cch icluster
  obtain ⟨_, _, _, hsorted, _, hst⟩ := split_cluster_spec st (order_cluster cch icluster) hinv
  refine ⟨hsorted, ?_⟩
  intro h1 hh1 h2 hh2 k1 k2 hk1 hk12 hs1 hs2
  obtain ⟨e1, he1, hl1, hg1⟩ := (hst k1 h1.geom_id hk1).mp hs1
  obtain ⟨e2, he2, hl2, hg2⟩ := (hst k2 h2.geom_id (lt_trans hk1 hk12)).mp hs2
  have htime : ∀ (e : Int × (ℚ × G)) (h : calibrated_calorimeter_hit G),
      e ∈ walk_labels (order_cluster cch icluster) 0 (st.track_id + 1) → h ∈ cch →
      e.2.2 = h.geom_id → e.2.1 = h.time := by
    intro e h he hh hg
    have hin : e.2 ∈ order_cluster cch icluster := by
      have := List.mem_map_of_mem Prod.snd he
      rw [walk_labels_map_snd] at this
      exact this
    obtain ⟨h0, hh0, _, heq⟩ := hmem e.2 hin
    have hgid : h0.geom_id = h.geom_id := by
      rw [← hg, heq]
    have : h0 = h := List.inj_on_of_nodup_map hblocks hh0 hh hgid
    rw [heq, this]
  have hpw := walk_labels_pairwise (order_cluster cch icluster) 0 (st.track_id + 1) hs
  have hne : e1 ≠ e2 := fun h => by
    rw [h, hl2] at hl1
    omega
  have hsym : Symmetric (fun x y : Int × (ℚ × G) =>
      (x.1 ≤ y.1 ∧ x.2.1 < y.2.1) ∨ (y.1 ≤ x.1 ∧ y.2.1 < x.2.1)) :=
    fun x y h => h.symm
  have := List.Pairwise.forall hsym (hpw.imp (fun h => Or.inl h)) he1 he2 hne
  rw [← htime e1 h1 he1 hh1 hg1, ← htime e2 h2 he2 hh2 hg2]
  rcases this with h | h
  · exact h.2
  · exfalso
    have := h.1
    omega

/-- Blocks 1 (time 2.0) and 2 (time 1.0) from an empty dictionary. -/
theorem C4_split_ordering_witness :
    split_inv (⟨1, 0, []⟩ : split_state Nat) ∧
      (([⟨1, 2⟩, ⟨2, 1⟩] : List (calibrated_calorimeter_hit Nat)).map
        (fun ihit => ihit.geom_id)).Nodup ∧
      ∀ e ∈ (split_cluster (⟨1, 0, []⟩ : split_state Nat)
          (order_cluster [⟨1, 2⟩, ⟨2, 1⟩] [1, 2])).clustered_gammas,
        e.2.Sorted (· < ·) :=
  ⟨⟨List.sorted_nil, by simp [dict_keys], by simp⟩, by decide,
    (C4_split_ordering [⟨1, 2⟩, ⟨2, 1⟩] [1, 2] ⟨1, 0, []⟩
      ⟨List.sorted_nil, by simp [dict_keys], by simp⟩ (by decide)).1⟩

/-- C5 as stated fails: adjacent hits at times -5.0 and 0.0 have a gap of 5.0
after a non-zero previous time, and are stored in one sub-cluster. -/
theorem C5_zero_current_time_not_split :
    _pre_process_clustering chain_neighbours 2 [⟨7, true, [⟨1, -5⟩, ⟨2, 0⟩]⟩] []
      = some ([(1, [1, 2])], 1) := by
  decide

/-- C5 as the code has it: in the walk of a time-keyed map with pairwise
distinct blocks, the first pair is stored under the label of the cluster, and a
pair `b` that follows a pair `a` is stored under the label after that of `a`
when neither time is zero and the gap is greater than 2.5, and under the label
of `a` otherwise. -/
theorem C5_split_rule {G : Type} [LinearOrder G]
    (cch : List (calibrated_calorimeter_hit G)) (icluster : List G) (st : split_state G)
    (hinv : split_inv st)
    (hblocks : (cch.map (fun ihit => ihit.geom_id)).Nodup) :
    (∀ (a : ℚ × G) (post : List (ℚ × G)), order_cluster cch icluster = a :: post →
      ∀ k : Int, st.track_id < k →
        (stored_under (split_cluster st (order_cluster cch icluster)).clustered_gammas k a.2
          ↔ k = st.track_id + 1)) ∧
    (∀ (pre : List (ℚ × G)) (a b : ℚ × G) (post : List (ℚ × G)),
      order_cluster cch icluster = pre ++ a :: b :: post →
      ∃ ka : Int, st.track_id < ka ∧
        (∀ k : Int, st.track_id < k →
          (stored_under (split_cluster st (order_cluster cch icluster)).clustered_gammas k a.2
            ↔ k = ka)) ∧
        (∀ k : Int, st.track_id < k →
          (stored_under (split_cluster st (order_cluster cch icluster)).clustered_gammas k b.2
            ↔ k = if a.1 ≠ 0 ∧ b.1 ≠ 0 ∧ b.1 - a.1 > 5 / 2 then ka + 1 else ka))) := by
  obtain ⟨_, _, hnd, _⟩ := order_cluster_spec cch icluster
  have hnd := hnd hblocks
  constructor
  · intro a post hm k hk
    rw [hm] at hnd ⊢
    have h := split_cluster_label st [] a post hinv hnd k hk
    have hno : ¬ split_test 0 a.1 := fun hc => hc.1 rfl
    have h0 : split_count ([] ++ [a]) 0 = 0 := by
      simp [split_count, hno]
    rw [h0] at h
    simpa using h
  · intro pre a b post hm
    rw [hm] at hnd ⊢
    refine ⟨st.track_id + 1 + (split_count (pre ++ [a]) 0 : Nat), by omega, ?_, ?_⟩
    · intro k hk
      exact split_cluster_label st pre a (b :: post) hinv hnd k hk
    · intro k hk
      have e : pre ++ a :: b :: post = (pre ++ [a]) ++ b :: post := by simp
      have hnd2 : (((pre ++ [a]) ++ b :: post).map Prod.snd).Nodup := by
        rw [← e]
        exact hnd
      have h := split_cluster_label st (pre ++ [a]) b post hinv hnd2 k hk
      rw [← e] at h
      rw [h]
      have e2 : (pre ++ [a]) ++ [b] = pre ++ a :: [b] := by simp
      rw [e2, split_count_append pre a [b] 0, split_count_cons]
      by_cases hc : split_test a.1 b.1
      · have hc1 : a.1 ≠ 0 ∧ b.1 ≠ 0 ∧ b.1 - a.1 > 5 / 2 := hc
        rw [if_pos hc, if_pos hc1]
        simp only [split_count, Nat.cast_add, Nat.cast_one]
        constructor <;> intro h <;> omega
      · have hc1 : ¬ (a.1 ≠ 0 ∧ b.1 ≠ 0 ∧ b.1 - a.1 > 5 / 2) := hc
        rw [if_neg hc, if_neg hc1]
        simp only [split_count, Nat.cast_add]
        constructor <;> intro h <;> omega

/-- Blocks 1 (time 1.0) and 2 (time 5.0) from an empty dictionary: block 1 is
stored under label 1. -/
theorem C5_split_rule_witness :
    split_inv (⟨1, 0, []⟩ : split_state Nat) ∧
      (([⟨1, 1⟩, ⟨2, 5⟩] : List (calibrated_calorimeter_hit Nat)).map
        (fun ihit => ihit.geom_id)).Nodup ∧
      (stored_under (split_cluster (⟨1, 0, []⟩ : split_state Nat)
          (order_cluster [⟨1, 1⟩, ⟨2, 5⟩] [1, 2])).clustered_gammas 1 1 ↔ (1 : Int) = 0 + 1) :=
  ⟨⟨List.sorted_nil, by simp [dict_keys], by simp⟩, by decide,
    (C5_split_rule [⟨1, 1⟩, ⟨2, 5⟩] [1, 2] ⟨1, 0, []⟩
      ⟨List.sorted_nil, by simp [dict_keys], by simp⟩ (by decide)).1 (1, 1) [(5, 2)] (by decide)
      1 (by decide)⟩

/-- C6 (threshold characterisation): for a cluster whose hits sit on pairwise
distinct blocks at pairwise distinct non-zero times, every hit of the cluster is
walked; two hits are stored under a common label exactly when every gap between
consecutive hits from the earlier to the later is at most 2.5 (for neighbours:
exactly when their gap is at most 2.5); and the number of labels used, the
number of dictionary entries added and the growth of `number_of_clusters` are
given by the number of consecutive gaps greater than 2.5. -/
theorem C6_threshold {G : Type} [LinearOrder G]
    (cch : List (calibrated_calorimeter_hit G)) (icluster : List G) (st : split_state G)
    (hinv : split_inv st)
    (hblocks : (cch.map (fun ihit => ihit.geom_id)).Nodup)
    (htimes : ∀ h1 ∈ cch, ∀ h2 ∈ cch, h1.geom_id ∈ icluster → h2.geom_id ∈ icluster →
      h1.time = h2.time → h1.geom_id = h2.geom_id)
    (hnz : ∀ ihit ∈ cch, ihit.geom_id ∈ icluster → ihit.time ≠ 0) :
    (∀ ihit ∈ cch, ihit.geom_id ∈ icluster →
      (ihit.time, ihit.geom_id) ∈ order_cluster cch icluster) ∧
    (∀ (pre : List (ℚ × G)) (a : ℚ × G) (mid : List (ℚ × G)) (b : ℚ × G)
        (post : List (ℚ × G)),
      order_cluster cch icluster = pre ++ a :: (mid ++ b :: post) →
      ((∃ k : Int, st.track_id < k ∧
          stored_under (split_cluster st (order_cluster cch icluster)).clustered_gammas k a.2 ∧
          stored_under (split_cluster st (order_cluster cch icluster)).clustered_gammas k b.2)
        ↔ List.Chain' (fun p q : ℚ × G => q.1 - p.1 ≤ 5 / 2) (a :: (mid ++ [b])))) ∧
    (∀ (pre : List (ℚ × G)) (a b : ℚ × G) (post : List (ℚ × G)),
      order_cluster cch icluster = pre ++ a :: b :: post →
      ((∃ k : Int, st.track_id < k ∧
          stored_under (split_cluster st (order_cluster cch icluster)).clustered_gammas k a.2 ∧
          stored_under (split_cluster st (order_cluster cch icluster)).clustered_gammas k b.2)
        ↔ b.1 - a.1 ≤ 5 / 2)) ∧
    (split_cluster st (order_cluster cch icluster)).track_id =
      st.track_id + 1 +
        (((order_cluster cch icluster).zip (order_cluster cch icluster).tail).countP
          (fun pq => decide (pq.2.1 - pq.1.1 > 5 / 2)) : Nat) ∧
    (split_cluster st (order_cluster cch icluster)).number_of_clusters =
      st.number_of_clusters +
        ((order_cluster cch icluster).zip (order_cluster cch icluster).tail).countP
          (fun pq => decide (pq.2.1 - pq.1.1 > 5 / 2)) ∧
    (order_cluster cch icluster ≠ [] →
      (split_cluster st (order_cluster cch icluster)).clustered_gammas.length =
        st.clustered_gammas.length + 1 +
          ((order_cluster cch icluster).zip (order_cluster cch icluster).tail).countP
            (fun pq => decide (pq.2.1 - pq.1.1 > 5 / 2))) := by
  obtain ⟨_, hmem, hnd, hall⟩ := order_cluster_spec cch icluster
  have hnd := hnd hblocks
  have hnz2 : ∀ p ∈ order_cluster cch icluster, p.1 ≠ 0 := by
    intro p hp
    obtain ⟨h, hh, hg, rfl⟩ := hmem p hp
    exact hnz h hh hg
  obtain ⟨htid, hnoc, _, _, _, _⟩ := split_cluster_spec st (order_cluster cch icluster) hinv
  have hcount : split_count (order_cluster cch icluster) 0 =
      ((order_cluster cch icluster).zip (order_cluster cch icluster).tail).countP
        (fun pq => decide (pq.2.1 - pq.1.1 > 5 / 2)) := by
    cases hm : order_cluster cch icluster with
    | nil => simp [split_count]
    | cons a rest =>
      rw [hm] at hnz2
      rw [split_count_zero_start]
      exact split_count_eq_countP rest a (hnz2 a (by simp))
        (fun p hp => hnz2 p (List.mem_cons_of_mem _ hp))
  have hgen : ∀ (pre : List (ℚ × G)) (a : ℚ × G) (mid : List (ℚ × G)) (b : ℚ × G)
      (post : List (ℚ × G)),
      order_cluster cch icluster = pre ++ a :: (mid ++ b :: post) →
      ((∃ k : Int, st.track_id < k ∧
          stored_under (split_cluster st (order_cluster cch icluster)).clustered_gammas k a.2 ∧
          stored_under (split_cluster st (order_cluster cch icluster)).clustered_gammas k b.2)
        ↔ List.Chain' (fun p q : ℚ × G => q.1 - p.1 ≤ 5 / 2) (a :: (mid ++ [b]))) := by
    intro pre a mid b post hm
    rw [hm] at hnd hnz2 ⊢
    have ha : a.1 ≠ 0 := hnz2 a (by simp)
    have hmidb : ∀ p ∈ mid ++ [b], p.1 ≠ 0 := by
      intro p hp
      apply hnz2 p
      rcases List.mem_append.mp hp with h | h
      · simp [h]
      · simp only [List.mem_singleton] at h
        simp [h]
    have e : pre ++ a :: (mid ++ b :: post) = (pre ++ a :: mid) ++ b :: post := by simp
    have hnd2 : (((pre ++ a :: mid) ++ b :: post).map Prod.snd).Nodup := by
      rw [← e]
      exact hnd
    have hla := fun k hk => split_cluster_label st pre a (mid ++ b :: post) hinv hnd k hk
    have hlb := fun k hk => split_cluster_label st (pre ++ a :: mid) b post hinv hnd2 k hk
    rw [← e] at hlb
    have e2 : (pre ++ a :: mid) ++ [b] = pre ++ a :: (mid ++ [b]) := by simp
    rw [e2, split_count_append pre a (mid ++ [b]) 0] at hlb
    have hchain : List.Chain' (fun p q : ℚ × G => q.1 - p.1 ≤ 5 / 2) (a :: (mid ++ [b])) ↔
        split_count (mid ++ [b]) a.1 = 0 :=
      (split_count_eq_zero_iff (mid ++ [b]) a ha hmidb).symm
    rw [hchain]
    constructor
    · rintro ⟨k, hk, hsa, hsb⟩
      have h1 := (hla k hk).mp hsa
      have h2 := (hlb k hk).mp hsb
      rw [h1] at h2
      push_cast at h2
      omega
    · intro h0
      refine ⟨st.track_id + 1 + (split_count (pre ++ [a]) 0 : Nat), by omega, ?_, ?_⟩
      · exact (hla _ (by omega)).mpr rfl
      · apply (hlb _ (by omega)).mpr
        rw [h0]
        simp
  refine ⟨hall htimes, hgen, ?_, ?_, ?_, ?_⟩
  · intro pre a b post hm
    have := hgen pre a [] b post (by simpa using hm)
    rw [this]
    simp
  · rw [htid, hcount]
  · rw [hnoc, hcount]
  · intro hne
    rw [← hcount]
    cases hm : order_cluster cch icluster with
    | nil => exact absurd hm hne
    | cons a rest => exact split_cluster_length st a rest hinv

/-- Scenario 3: hits on blocks 1, 2, 3 at times 0.1, 0.2, 10.0 give the
sub-clusters `{1, 2}` and `{3}`; blocks 1 and 2 share a label since their gap
0.1 is at most 2.5. -/
theorem C6_threshold_witness :
    split_inv (⟨1, 0, []⟩ : split_state Nat) ∧
      (([⟨1, 1 / 10⟩, ⟨2, 2 / 10⟩, ⟨3, 10⟩] : List (calibrated_calorimeter_hit Nat)).map
        (fun ihit => ihit.geom_id)).Nodup ∧
      split_cluster (⟨1, 0, []⟩ : split_state Nat)
          (order_cluster [⟨1, 1 / 10⟩, ⟨2, 2 / 10⟩, ⟨3, 10⟩] [1, 2, 3])
        = ⟨2, 2, [(1, [1, 2]), (2, [3])]⟩ ∧
      ((∃ k : Int, (0 : Int) < k ∧
          stored_under (split_cluster (⟨1, 0, []⟩ : split_state Nat)
            (order_cluster [⟨1, 1 / 10⟩, ⟨2, 2 / 10⟩, ⟨3, 10⟩] [1, 2, 3])).clustered_gammas k 1 ∧
          stored_under (split_cluster (⟨1, 0, []⟩ : split_state Nat)
            (order_cluster [⟨1, 1 / 10⟩, ⟨2, 2 / 10⟩, ⟨3, 10⟩] [1, 2, 3])).clustered_gammas k 2)
        ↔ ((2 / 10 : ℚ), 2).1 - ((1 / 10 : ℚ), 1).1 ≤ 5 / 2) :=
  ⟨⟨List.sorted_nil, by simp [dict_keys], by simp⟩, by decide,
    by norm_num [order_cluster, map_insert, split_cluster, split_walk, dict_insert, set_insert],
    (C6_threshold [⟨1, 1 / 10⟩, ⟨2, 2 / 10⟩, ⟨3, 10⟩] [1, 2, 3] ⟨1, 0, []⟩
      ⟨List.sorted_nil, by simp [dict_keys], by simp⟩ (by decide)
      (by
        intro h1 hh1 h2 hh2 _ _ ht
        simp only [List.mem_cons, List.mem_singleton, List.not_mem_nil, or_false] at hh1 hh2
        rcases hh1 with rfl | rfl | rfl <;> rcases hh2 with rfl | rfl | rfl <;>
          first
            | rfl
            | (exfalso; norm_num at ht))
      (by
        intro h hh _
        simp only [List.mem_cons, List.mem_singleton, List.not_mem_nil, or_false] at hh
        rcases hh with rfl | rfl | rfl <;> norm_num)).2.2.1
      [] ((1 / 10 : ℚ), 1) ((2 / 10 : ℚ), 2) [((10 : ℚ), 3)]
      (by norm_num [order_cluster, map_insert])⟩

/-- C7 (match counting): the matched count is the number of candidate entries
whose block sequence is equal (same size, same elements at every position) to
at least one truth sequence; the run-level counter `ngood` grows by that
count; the count is at most the number of candidates; and candidates whose size
differs from that of every truth sequence give a count of 0. -/
theorem C7_match_counting {G : Type} [DecidableEq G]
    (simulated_gammas_ reconstructed_gammas_ : List (Int × List G)) (m : module_state) :
    count_good simulated_gammas_ reconstructed_gammas_ =
        (reconstructed_gammas_.filter (fun irec =>
          simulated_gammas_.any (fun isim => decide (irec.2 = isim.2)))).length ∧
      (_compare_sequences simulated_gammas_ reconstructed_gammas_ m).2._efficiency_.ngood =
        m._efficiency_.ngood + count_good simulated_gammas_ reconstructed_gammas_ ∧
      count_good simulated_gammas_ reconstructed_gammas_ ≤ reconstructed_gammas_.length ∧
      ((∀ irec ∈ reconstructed_gammas_, ∀ isim ∈ simulated_gammas_,
          irec.2.length ≠ isim.2.length) →
        count_good simulated_gammas_ reconstructed_gammas_ = 0) := by
  refine ⟨count_good_eq_filter _ _, ?_, ?_, ?_⟩
  · unfold _compare_sequences
    by_cases h : reconstructed_gammas_.isEmpty = true ∧ simulated_gammas_.isEmpty = true
    · have hr : reconstructed_gammas_ = [] := List.isEmpty_iff.mp h.1
      simp [h, hr, count_good]
    · simp only [if_neg h]
      split_ifs <;> rfl
  · rw [count_good_eq_filter]
    exact List.length_filter_le _ _
  · intro hsize
    rw [count_good_eq_filter, List.length_eq_zero, List.filter_eq_nil_iff]
    intro irec hrec hany
    obtain ⟨isim, hsim, heq⟩ := List.any_eq_true.mp hany
    have : irec.2 = isim.2 := by simpa using heq
    exact hsize irec hrec isim hsim (by rw [this])

/-- Scenario 2: truth `{5,7}` against candidate `{5,7,9}`. -/
theorem C7_match_counting_witness :
    count_good [((1 : Int), [5, 7])] [((1 : Int), [5, 7, 9])] = 0 ∧
      (_compare_sequences [((1 : Int), [5, 7])] [((1 : Int), [5, 7, 9])] zero_counters).1
        = false :=
  ⟨(C7_match_counting [((1 : Int), [5, 7])] [((1 : Int), [5, 7, 9])] zero_counters).2.2.2
      (by decide),
    by decide⟩

/-- C8 as the code has it: a gamma recorded block by block under a label is
stored as the set of its blocks, so a candidate and a truth gamma are counted
as a match (count 1) exactly when they hold the same blocks, whatever the two
recording orders were, and are not counted (count 0) exactly when they do not. -/
theorem C8_match_is_set_equality {G : Type} [LinearOrder G]
    (rec_blocks sim_blocks : List G) (k_rec k_sim : Int) (hrec : rec_blocks ≠ []) :
    (count_good
        (sim_blocks.foldl (fun d x => dict_insert d k_sim x) ([] : gamma_dict_type G))
        (rec_blocks.foldl (fun d x => dict_insert d k_rec x) ([] : gamma_dict_type G)) = 1
      ↔ ∀ x, x ∈ rec_blocks ↔ x ∈ sim_blocks) ∧
    (count_good
        (sim_blocks.foldl (fun d x => dict_insert d k_sim x) ([] : gamma_dict_type G))
        (rec_blocks.foldl (fun d x => dict_insert d k_rec x) ([] : gamma_dict_type G)) = 0
      ↔ ¬ ∀ x, x ∈ rec_blocks ↔ x ∈ sim_blocks) := by
  obtain ⟨g, l, rfl⟩ : ∃ g l, rec_blocks = g :: l := by
    cases rec_blocks with
    | nil => exact absurd rfl hrec
    | cons g l => exact ⟨g, l, rfl⟩
  have hr := foldl_set_insert_spec (g :: l) [] List.sorted_nil
  rw [foldl_dict_insert_single l k_rec g, count_good_eq_filter]
  cases sim_blocks with
  | nil =>
    have hset : ¬ ∀ x, x ∈ g :: l ↔ x ∈ ([] : List G) := fun h => by
      have := (h g).mp (by simp)
      simp at this
    have h0 : (List.filter
        (fun irec : Int × List G =>
          (List.foldl (fun d x => dict_insert d k_sim x) ([] : gamma_dict_type G) []).any
            (fun isim => decide (irec.2 = isim.2)))
        [(k_rec, List.foldl set_insert [] (g :: l))]).length = 0 := by
      simp
    rw [h0]
    exact ⟨iff_of_false (by decide) hset, iff_of_true rfl hset⟩
  | cons g2 l2 =>
    have hs := foldl_set_insert_spec (g2 :: l2) [] List.sorted_nil
    rw [foldl_dict_insert_single l2 k_sim g2]
    by_cases hset : ∀ x, x ∈ g :: l ↔ x ∈ g2 :: l2
    · have heq : (g :: l).foldl set_insert [] = (g2 :: l2).foldl set_insert [] := by
        apply sorted_ext _ _ hr.1 hs.1
        intro x
        rw [hr.2, hs.2]
        simp only [List.not_mem_nil, false_or]
        exact hset x
      have h1 : (List.filter
          (fun irec : Int × List G =>
            [(k_sim, List.foldl set_insert [] (g2 :: l2))].any
              (fun isim => decide (irec.2 = isim.2)))
          [(k_rec, List.foldl set_insert [] (g :: l))]).length = 1 := by
        simp [heq]
      rw [h1]
      exact ⟨iff_of_true rfl hset, iff_of_false (by decide) (not_not.mpr hset)⟩
    · have hne : (g :: l).foldl set_insert [] ≠ (g2 :: l2).foldl set_insert [] := by
        intro heq
        apply hset
        intro x
        have h1 := hr.2 x
        have h2 := hs.2 x
        rw [heq] at h1
        simp only [List.not_mem_nil, false_or] at h1 h2
        exact h1.symm.trans h2
      have h0 : (List.filter
          (fun irec : Int × List G =>
            [(k_sim, List.foldl set_insert [] (g2 :: l2))].any
              (fun isim => decide (irec.2 = isim.2)))
          [(k_rec, List.foldl set_insert [] (g :: l))]).length = 0 := by
        simp only [List.foldl_cons] at hne
        simp [hne]
      rw [h0]
      exact ⟨iff_of_false (by decide) hset, iff_of_true rfl hset⟩

/-- The orders A, B, C and C, B, A on blocks 1, 2, 3 hold the same blocks, so
the count is 1. -/
theorem C8_match_is_set_equality_witness :
    ([1, 2, 3] : List Nat) ≠ [] ∧
      count_good
        (([3, 2, 1] : List Nat).foldl (fun d x => dict_insert d 1 x) [])
        (([1, 2, 3] : List Nat).foldl (fun d x => dict_insert d 1 x) []) = 1 :=
  ⟨by decide,
    (C8_match_is_set_equality [1, 2, 3] [3, 2, 1] 1 1 (by decide)).1.mpr
      (by intro x; simp only [List.mem_cons, List.mem_singleton, List.not_mem_nil]; tauto)⟩

/-- C8 as stated fails: blocks recorded in the order 1, 2, 3 for the candidate
and 3, 2, 1 for the truth are stored as the same set and counted as a match. -/
theorem C8_reversed_order_matches :
    ([3, 2, 1] : List Nat).foldl (fun d x => dict_insert d 1 x) [] = [(1, [1, 2, 3])] ∧
      ([1, 2, 3] : List Nat).foldl (fun d x => dict_insert d 1 x) [] = [(1, [1, 2, 3])] ∧
      count_good
        (([3, 2, 1] : List Nat).foldl (fun d x => dict_insert d 1 x) [])
        (([1, 2, 3] : List Nat).foldl (fun d x => dict_insert d 1 x) []) = 1 ∧
      (_compare_sequences
        (([3, 2, 1] : List Nat).foldl (fun d x => dict_insert d 1 x) [])
        (([1, 2, 3] : List Nat).foldl (fun d x => dict_insert d 1 x) []) zero_counters).1
        = true := by
  decide

/-- C9 (event verdict): both comparators return `true` exactly when the matched
count equals the number of truth sequences and that number is positive. -/
theorem C9_event_verdict {G : Type} [DecidableEq G]
    (simulated_gammas_ candidates : List (Int × List G)) (m : module_state) :
    ((_compare_sequences simulated_gammas_ candidates m).1 = true ↔
        count_good simulated_gammas_ candidates = simulated_gammas_.length ∧
          0 < simulated_gammas_.length) ∧
      ((_compare_sequences_cluster simulated_gammas_ candidates m).1 = true ↔
        count_good simulated_gammas_ candidates = simulated_gammas_.length ∧
          0 < simulated_gammas_.length) := by
  constructor
  · unfold _compare_sequences
    by_cases h : candidates.isEmpty = true ∧ simulated_gammas_.isEmpty = true
    · have hs : simulated_gammas_ = [] := List.isEmpty_iff.mp h.2
      simp [h, hs]
    · simp only [if_neg h]
      by_cases h1 : count_good simulated_gammas_ candidates = simulated_gammas_.length ∧
          simulated_gammas_.length > 0
      · rw [if_pos h1]
        exact iff_of_true rfl h1
      · rw [if_neg h1]
        exact iff_of_false (by simp) h1
  · unfold _compare_sequences_cluster
    by_cases h : candidates.isEmpty = true ∧ simulated_gammas_.isEmpty = true
    · have hs : simulated_gammas_ = [] := List.isEmpty_iff.mp h.2
      simp [h, hs]
    · simp only [if_neg h]
      by_cases h1 : count_good simulated_gammas_ candidates = simulated_gammas_.length ∧
          simulated_gammas_.length > 0
      · rw [if_pos h1]
        exact iff_of_true rfl h1
      · rw [if_neg h1]
        exact iff_of_false (by simp) h1

/-- C10 fails under double counting: with truth `{1: {5,7}, 2: {8}}` and
candidates `{1: {5,7}, 2: {5,7}}` the event is reported fully matched, yet no
candidate equals the truth sequence `{8}` and two candidates equal `{5,7}`. -/
theorem C10_double_count_fully_matched :
    (_compare_sequences [((1 : Int), [5, 7]), (2, [8])] [((1 : Int), [5, 7]), (2, [5, 7])]
        zero_counters).1 = true ∧
      (_compare_sequences_cluster [((1 : Int), [5, 7]), (2, [8])]
        [((1 : Int), [5, 7]), (2, [5, 7])] zero_counters).1 = true ∧
      ([((1 : Int), [5, 7]), ((2 : Int), [5, 7])].filter (fun irec => decide (irec.2 = [8]))).length
        = 0 ∧
      ([((1 : Int), [5, 7]), ((2 : Int), [5, 7])].filter
        (fun irec => decide (irec.2 = [5, 7]))).length = 2 := by
  decide

/-- C11 (double counting): with truth `{1: {5,7}}` and candidates
`{1: {5,7}, 2: {5,7}}` the matched count is 2 and the run-level counter `ngood`
grows by 2 from any state, while there is 1 truth sequence; every candidate is
scanned against the whole truth dictionary. -/
theorem C11_double_counting :
    count_good [((1 : Int), [5, 7])] [((1 : Int), [5, 7]), ((2 : Int), [5, 7])] = 2 ∧
      ([((1 : Int), [5, 7])] : List (Int × List Nat)).length = 1 ∧
      (∀ m : module_state,
        (_compare_sequences [((1 : Int), [5, 7])] [((1 : Int), [5, 7]), ((2 : Int), [5, 7])]
          m).2._efficiency_.ngood = m._efficiency_.ngood + 2) ∧
      (∀ (sim : List (Int × List Nat)) (irec : Int × List Nat) (rest : List (Int × List Nat)),
        count_good sim (irec :: rest) =
          (if scan_simulated irec.2 sim then 1 else 0) + count_good sim rest) := by
  refine ⟨by decide, rfl, ?_, fun _ _ _ => rfl⟩
  intro m
  rw [compare_sequences_state]
  rfl

/-- C12 (no gammas): on two empty dictionaries `_compare_sequences` returns
`false`, adds 1 to `nevent` and to `nmiss`, and changes no other counter. -/
theorem C12_no_gammas {G : Type} [DecidableEq G] (m : module_state) :
    _compare_sequences ([] : List (Int × List G)) [] m =
      (false,
        { m with _efficiency_ :=
          { m._efficiency_ with
            nevent := m._efficiency_.nevent + 1,
            nmiss := m._efficiency_.nmiss + 1 } }) := by
  rfl

/-- C13 (accumulator update, tracking view): when the two dictionaries are not
both empty, one call adds 1 to `nevent`, the number of truth sequences to
`ntotal`, 1 to `nevent_gammas` when there is a truth sequence, the matched count
to `ngood`, 1 to `ngood_event` when the call returns `true`, and leaves `nmiss`
and every other counter unchanged. -/
theorem C13_accumulator_update {G : Type} [DecidableEq G]
    (simulated_gammas_ reconstructed_gammas_ : List (Int × List G)) (m : module_state)
    (h : ¬ (reconstructed_gammas_ = [] ∧ simulated_gammas_ = [])) :
    (_compare_sequences simulated_gammas_ reconstructed_gammas_ m).2 =
      { m with _efficiency_ :=
        { m._efficiency_ with
          nevent := m._efficiency_.nevent + 1,
          ntotal := m._efficiency_.ntotal + simulated_gammas_.length,
          nevent_gammas := m._efficiency_.nevent_gammas +
            (if 0 < simulated_gammas_.length then 1 else 0),
          ngood := m._efficiency_.ngood + count_good simulated_gammas_ reconstructed_gammas_,
          ngood_event := m._efficiency_.ngood_event +
            (if (_compare_sequences simulated_gammas_ reconstructed_gammas_ m).1 = true
              then 1 else 0) } } := by
  have hv := compare_sequences_verdict simulated_gammas_ reconstructed_gammas_ m
  rw [compare_sequences_state, if_neg h]
  by_cases h2 : count_good simulated_gammas_ reconstructed_gammas_ = simulated_gammas_.length ∧
      0 < simulated_gammas_.length
  · rw [if_pos h2, if_pos (hv.mpr h2)]
    simp
  · rw [if_neg h2, if_neg (fun hc => h2 (hv.mp hc))]
    simp

/-- Truth `{1: {5,7}}` against the candidate `{1: {5,7}}` from zeroed counters. -/
theorem C13_accumulator_update_witness :
    ¬ ([((1 : Int), [5, 7])] = ([] : List (Int × List Nat)) ∧
        [((1 : Int), [5, 7])] = ([] : List (Int × List Nat))) ∧
      (_compare_sequences [((1 : Int), [5, 7])] [((1 : Int), [5, 7])] zero_counters).2 =
        ⟨⟨1, 1, 0, 1, 0, 1, 1, 0, 0⟩, ⟨0, 0, 0, 0, 0, 0, 0, 0, 0⟩⟩ :=
  ⟨by decide,
    (C13_accumulator_update [((1 : Int), [5, 7])] [((1 : Int), [5, 7])] zero_counters
      (by decide)).trans (by decide)⟩

/-- C14 as stated fails: from zeroed counters, after both comparators have seen
two empty dictionaries the tracking set has `nevent = 1` and `nmiss = 1` while
the clustering set is still zero; after truth `{1: {5,7}}` against the
candidate `{1: {5,7}}` the tracking set has `nevent`, `ntotal`, `ngood` equal to
1 and the clustering set has them equal to 0. -/
theorem C14_views_differ :
    (_compare_sequences ([] : List (Int × List Nat)) [] zero_counters).2._efficiency_
        = ⟨1, 0, 0, 0, 1, 0, 0, 0, 0⟩ ∧
      (_compare_sequences_cluster ([] : List (Int × List Nat)) []
        zero_counters).2._no_gt_efficiency_ = ⟨0, 0, 0, 0, 0, 0, 0, 0, 0⟩ ∧
      (_compare_sequences [((1 : Int), [5, 7])] [((1 : Int), [5, 7])]
        zero_counters).2._efficiency_ = ⟨1, 1, 0, 1, 0, 1, 1, 0, 0⟩ ∧
      (_compare_sequences_cluster [((1 : Int), [5, 7])] [((1 : Int), [5, 7])]
        zero_counters).2._no_gt_efficiency_ = ⟨0, 0, 0, 0, 0, 0, 0, 1, 1⟩ := by
  decide

/-- C14 as the code has it: on the same pair of dictionaries the two
comparators return the same verdict; the clustering comparator adds to
`no_gt_nevent_gammas` and `no_gt_ngood_event` of the clustering set what the
tracking comparator adds to `nevent_gammas` and `ngood_event` of the tracking
set, and changes no other counter: `nevent`, `nmiss`, `ntotal` and `ngood` of the
clustering set are never written. -/
theorem C14_cluster_accounting {G : Type} [DecidableEq G]
    (simulated_gammas_ candidates : List (Int × List G)) (m : module_state) :
    (_compare_sequences_cluster simulated_gammas_ candidates m).1 =
        (_compare_sequences simulated_gammas_ candidates m).1 ∧
      (_compare_sequences_cluster simulated_gammas_ candidates m).2 =
        { m with _no_gt_efficiency_ :=
          { m._no_gt_efficiency_ with
            no_gt_nevent_gammas := m._no_gt_efficiency_.no_gt_nevent_gammas +
              ((_compare_sequences simulated_gammas_ candidates m).2._efficiency_.nevent_gammas
                - m._efficiency_.nevent_gammas),
            no_gt_ngood_event := m._no_gt_efficiency_.no_gt_ngood_event +
              ((_compare_sequences simulated_gammas_ candidates m).2._efficiency_.ngood_event
                - m._efficiency_.ngood_event) } } := by
  constructor
  · have h1 := compare_sequences_verdict simulated_gammas_ candidates m
    have h2 := compare_sequences_cluster_verdict simulated_gammas_ candidates m
    exact Bool.eq_iff_iff.mpr (h2.trans h1.symm)
  · rw [compare_sequences_cluster_state, compare_sequences_state]
    simp

/-- C15 as stated fails: after an event with two primary gammas `ngamma` is 2,
and after the next event, with one primary gamma, it is 1. -/
theorem C15_ngamma_decreases :
    process chain_neighbours 2 (one_block_event 2) zero_counters =
        some (Except.ok (process_status.PROCESS_SUCCESS,
          ⟨⟨1, 1, 2, 1, 0, 1, 1, 0, 0⟩, ⟨0, 0, 0, 0, 0, 0, 0, 1, 1⟩⟩)) ∧
      process chain_neighbours 2 (one_block_event 1)
          ⟨⟨1, 1, 2, 1, 0, 1, 1, 0, 0⟩, ⟨0, 0, 0, 0, 0, 0, 0, 1, 1⟩⟩ =
        some (Except.ok (process_status.PROCESS_SUCCESS,
          ⟨⟨2, 2, 1, 2, 0, 2, 2, 0, 0⟩, ⟨0, 0, 0, 0, 0, 0, 0, 2, 2⟩⟩)) ∧
      (1 : Nat) < 2 := by
  exact ⟨rfl, rfl, by decide⟩

/-- C15 as the code has it: `process` returns a result once the fuel allows two
nested activations, and when it returns a status no counter of either set is
smaller than before, except `ngamma` of the tracking set, which is overwritten:
it is the number of primary gammas of the event when the record has simulated
data and is unchanged otherwise. -/
theorem C15_counters_monotone {G : Type} [LinearOrder G] (neighbours : G → List G)
    (fuel : Nat) (data_record_ : things G) (m : module_state) :
    (2 ≤ fuel → ∃ r, process neighbours fuel data_record_ m = some r) ∧
    (∀ (s : process_status) (m1 : module_state),
      process neighbours fuel data_record_ m = some (Except.ok (s, m1)) →
      (m._efficiency_.nevent ≤ m1._efficiency_.nevent ∧
        m._efficiency_.ntotal ≤ m1._efficiency_.ntotal ∧
        m._efficiency_.ngood ≤ m1._efficiency_.ngood ∧
        m._efficiency_.nmiss ≤ m1._efficiency_.nmiss ∧
        m._efficiency_.ngood_event ≤ m1._efficiency_.ngood_event ∧
        m._efficiency_.nevent_gammas ≤ m1._efficiency_.nevent_gammas ∧
        m._efficiency_.no_gt_ngood_event ≤ m1._efficiency_.no_gt_ngood_event ∧
        m._efficiency_.no_gt_nevent_gammas ≤ m1._efficiency_.no_gt_nevent_gammas) ∧
      (m._no_gt_efficiency_.nevent ≤ m1._no_gt_efficiency_.nevent ∧
        m._no_gt_efficiency_.ntotal ≤ m1._no_gt_efficiency_.ntotal ∧
        m._no_gt_efficiency_.ngamma ≤ m1._no_gt_efficiency_.ngamma ∧
        m._no_gt_efficiency_.ngood ≤ m1._no_gt_efficiency_.ngood ∧
        m._no_gt_efficiency_.nmiss ≤ m1._no_gt_efficiency_.nmiss ∧
        m._no_gt_efficiency_.ngood_event ≤ m1._no_gt_efficiency_.ngood_event ∧
        m._no_gt_efficiency_.nevent_gammas ≤ m1._no_gt_efficiency_.nevent_gammas ∧
        m._no_gt_efficiency_.no_gt_ngood_event ≤ m1._no_gt_efficiency_.no_gt_ngood_event ∧
        m._no_gt_efficiency_.no_gt_nevent_gammas ≤
          m1._no_gt_efficiency_.no_gt_nevent_gammas) ∧
      m1._efficiency_.ngamma = event_ngamma data_record_ m._efficiency_.ngamma) := by
  refine ⟨fun hfuel => process_total neighbours fuel hfuel data_record_ m, ?_⟩
  intro s m1 h
  rcases process_shape neighbours fuel data_record_ with h1 | ⟨x, h1⟩ | ⟨s1, d, h1⟩
  · rw [h1 m] at h
    simp at h
  · rw [h1 m] at h
    simp at h
  · rw [h1 m] at h
    simp only [Option.some.injEq, Except.ok.injEq, Prod.mk.injEq] at h
    obtain ⟨_, hm⟩ := h
    subst hm
    simp [bump, add_efficiency]

/-- The event with one primary gamma, from zeroed counters: `ngamma` becomes 1
and `nevent` goes from 0 to 1. -/
theorem C15_counters_monotone_witness :
    process chain_neighbours 2 (one_block_event 1) zero_counters =
        some (Except.ok (process_status.PROCESS_SUCCESS,
          ⟨⟨1, 1, 1, 1, 0, 1, 1, 0, 0⟩, ⟨0, 0, 0, 0, 0, 0, 0, 1, 1⟩⟩)) ∧
      (⟨⟨1, 1, 1, 1, 0, 1, 1, 0, 0⟩, ⟨0, 0, 0, 0, 0, 0, 0, 1, 1⟩⟩ :
          module_state)._efficiency_.ngamma =
        event_ngamma (one_block_event 1) zero_counters._efficiency_.ngamma :=
  ⟨rfl,
    ((C15_counters_monotone chain_neighbours 2 (one_block_event 1) zero_counters).2
      process_status.PROCESS_SUCCESS
      ⟨⟨1, 1, 1, 1, 0, 1, 1, 0, 0⟩, ⟨0, 0, 0, 0, 0, 0, 0, 1, 1⟩⟩ rfl).2.2⟩

/-- C16 as stated fails: the events with one and with two primary gammas,
processed from zeroed counters, leave `ngamma = 2` in one order and
`ngamma = 1` in the other. -/
theorem C16_ngamma_depends_on_order :
    run chain_neighbours 2 [one_block_event 1, one_block_event 2] zero_counters =
        some (Except.ok ⟨⟨2, 2, 2, 2, 0, 2, 2, 0, 0⟩, ⟨0, 0, 0, 0, 0, 0, 0, 2, 2⟩⟩) ∧
      run chain_neighbours 2 [one_block_event 2, one_block_event 1] zero_counters =
        some (Except.ok ⟨⟨2, 2, 1, 2, 0, 2, 2, 0, 0⟩, ⟨0, 0, 0, 0, 0, 0, 0, 2, 2⟩⟩) ∧
      (⟨⟨2, 2, 2, 2, 0, 2, 2, 0, 0⟩, ⟨0, 0, 0, 0, 0, 0, 0, 2, 2⟩⟩ : module_state) ≠
        ⟨⟨2, 2, 1, 2, 0, 2, 2, 0, 0⟩, ⟨0, 0, 0, 0, 0, 0, 0, 2, 2⟩⟩ := by
  exact ⟨rfl, rfl, by decide⟩

/-- C16 as the code has it: a run returns a result once the fuel allows two
nested activations, and when a run over a list of events ends without
exception, so does the run over any permutation of the list from the same
counters, with the same final value of every counter of both sets except
`ngamma` of the tracking set. -/
theorem C16_order_independence {G : Type} [LinearOrder G] (neighbours : G → List G)
    (fuel : Nat) (l1 l2 : List (things G)) (hperm : l1.Perm l2) (m0 : module_state) :
    (2 ≤ fuel → ∃ r, run neighbours fuel l1 m0 = some r) ∧
    (∀ r : module_state, run neighbours fuel l1 m0 = some (Except.ok r) →
      ∃ r1 : module_state, run neighbours fuel l2 m0 = some (Except.ok r1) ∧
        forget_ngamma r1 = forget_ngamma r ∧
        r1._no_gt_efficiency_ = r._no_gt_efficiency_ ∧
        r1._efficiency_.nevent = r._efficiency_.nevent ∧
        r1._efficiency_.ntotal = r._efficiency_.ntotal ∧
        r1._efficiency_.ngood = r._efficiency_.ngood ∧
        r1._efficiency_.nmiss = r._efficiency_.nmiss ∧
        r1._efficiency_.ngood_event = r._efficiency_.ngood_event ∧
        r1._efficiency_.nevent_gammas = r._efficiency_.nevent_gammas ∧
        r1._efficiency_.no_gt_ngood_event = r._efficiency_.no_gt_ngood_event ∧
        r1._efficiency_.no_gt_nevent_gammas = r._efficiency_.no_gt_nevent_gammas) := by
  refine ⟨fun hfuel => run_total neighbours fuel hfuel l1 m0, ?_⟩
  intro r h
  obtain ⟨r1, hr1, hf⟩ := run_perm neighbours fuel l1 l2 hperm m0 m0 r rfl h
  refine ⟨r1, hr1, hf, ?_⟩
  simp only [forget_ngamma, module_state.mk.injEq, efficiency_type.mk.injEq] at hf
  obtain ⟨⟨h1, h2, _, h4, h5, h6, h7, h8, h9⟩, h10⟩ := hf
  exact ⟨h10, h1, h2, h4, h5, h6, h7, h8, h9⟩

/-- The two events in both orders from zeroed counters. -/
theorem C16_order_independence_witness :
    [one_block_event 1, one_block_event 2].Perm [one_block_event 2, one_block_event 1] ∧
      run chain_neighbours 2 [one_block_event 1, one_block_event 2] zero_counters =
        some (Except.ok ⟨⟨2, 2, 2, 2, 0, 2, 2, 0, 0⟩, ⟨0, 0, 0, 0, 0, 0, 0, 2, 2⟩⟩) ∧
      ∃ r1 : module_state,
        run chain_neighbours 2 [one_block_event 2, one_block_event 1] zero_counters
          = some (Except.ok r1) ∧
        forget_ngamma r1 =
          forget_ngamma ⟨⟨2, 2, 2, 2, 0, 2, 2, 0, 0⟩, ⟨0, 0, 0, 0, 0, 0, 0, 2, 2⟩⟩ :=
  ⟨List.Perm.swap _ _ _, rfl,
    (((C16_order_independence chain_neighbours 2
      [one_block_event 1, one_block_event 2] [one_block_event 2, one_block_event 1]
      (List.Perm.swap _ _ _) zero_counters).2
      ⟨⟨2, 2, 2, 2, 0, 2, 2, 0, 0⟩, ⟨0, 0, 0, 0, 0, 0, 0, 2, 2⟩⟩ rfl).imp
      (fun _ hr => ⟨hr.1, hr.2.1⟩))⟩

/-- C17 as stated fails: the step hit on block 5 with `track_id` 2 and
`parent_track_id` 1 resolves to index 1, and the truth dictionary of the event
is `{1: {5}}` (index 2 would have passed the test against `ngamma + 1 = 2`). -/
theorem C17_parent_overrides_track_id :
    resolve_track_id ({ geom_id := 5, track_id := some 2, parent_track_id := some 1 } :
        base_step_hit Nat) = 1 ∧
      _process_simulated_gammas (one_block_event 1) [] zero_counters =
        Except.ok (process_status.PROCESS_OK, [(1, [5])],
          ⟨⟨0, 0, 1, 0, 0, 0, 0, 0, 0⟩, ⟨0, 0, 0, 0, 0, 0, 0, 0, 0⟩⟩) := by
  exact ⟨rfl, rfl⟩

/-- C17 as the code has it: the index of a step hit is its `parent_track_id`
whenever that key is present, whatever its `track_id`; `track_id` is used only
when `parent_track_id` is absent, and the index is -1 when both are absent. A
hit that passes the tests of the loop is stored under that index. -/
theorem C17_owner_index {G : Type} [LinearOrder G] (a_hit : base_step_hit G) :
    (∀ p : Int, a_hit.parent_track_id = some p → resolve_track_id a_hit = p) ∧
    (∀ t : Int, a_hit.parent_track_id = none → a_hit.track_id = some t →
      resolve_track_id a_hit = t) ∧
    (a_hit.parent_track_id = none → a_hit.track_id = none → resolve_track_id a_hit = -1) ∧
    (∀ (cch : List (calibrated_calorimeter_hit G)) (ngamma : Nat)
        (rest : List (base_step_hit G)) (already_gids : List G) (d : gamma_dict_type G),
      resolve_track_id a_hit ≠ -1 → resolve_track_id a_hit ≠ 0 →
      has_hit cch a_hit.geom_id = true → a_hit.geom_id ∉ already_gids →
      resolve_track_id a_hit ≤ (ngamma : Int) + 1 →
      step_hit_loop cch ngamma (a_hit :: rest) (already_gids, d) =
        step_hit_loop cch ngamma rest
          (set_insert already_gids a_hit.geom_id,
            dict_insert d (resolve_track_id a_hit) a_hit.geom_id)) := by
  refine ⟨?_, ?_, ?_, ?_⟩
  · intro p hp
    rw [resolve_track_id_eq, hp]
  · intro t hp ht
    rw [resolve_track_id_eq, hp, ht]
  · intro hp ht
    rw [resolve_track_id_eq, hp, ht]
  · intro cch ngamma rest already_gids d h1 h2 h3 h4 h5
    exact step_hit_loop_attributed cch ngamma a_hit rest already_gids d h1 h2 h3 h4 h5

/-- The hit with `track_id` 2 and `parent_track_id` 1 has index 1. -/
theorem C17_owner_index_witness :
    ({ geom_id := 5, track_id := some 2, parent_track_id := some 1 } :
        base_step_hit Nat).parent_track_id = some 1 ∧
      resolve_track_id ({ geom_id := 5, track_id := some 2, parent_track_id := some 1 } :
        base_step_hit Nat) = 1 :=
  ⟨rfl,
    (C17_owner_index ({ geom_id := 5, track_id := some 2, parent_track_id := some 1 } :
      base_step_hit Nat)).1 1 rfl⟩

/-- C18 as stated fails: in an event without primary gamma, the step hit of
index 1 on the calibrated block 5 is kept, extraction returns `PROCESS_OK` and
the truth dictionary has the label 1, above the number 0 of primary gammas. -/
theorem C18_index_above_gamma_count_kept :
    _process_simulated_gammas (one_block_event 0) [] zero_counters =
      Except.ok (process_status.PROCESS_OK, [(1, [5])],
        ⟨⟨0, 0, 0, 0, 0, 0, 0, 0, 0⟩, ⟨0, 0, 0, 0, 0, 0, 0, 0, 0⟩⟩) := by
  rfl

/-- C18 as the code has it: a step hit that passes the three discards and whose
index is greater than the number of primary gammas plus one makes the loop, and
with it `_process_simulated_gammas`, return `PROCESS_STOP`; and when extraction
into an empty dictionary returns `PROCESS_OK`, every label of the truth
dictionary is at most `ngamma + 1`. -/
theorem C18_contamination_stop {G : Type} [LinearOrder G] :
    (∀ (cch : List (calibrated_calorimeter_hit G)) (ngamma : Nat)
        (pre : List (base_step_hit G)) (ihit : base_step_hit G)
        (post : List (base_step_hit G)) (st st1 : List G × gamma_dict_type G),
      step_hit_loop cch ngamma pre st = Except.ok (process_status.PROCESS_OK, st1) →
      resolve_track_id ihit ≠ -1 → resolve_track_id ihit ≠ 0 →
      has_hit cch ihit.geom_id = true → ihit.geom_id ∉ st1.1 →
      (ngamma : Int) + 1 < resolve_track_id ihit →
      step_hit_loop cch ngamma (pre ++ ihit :: post) st =
        Except.ok (process_status.PROCESS_STOP, st1)) ∧
    (∀ (data_record_ : things G) (sd : simulated_data G) (cd : calibrated_data G)
        (pre : List (base_step_hit G)) (ihit : base_step_hit G)
        (post : List (base_step_hit G)) (d0 : gamma_dict_type G) (m : module_state)
        (st1 : List G × gamma_dict_type G),
      data_record_.sd = some sd → data_record_.cd = some cd →
      cd.has_calibrated_calorimeter_hits = true →
      sd.step_hits = some (pre ++ ihit :: post) →
      step_hit_loop cd.calibrated_calorimeter_hits
          (sd.primary_particles.filter (fun i => i.is_gamma)).length pre ([], d0)
        = Except.ok (process_status.PROCESS_OK, st1) →
      resolve_track_id ihit ≠ -1 → resolve_track_id ihit ≠ 0 →
      has_hit cd.calibrated_calorimeter_hits ihit.geom_id = true → ihit.geom_id ∉ st1.1 →
      (((sd.primary_particles.filter (fun i => i.is_gamma)).length : Nat) : Int) + 1
        < resolve_track_id ihit →
      ∃ m1, _process_simulated_gammas data_record_ d0 m =
        Except.ok (process_status.PROCESS_STOP, st1.2, m1)) ∧
    (∀ (data_record_ : things G) (m m1 : module_state) (d : gamma_dict_type G),
      _process_simulated_gammas data_record_ [] m =
        Except.ok (process_status.PROCESS_OK, d, m1) →
      (∀ sd, data_record_.sd = some sd →
        m1._efficiency_.ngamma = (sd.primary_particles.filter (fun i => i.is_gamma)).length) ∧
      ∀ e ∈ d, e.1 ≤ (m1._efficiency_.ngamma : Int) + 1) := by
  have hstop : ∀ (cch : List (calibrated_calorimeter_hit G)) (ngamma : Nat)
      (pre : List (base_step_hit G)) (ihit : base_step_hit G)
      (post : List (base_step_hit G)) (st st1 : List G × gamma_dict_type G),
      step_hit_loop cch ngamma pre st = Except.ok (process_status.PROCESS_OK, st1) →
      resolve_track_id ihit ≠ -1 → resolve_track_id ihit ≠ 0 →
      has_hit cch ihit.geom_id = true → ihit.geom_id ∉ st1.1 →
      (ngamma : Int) + 1 < resolve_track_id ihit →
      step_hit_loop cch ngamma (pre ++ ihit :: post) st =
        Except.ok (process_status.PROCESS_STOP, st1) := by
    intro cch ngamma pre ihit post st st1 hpre h1 h2 h3 h4 h5
    rw [step_hit_loop_append cch ngamma pre (ihit :: post) st st1 hpre]
    obtain ⟨al, d⟩ := st1
    exact step_hit_loop_stop cch ngamma ihit post al d h1 h2 h3 h4 h5
  refine ⟨hstop, ?_, ?_⟩
  · intro data_record_ sd cd pre ihit post d0 m st1 hsd hcd hhas hst hpre h1 h2 h3 h4 h5
    rw [process_simulated_gammas_of_loop data_record_ sd cd (pre ++ ihit :: post) d0 m hsd hcd
      hhas hst (by simp),
      hstop _ _ pre ihit post ([], d0) st1 hpre h1 h2 h3 h4 h5]
    exact ⟨_, rfl⟩
  · intro data_record_ m m1 d h
    obtain ⟨sd, cd, hits, al, hsd, hcd, hst, hloop, hm⟩ :=
      process_simulated_gammas_ok data_record_ [] d m m1 h
    constructor
    · intro sd1 hsd1
      rw [hsd] at hsd1
      cases hsd1
      rw [hm]
    · intro e he
      obtain ⟨_, _, k3, _⟩ := step_hit_loop_spec cd.calibrated_calorimeter_hits _ hits [] []
        (al, d) List.sorted_nil hloop
      have hk : e.1 ∈ dict_keys d := List.mem_map_of_mem Prod.fst he
      rcases k3 e.1 hk with h0 | h0
      · simp [dict_keys] at h0
      · rw [hm]
        exact h0

/-- The event with one primary gamma and one step hit of index 1 on block 5:
the only label is 1, at most `1 + 1`. -/
theorem C18_contamination_stop_witness :
    _process_simulated_gammas (one_block_event 1) [] zero_counters =
        Except.ok (process_status.PROCESS_OK, [(1, [5])],
          ⟨⟨0, 0, 1, 0, 0, 0, 0, 0, 0⟩, ⟨0, 0, 0, 0, 0, 0, 0, 0, 0⟩⟩) ∧
      ∀ e ∈ ([(1, [5])] : gamma_dict_type Nat), e.1 ≤ ((1 : Nat) : Int) + 1 :=
  ⟨rfl,
    ((C18_contamination_stop (G := Nat)).2.2 (one_block_event 1) zero_counters
      ⟨⟨0, 0, 1, 0, 0, 0, 0, 0, 0⟩, ⟨0, 0, 0, 0, 0, 0, 0, 0, 0⟩⟩ [(1, [5])] rfl).2⟩

/-- C19 (first-come ownership): when extraction into an empty dictionary
returns `PROCESS_OK`, block `b` is in the truth sequence of label `i` exactly
when `b` has a calibrated hit and the earliest step hit on `b` whose index is
not 0 has index `i`; so no block is in two truth sequences, no label is 0, no
truth sequence is empty, and every truth block has a calibrated hit. -/
theorem C19_first_come_ownership {G : Type} [LinearOrder G] (data_record_ : things G)
    (m m1 : module_state) (d : gamma_dict_type G)
    (h : _process_simulated_gammas data_record_ [] m
      = Except.ok (process_status.PROCESS_OK, d, m1)) :
    ∃ (sd : simulated_data G) (cd : calibrated_data G) (hits : List (base_step_hit G)),
      data_record_.sd = some sd ∧ data_record_.cd = some cd ∧ sd.step_hits = some hits ∧
      (∀ (i : Int) (b : G), stored_under d i b ↔
        (has_hit cd.calibrated_calorimeter_hits b = true ∧
          ∃ (pre : List (base_step_hit G)) (ihit : base_step_hit G)
              (post : List (base_step_hit G)),
            hits = pre ++ ihit :: post ∧ ihit.geom_id = b ∧ resolve_track_id ihit = i ∧
              i ≠ 0 ∧ ∀ h1 ∈ pre, h1.geom_id = b → resolve_track_id h1 = 0)) ∧
      (∀ (i j : Int) (b : G), stored_under d i b → stored_under d j b → i = j) ∧
      (∀ e ∈ d, e.1 ≠ 0) ∧
      (∀ e ∈ d, e.2 ≠ []) ∧
      (∀ e ∈ d, ∀ b ∈ e.2, has_hit cd.calibrated_calorimeter_hits b = true) := by
  obtain ⟨sd, cd, hits, al, hsd, hcd, hst, hloop, _⟩ :=
    process_simulated_gammas_ok data_record_ [] d m m1 h
  obtain ⟨k1, k2, _, k4⟩ := step_hit_loop_spec cd.calibrated_calorimeter_hits _ hits [] []
    (al, d) List.sorted_nil hloop
  have hiff : ∀ (i : Int) (b : G), stored_under d i b ↔
      (has_hit cd.calibrated_calorimeter_hits b = true ∧ first_owner hits b = some i) := by
    intro i b
    rw [stored_under_iff d k1, k2 i b]
    simp [dict_at]
  have hne : ∀ e ∈ d, e.2 ≠ [] := k4 (by simp)
  refine ⟨sd, cd, hits, hsd, hcd, hst, ?_, ?_, ?_, hne, ?_⟩
  · intro i b
    rw [hiff, first_owner_eq_some_iff]
  · intro i j b hi hj
    have h1 := ((hiff i b).mp hi).2
    have h2 := ((hiff j b).mp hj).2
    rw [h1] at h2
    exact Option.some.inj h2
  · intro e he h0
    obtain ⟨b, hb⟩ := List.exists_mem_of_ne_nil e.2 (hne e he)
    have hs : stored_under d e.1 b := ⟨e, he, rfl, hb⟩
    obtain ⟨_, _, _, _, _, _, hi, _⟩ :=
      (first_owner_eq_some_iff hits b e.1).mp ((hiff e.1 b).mp hs).2
    exact hi h0
  · intro e he b hb
    have hs : stored_under d e.1 b := ⟨e, he, rfl, hb⟩
    exact ((hiff e.1 b).mp hs).1

/-- The event with one step hit of index 1 on the calibrated block 5. -/
theorem C19_first_come_ownership_witness :
    _process_simulated_gammas (one_block_event 1) [] zero_counters =
        Except.ok (process_status.PROCESS_OK, [(1, [5])],
          ⟨⟨0, 0, 1, 0, 0, 0, 0, 0, 0⟩, ⟨0, 0, 0, 0, 0, 0, 0, 0, 0⟩⟩) ∧
      ∃ (sd : simulated_data Nat) (cd : calibrated_data Nat) (hits : List (base_step_hit Nat)),
        (one_block_event 1).sd = some sd ∧ (one_block_event 1).cd = some cd ∧
        sd.step_hits = some hits ∧
        (∀ (i : Int) (b : Nat), stored_under ([(1, [5])] : gamma_dict_type Nat) i b ↔
          (has_hit cd.calibrated_calorimeter_hits b = true ∧
            ∃ (pre : List (base_step_hit Nat)) (ihit : base_step_hit Nat)
                (post : List (base_step_hit Nat)),
              hits = pre ++ ihit :: post ∧ ihit.geom_id = b ∧ resolve_track_id ihit = i ∧
                i ≠ 0 ∧ ∀ h1 ∈ pre, h1.geom_id = b → resolve_track_id h1 = 0)) ∧
        (∀ (i j : Int) (b : Nat), stored_under ([(1, [5])] : gamma_dict_type Nat) i b →
          stored_under ([(1, [5])] : gamma_dict_type Nat) j b → i = j) ∧
        (∀ e ∈ ([(1, [5])] : gamma_dict_type Nat), e.1 ≠ 0) ∧
        (∀ e ∈ ([(1, [5])] : gamma_dict_type Nat), e.2 ≠ []) ∧
        (∀ e ∈ ([(1, [5])] : gamma_dict_type Nat), ∀ b ∈ e.2,
          has_hit cd.calibrated_calorimeter_hits b = true) :=
  ⟨rfl,
    C19_first_come_ownership (one_block_event 1) zero_counters
      ⟨⟨0, 0, 1, 0, 0, 0, 0, 0, 0⟩, ⟨0, 0, 0, 0, 0, 0, 0, 0, 0⟩⟩ [(1, [5])] rfl⟩

/-- C20 as stated fails: a step hit that carries `track_id` 5, a value other
than -1, and `parent_track_id` -1 raises the error. -/
theorem C20_parent_minus_one_raises :
    step_hit_loop ([⟨5, 1⟩] : List (calibrated_calorimeter_hit Nat)) 1
        [{ geom_id := 5, track_id := some 5, parent_track_id := some (-1) }] ([], [])
      = Except.error logic_error.missing_primary_track_id := by
  rfl

/-- C20 as the code has it: a step hit that carries neither identifier, met
after hits on which the loop ran on, raises the logic error, in the loop and in
`_process_simulated_gammas`, whether or not its block has a calibrated hit; and
a hit raises the error exactly when its index is -1, that is when its
`parent_track_id` is -1, or is absent with a `track_id` that is absent or -1. -/
theorem C20_missing_identifier {G : Type} [LinearOrder G] :
    (∀ (cch : List (calibrated_calorimeter_hit G)) (ngamma : Nat)
        (pre : List (base_step_hit G)) (ihit : base_step_hit G)
        (post : List (base_step_hit G)) (st st1 : List G × gamma_dict_type G),
      step_hit_loop cch ngamma pre st = Except.ok (process_status.PROCESS_OK, st1) →
      ihit.track_id = none → ihit.parent_track_id = none →
      step_hit_loop cch ngamma (pre ++ ihit :: post) st =
        Except.error logic_error.missing_primary_track_id) ∧
    (∀ (data_record_ : things G) (sd : simulated_data G) (cd : calibrated_data G)
        (pre : List (base_step_hit G)) (ihit : base_step_hit G)
        (post : List (base_step_hit G)) (d0 : gamma_dict_type G) (m : module_state)
        (st1 : List G × gamma_dict_type G),
      data_record_.sd = some sd → data_record_.cd = some cd →
      cd.has_calibrated_calorimeter_hits = true →
      sd.step_hits = some (pre ++ ihit :: post) →
      step_hit_loop cd.calibrated_calorimeter_hits
          (sd.primary_particles.filter (fun i => i.is_gamma)).length pre ([], d0)
        = Except.ok (process_status.PROCESS_OK, st1) →
      ihit.track_id = none → ihit.parent_track_id = none →
      _process_simulated_gammas data_record_ d0 m =
        Except.error logic_error.missing_primary_track_id) ∧
    (∀ (cch : List (calibrated_calorimeter_hit G)) (ngamma : Nat) (ihit : base_step_hit G)
        (st : List G × gamma_dict_type G),
      (step_hit_loop cch ngamma [ihit] st = Except.error logic_error.missing_primary_track_id
        ↔ resolve_track_id ihit = -1)) ∧
    (∀ ihit : base_step_hit G,
      (resolve_track_id ihit = -1 ↔
        (ihit.parent_track_id = some (-1) ∨
          (ihit.parent_track_id = none ∧
            (ihit.track_id = none ∨ ihit.track_id = some (-1)))))) := by
  have hraise : ∀ (cch : List (calibrated_calorimeter_hit G)) (ngamma : Nat)
      (pre : List (base_step_hit G)) (ihit : base_step_hit G)
      (post : List (base_step_hit G)) (st st1 : List G × gamma_dict_type G),
      step_hit_loop cch ngamma pre st = Except.ok (process_status.PROCESS_OK, st1) →
      ihit.track_id = none → ihit.parent_track_id = none →
      step_hit_loop cch ngamma (pre ++ ihit :: post) st =
        Except.error logic_error.missing_primary_track_id := by
    intro cch ngamma pre ihit post st st1 hpre ht hp
    rw [step_hit_loop_append cch ngamma pre (ihit :: post) st st1 hpre]
    obtain ⟨al, d⟩ := st1
    have hr : resolve_track_id ihit = -1 := by
      rw [resolve_track_id_eq, hp, ht]
    rw [step_hit_loop_cons, if_pos hr]
  refine ⟨hraise, ?_, ?_, ?_⟩
  · intro data_record_ sd cd pre ihit post d0 m st1 hsd hcd hhas hst hpre ht hp
    rw [process_simulated_gammas_of_loop data_record_ sd cd (pre ++ ihit :: post) d0 m hsd hcd
      hhas hst (by simp),
      hraise _ _ pre ihit post ([], d0) st1 hpre ht hp]
  · intro cch ngamma ihit st
    obtain ⟨al, d⟩ := st
    rw [step_hit_loop_cons]
    by_cases c1 : resolve_track_id ihit = -1
    · rw [if_pos c1]
      exact iff_of_true rfl c1
    · rw [if_neg c1]
      refine iff_of_false ?_ c1
      split_ifs <;> simp [step_hit_loop]
  · intro ihit
    rw [resolve_track_id_eq]
    cases hp : ihit.parent_track_id <;> cases ht : ihit.track_id <;> simp

/-- A hit without identifiers on block 7, after the hit of index 1 on block 5. -/
theorem C20_missing_identifier_witness :
    step_hit_loop ([⟨5, 1⟩] : List (calibrated_calorimeter_hit Nat)) 1
        [{ geom_id := 5, track_id := some 2, parent_track_id := some 1 }] ([], [])
      = Except.ok (process_status.PROCESS_OK, ([5], [(1, [5])])) ∧
    step_hit_loop ([⟨5, 1⟩] : List (calibrated_calorimeter_hit Nat)) 1
        ([{ geom_id := 5, track_id := some 2, parent_track_id := some 1 }] ++
          { geom_id := 7, track_id := none, parent_track_id := none } :: []) ([], [])
      = Except.error logic_error.missing_primary_track_id :=
  ⟨rfl,
    (C20_missing_identifier (G := Nat)).1 [⟨5, 1⟩] 1
      [{ geom_id := 5, track_id := some 2, parent_track_id := some 1 }]
      { geom_id := 7, track_id := none, parent_track_id := none } [] ([], [])
      ([5], [(1, [5])]) rfl rfl rfl⟩

/-- C21, counterexample: an event with one primary gamma and no calibrated
calorimeter hit is skipped (the extraction of the simulated gammas returns
`PROCESS_STOP`, and so does `process`), yet the field `ngamma` of the tracking
set goes from 0 to 1. -/
theorem C21_skipped_event_writes_ngamma :
    (∃ d m1, _process_simulated_gammas no_calo_event [] zero_counters
      = Except.ok (process_status.PROCESS_STOP, d, m1)) ∧
    (∃ m1, process chain_neighbours 2 no_calo_event zero_counters
        = some (Except.ok (process_status.PROCESS_STOP, m1)) ∧
      zero_counters._efficiency_.ngamma = 0 ∧ m1._efficiency_.ngamma = 1) :=
  ⟨⟨_, _, rfl⟩, ⟨_, rfl, rfl, rfl⟩⟩

/-- C21 (skipped events), amended: on a record that has the particle track bank
and the event header, when the extraction of the simulated gammas returns the
status `s` and the counters `m1`, and `s` or the status of the extraction of the
reconstructed gammas is not OK, `process` returns the first such status with the
counters `m1`, so no comparator has run; `m1` is `m` except for the field
`ngamma` of the tracking set, which holds what `event_ngamma` gives: the number
of primary gammas of the event when the record has simulated data. -/
theorem C21_skipped_events {G : Type} [LinearOrder G] (neighbours : G → List G)
    (fuel : Nat) (data_record_ : things G) (m : module_state)
    (hfuel : 2 ≤ fuel) (hptd : data_record_.ptd ≠ none) (heh : data_record_.eh = true)
    (s : process_status) (d : gamma_dict_type G) (m1 : module_state)
    (hext : _process_simulated_gammas data_record_ [] m = Except.ok (s, d, m1))
    (hskip : s ≠ process_status.PROCESS_OK ∨
      (_process_reconstructed_gammas data_record_ []).1 ≠ process_status.PROCESS_OK) :
    ∃ s1 : process_status,
      process neighbours fuel data_record_ m = some (Except.ok (s1, m1)) ∧
      s1 ≠ process_status.PROCESS_OK ∧
      (s1 = s ∨ (s = process_status.PROCESS_OK ∧
        s1 = (_process_reconstructed_gammas data_record_ []).1)) ∧
      m1 = { m with _efficiency_ :=
        { m._efficiency_ with
          ngamma := event_ngamma data_record_ m._efficiency_.ngamma } } := by
  have hm1 : m1 = { m with _efficiency_ :=
      { m._efficiency_ with
        ngamma := event_ngamma data_record_ m._efficiency_.ngamma } } := by
    rcases process_simulated_gammas_shape data_record_ [] with ⟨x, hx⟩ | ⟨s2, d2, h2⟩
    · rw [hx m] at hext
      cases hext
    · rw [h2 m] at hext
      injection hext with hext
      injection hext with _ hext
      injection hext with _ hext
      exact hext.symm
  cases hp : data_record_.ptd with
  | none => exact absurd hp hptd
  | some ptd =>
    obtain ⟨r, hr⟩ := pre_process_clustering_total neighbours fuel hfuel ptd []
    have heh2 : ¬ data_record_.eh = false := by simp [heh]
    by_cases hs : s ≠ process_status.PROCESS_OK
    · refine ⟨s, ?_, hs, Or.inl rfl, hm1⟩
      unfold process
      simp only [hp, hr, if_neg heh2, hext, if_pos hs]
    · have hrec : (_process_reconstructed_gammas data_record_ []).1
          ≠ process_status.PROCESS_OK := by
        rcases hskip with h | h
        · exact absurd h hs
        · exact h
      refine ⟨(_process_reconstructed_gammas data_record_ []).1, ?_, hrec,
        Or.inr ⟨not_not.mp hs, rfl⟩, hm1⟩
      unfold process
      simp only [hp, hr, if_neg heh2, hext, if_neg hs, if_pos hrec]

/-- An event with one primary gamma and no calibrated hit, from the all-zero
counters. -/
theorem C21_skipped_events_witness :
    ∃ s1 : process_status,
      process chain_neighbours 2 no_calo_event zero_counters
        = some (Except.ok (s1, ⟨⟨0, 0, 1, 0, 0, 0, 0, 0, 0⟩, ⟨0, 0, 0, 0, 0, 0, 0, 0, 0⟩⟩)) ∧
      s1 ≠ process_status.PROCESS_OK ∧
      (s1 = process_status.PROCESS_STOP ∨ (process_status.PROCESS_STOP = process_status.PROCESS_OK ∧
        s1 = (_process_reconstructed_gammas no_calo_event []).1)) ∧
      (⟨⟨0, 0, 1, 0, 0, 0, 0, 0, 0⟩, ⟨0, 0, 0, 0, 0, 0, 0, 0, 0⟩⟩ : module_state)
        = { zero_counters with _efficiency_ :=
          { zero_counters._efficiency_ with
            ngamma := event_ngamma no_calo_event zero_counters._efficiency_.ngamma } } :=
  C21_skipped_events chain_neighbours 2 no_calo_event zero_counters (by decide) (by simp [no_calo_event]) rfl
    process_status.PROCESS_STOP [] ⟨⟨0, 0, 1, 0, 0, 0, 0, 0, 0⟩, ⟨0, 0, 0, 0, 0, 0, 0, 0, 0⟩⟩
    rfl (Or.inl (by decide))

/-- C22 (independence of the two counter sets): `_compare_sequences` leaves the
clustering-scored set `_no_gt_efficiency_` as it was, and
`_compare_sequences_cluster` leaves the tracking-scored set `_efficiency_` as it
was, for all dictionaries and all counters; in the set it does write,
`_compare_sequences` leaves the two fields named after the clustering alone. -/
theorem C22_counter_sets_independent {G : Type} [DecidableEq G]
    (simulated_gammas_ other_gammas_ : List (Int × List G)) (m : module_state) :
    (_compare_sequences simulated_gammas_ other_gammas_ m).2._no_gt_efficiency_
      = m._no_gt_efficiency_ ∧
    (_compare_sequences_cluster simulated_gammas_ other_gammas_ m).2._efficiency_
      = m._efficiency_ ∧
    ((_compare_sequences simulated_gammas_ other_gammas_ m).2._efficiency_.no_gt_ngood_event
        = m._efficiency_.no_gt_ngood_event ∧
      (_compare_sequences simulated_gammas_ other_gammas_ m).2._efficiency_.no_gt_nevent_gammas
        = m._efficiency_.no_gt_nevent_gammas) := by
  rw [compare_sequences_state, compare_sequences_cluster_state]
  exact ⟨rfl, rfl, ⟨rfl, rfl⟩⟩

/-- C23 (flood-fill termination): for every hit list, visited list, cluster,
block and neighbour function, `get_new_neighbours` returns a result as soon as
it is allowed two nested activations, and more activations never change the
result. Its recursion depth is at most the number `distinct_hit_blocks` of
distinct hit blocks: the top call with that many levels of nested calls below
it returns, and when the block of the top call carries a hit, as in every call
the seed loop makes, that many activations, the top call included, are enough. -/
theorem C23_flood_fill_terminates {G : Type} [DecidableEq G] (neighbours : G → List G)
    (cch : List (calibrated_calorimeter_hit G)) (gid : G) (ccl a_cluster : List G) :
    (∀ fuel, 2 ≤ fuel →
      ∃ r, get_new_neighbours neighbours cch fuel gid (ccl, a_cluster) = some r) ∧
    (∀ f1 f2 r, f1 ≤ f2 →
      get_new_neighbours neighbours cch f1 gid (ccl, a_cluster) = some r →
      get_new_neighbours neighbours cch f2 gid (ccl, a_cluster) = some r) ∧
    (∃ r, get_new_neighbours neighbours cch (distinct_hit_blocks cch + 1) gid (ccl, a_cluster)
      = some r) ∧
    (has_hit cch gid = true →
      ∃ r, get_new_neighbours neighbours cch (distinct_hit_blocks cch) gid (ccl, a_cluster)
        = some r) := by
  refine ⟨fun fuel hfuel => get_new_neighbours_total neighbours cch fuel hfuel gid ccl a_cluster,
    fun f1 f2 r hle h => get_new_neighbours_mono neighbours cch f1 f2 gid _ r hle h, ?_, ?_⟩
  · by_cases hD : 1 ≤ distinct_hit_blocks cch
    · exact get_new_neighbours_total neighbours cch _ (by omega) gid ccl a_cluster
    · have h0 : distinct_hit_blocks cch = 0 := by omega
      rw [h0]
      refine get_new_neighbours_one neighbours cch gid ccl a_cluster (Or.inr ?_)
      intro x _ hx
      exact hD (one_le_distinct_hit_blocks cch x hx.1)
  · intro hhit
    by_cases hD : 2 ≤ distinct_hit_blocks cch
    · exact get_new_neighbours_total neighbours cch _ hD gid ccl a_cluster
    · have h1 : distinct_hit_blocks cch = 1 := by
        have := one_le_distinct_hit_blocks cch gid hhit
        omega
      rw [h1]
      refine get_new_neighbours_one neighbours cch gid ccl a_cluster (Or.inr ?_)
      intro x _ hx
      have hne : x ≠ gid := fun h => hx.2 (by simp [h])
      exact hD (two_le_distinct_hit_blocks cch x gid hx.1 hhit hne)

/-- C24 (what a cluster contains): for a seed `g` that is not in the visited
list `ccl`, the call of the seed loop returns the cluster `g :: new` and the
visited list `ccl ++ g :: new`, where `new` holds no block twice, holds exactly
the neighbours of `g` that have a hit, are not in `ccl` and are not `g` itself,
and lists them in the order of their first occurrence among the neighbours of
`g`. Each nested call on a block of `new` returns that same state at once. The
seed loop stores `g :: new` as the next cluster. -/
theorem C24_cluster_contents {G : Type} [DecidableEq G] (neighbours : G → List G)
    (cch : List (calibrated_calorimeter_hit G)) (fuel : Nat) (g : G) (ccl : List G)
    (hg : g ∉ ccl) :
    ∃ new : List G,
      get_new_neighbours neighbours cch (fuel + 2) g (ccl, [g])
        = some (ccl ++ g :: new, g :: new) ∧
      new.Nodup ∧
      (∀ x, x ∈ new ↔ x ∈ neighbours g ∧ has_hit cch x = true ∧ x ∉ ccl ∧ x ≠ g) ∧
      new.Pairwise (fun x y => (neighbours g).indexOf x < (neighbours g).indexOf y) ∧
      (∀ x ∈ new, ∀ k : Nat,
        get_new_neighbours neighbours cch (k + 1) x (ccl ++ g :: new, g :: new)
          = some (ccl ++ g :: new, g :: new)) ∧
      (∀ (icalo : calibrated_calorimeter_hit G) (rest : List (calibrated_calorimeter_hit G))
          (cls : List (List G)), icalo.geom_id = g →
        seed_loop neighbours cch (fuel + 2) (icalo :: rest) (ccl, cls)
          = seed_loop neighbours cch (fuel + 2) rest (ccl ++ g :: new, cls ++ [g :: new])) := by
  obtain ⟨new, heq, hnd, hmem, hord⟩ :=
    neighbour_loop_exact cch (neighbours g) [] (ccl ++ [g]) [g]
  have hcall : get_new_neighbours neighbours cch (fuel + 2) g (ccl, [g])
      = some (ccl ++ g :: new, g :: new) := by
    rw [get_new_neighbours_succ, if_neg hg, heq]
    simp only [List.nil_append]
    rw [recursion_loop_visited neighbours cch fuel new (ccl ++ [g] ++ new) ([g] ++ new)
      (fun x hx => List.mem_append_right _ hx)]
    simp
  refine ⟨new, hcall, hnd, ?_, hord, ?_, ?_⟩
  · intro x
    rw [hmem]
    simp only [List.mem_append, List.mem_singleton, not_or]
  · intro x hx k
    rw [get_new_neighbours_succ, if_pos]
    exact List.mem_append_right _ (List.mem_cons_of_mem _ hx)
  · intro icalo rest cls hi
    subst hi
    simp only [seed_loop, if_neg hg, hcall]

/-- The seed 2 of the chain 1 - 2 - 3 with hits on the three blocks. -/
theorem C24_cluster_contents_witness :
    (2 : Nat) ∉ ([] : List Nat) ∧
    ∃ new : List Nat,
      get_new_neighbours chain_neighbours [⟨1, 0⟩, ⟨2, 0⟩, ⟨3, 0⟩] (0 + 2) 2 ([], [2])
        = some ([] ++ 2 :: new, 2 :: new) ∧
      new.Nodup ∧
      (∀ x, x ∈ new ↔ x ∈ chain_neighbours 2 ∧
        has_hit ([⟨1, 0⟩, ⟨2, 0⟩, ⟨3, 0⟩] : List (calibrated_calorimeter_hit Nat)) x = true ∧
        x ∉ ([] : List Nat) ∧ x ≠ 2) ∧
      new.Pairwise (fun x y => (chain_neighbours 2).indexOf x < (chain_neighbours 2).indexOf y) ∧
      (∀ x ∈ new, ∀ k : Nat,
        get_new_neighbours chain_neighbours [⟨1, 0⟩, ⟨2, 0⟩, ⟨3, 0⟩] (k + 1) x
            ([] ++ 2 :: new, 2 :: new)
          = some ([] ++ 2 :: new, 2 :: new)) ∧
      (∀ (icalo : calibrated_calorimeter_hit Nat) (rest : List (calibrated_calorimeter_hit Nat))
          (cls : List (List Nat)), icalo.geom_id = 2 →
        seed_loop chain_neighbours [⟨1, 0⟩, ⟨2, 0⟩, ⟨3, 0⟩] (0 + 2) (icalo :: rest) ([], cls)
          = seed_loop chain_neighbours [⟨1, 0⟩, ⟨2, 0⟩, ⟨3, 0⟩] (0 + 2) rest
              ([] ++ 2 :: new, cls ++ [2 :: new])) :=
  ⟨by decide, C24_cluster_contents chain_neighbours [⟨1, 0⟩, ⟨2, 0⟩, ⟨3, 0⟩] 0 2 [] (by decide)⟩

/-- C25 (dense labels): with fuel for two nested activations and an empty
dictionary, `_pre_process_clustering` returns a dictionary `d` and a value `n`
of `number_of_clusters` such that the labels of `d` are 1, 2, ..., n in this
order, every stored set is non-empty, and `n` is the number of geometric
clusters plus the number of times the split test succeeds along the sorted
time-keyed maps. -/
theorem C25_dense_labels {G : Type} [LinearOrder G] (neighbours : G → List G)
    (fuel : Nat) (hfuel : 2 ≤ fuel) (ptd : List (particle_track G)) :
    ∃ (d : gamma_dict_type G) (n : Nat),
      _pre_process_clustering neighbours fuel ptd [] = some (d, n) ∧
      dict_keys d = (List.range n).map (fun i : Nat => (i : Int) + 1) ∧
      (∀ e ∈ d, e.2 ≠ []) ∧
      ∃ clusters : List (List G),
        geometric_clusters neighbours
          ((fetch_particles ptd).map (fun a_gamma => a_gamma.associated_calorimeter_hits)).flatten
          fuel = some clusters ∧
        n = clusters.length +
          ((sort_clusters (clusters.map (order_cluster
              ((fetch_particles ptd).map
                (fun a_gamma => a_gamma.associated_calorimeter_hits)).flatten))).map
            (fun m => split_count m 0)).sum := by
  obtain ⟨k, rfl⟩ : ∃ k, fuel = k + 2 := ⟨fuel - 2, by omega⟩
  generalize hcch :
    ((fetch_particles ptd).map (fun a_gamma => a_gamma.associated_calorimeter_hits)).flatten
      = cch
  obtain ⟨ccl1, cls1, heq, k1, _, k3, _, _⟩ :=
    seed_loop_spec neighbours cch k cch [] [] (fun _ h => h) rfl List.nodup_nil (by simp)
  have hcls : ∀ c ∈ cls1, c ≠ [] :=
    seed_loop_ne_nil neighbours cch k cch [] [] ccl1 cls1 (by simp) heq
  have hms : ∀ m ∈ sort_clusters (cls1.map (order_cluster cch)), m ≠ [] := by
    intro m hm
    unfold sort_clusters at hm
    rw [List.mem_insertionSort, List.mem_map] at hm
    obtain ⟨c, hc, rfl⟩ := hm
    cases c with
    | nil => exact absurd rfl (hcls [] hc)
    | cons g r =>
      apply order_cluster_ne_nil
      refine ⟨g, by simp, k3 g ?_⟩
      rw [k1]
      exact List.mem_flatten.mpr ⟨g :: r, hc, by simp⟩
  have hinit := @split_inv_init G _ cls1.length
  obtain ⟨r1, r2, r3, r4⟩ :=
    foldl_split_cluster_dense (sort_clusters (cls1.map (order_cluster cch))) _ hms hinit
      (le_refl _) (by simp [dict_keys]; intro k h1; omega) (by simp)
  have hinv := foldl_split_cluster_inv (sort_clusters (cls1.map (order_cluster cch))) _ hinit
  have hlen : (sort_clusters (cls1.map (order_cluster cch))).length = cls1.length := by
    unfold sort_clusters
    rw [List.length_insertionSort, List.length_map]
  refine ⟨_, _, ?_, ?_, r2, cls1, ?_, r4⟩
  · unfold _pre_process_clustering
    rw [hcch]
    simp only [heq]
  · apply keys_eq_range _ _ hinv.1
    intro kk
    rw [r1, r3, r4, hlen]
    push_cast
    simp
  · simp [geometric_clusters, heq]

/-- One neutral particle with hits on the adjacent blocks 1 and 2 at times 1
and 5: one geometric cluster, one split, labels 1 and 2. -/
theorem C25_dense_labels_witness :
    2 ≤ 2 ∧
    ∃ (d : gamma_dict_type Nat) (n : Nat),
      _pre_process_clustering chain_neighbours 2
          [{ track_id := 0, neutral := true,
             associated_calorimeter_hits := [⟨1, 1⟩, ⟨2, 5⟩] }] [] = some (d, n) ∧
      dict_keys d = (List.range n).map (fun i : Nat => (i : Int) + 1) ∧
      (∀ e ∈ d, e.2 ≠ []) ∧
      ∃ clusters : List (List Nat),
        geometric_clusters chain_neighbours
          ((fetch_particles
              ([{ track_id := 0, neutral := true,
                  associated_calorimeter_hits := [⟨1, 1⟩, ⟨2, 5⟩] }] :
                List (particle_track Nat))).map
            (fun a_gamma => a_gamma.associated_calorimeter_hits)).flatten
          2 = some clusters ∧
        n = clusters.length +
          ((sort_clusters (clusters.map (order_cluster
              ((fetch_particles
                  ([{ track_id := 0, neutral := true,
                      associated_calorimeter_hits := [⟨1, 1⟩, ⟨2, 5⟩] }] :
                    List (particle_track Nat))).map
                (fun a_gamma => a_gamma.associated_calorimeter_hits)).flatten))).map
            (fun m => split_count m 0)).sum :=
  ⟨by decide, C25_dense_labels chain_neighbours 2 (by decide)
    [{ track_id := 0, neutral := true, associated_calorimeter_hits := [⟨1, 1⟩, ⟨2, 5⟩] }]⟩

/-- C26 (counter invariants): in the state reached from the all-zero counters by
any finite list of `_compare_sequences` calls (counters taken as unbounded
naturals), missed + events with gammas <= events processed, fully matched
events <= events with gammas <= total truth gammas, and fully matched events <=
matched. Hence the numerators of the missed rate and of the two fully-matched
event rates are at most their denominators, and each reported rate whose
denominator is zero has a zero numerator (the clustering counters are still
all zero). -/
theorem C26_counter_invariants {G : Type} [DecidableEq G]
    (calls : List (List (Int × List G) × List (Int × List G))) :
    ((compare_calls calls zero_counters)._efficiency_.nmiss
        + (compare_calls calls zero_counters)._efficiency_.nevent_gammas
      ≤ (compare_calls calls zero_counters)._efficiency_.nevent) ∧
    ((compare_calls calls zero_counters)._efficiency_.ngood_event
      ≤ (compare_calls calls zero_counters)._efficiency_.nevent_gammas) ∧
    ((compare_calls calls zero_counters)._efficiency_.nevent_gammas
      ≤ (compare_calls calls zero_counters)._efficiency_.ntotal) ∧
    ((compare_calls calls zero_counters)._efficiency_.ngood_event
      ≤ (compare_calls calls zero_counters)._efficiency_.ngood) ∧
    ((compare_calls calls zero_counters)._efficiency_.nmiss
      ≤ (compare_calls calls zero_counters)._efficiency_.nevent) ∧
    ((compare_calls calls zero_counters)._efficiency_.ngood_event
      ≤ (compare_calls calls zero_counters)._efficiency_.nevent) ∧
    ((compare_calls calls zero_counters)._efficiency_.ntotal = 0 →
      (compare_calls calls zero_counters)._efficiency_.ngood = 0) ∧
    ((compare_calls calls zero_counters)._efficiency_.nevent = 0 →
      (compare_calls calls zero_counters)._efficiency_.nmiss = 0 ∧
      (compare_calls calls zero_counters)._efficiency_.ngood_event = 0) ∧
    ((compare_calls calls zero_counters)._efficiency_.nevent_gammas = 0 →
      (compare_calls calls zero_counters)._efficiency_.ngood_event = 0) ∧
    ((compare_calls calls zero_counters)._no_gt_efficiency_.no_gt_nevent_gammas = 0 ∧
      (compare_calls calls zero_counters)._no_gt_efficiency_.no_gt_ngood_event = 0) := by
  obtain ⟨h1, h2, h3, h4, h5, h6⟩ := compare_calls_keeps calls
  refine ⟨h1, h2, h3, h4, by omega, by omega, h5, fun h => ⟨by omega, by omega⟩,
    fun h => by omega, ?_⟩
  rw [h6]
  exact ⟨rfl, rfl⟩

end analysis
